import Mathlib

/-!
CSP Sudoku solver (`src/app.js`): shallow embedding and verified properties.

The JavaScript function `solveSudokuCSP(board, useMRV, useLCV)` owns two closure constants,
`SIZE = board.length` and `BOX_SIZE = Math.sqrt(SIZE)`, a counter `openedStates`, and the inner
functions `isBoardValid`, `isValid`, `initializeDomains`, `selectCell`, `sortDomainByLCV`,
`updateDomains` and `backtrack`.

Embedding choices.

* A board is a list of rows of integers.  A read `board[r][c]` is `cellAt board r c`, an
  `Option Int` in which `none` stands for JavaScript's `undefined`.  On an `N × N` board every
  read made by the program is in range.
* A JavaScript `Set` of numbers is the list of its elements in insertion order; `add`, `delete`,
  `has`, `size` and `clear` are `setAdd`, `setDelete`, `List.contains`, `List.length` and `[]`.
* The closure constants `SIZE`, `BOX_SIZE`, `useMRV`, `useLCV` are explicit arguments of the inner
  functions.  `solveSudokuCSP` computes `BOX_SIZE` as `Nat.sqrt SIZE`, which is the value of
  `Math.sqrt(SIZE)` whenever `SIZE` is a perfect square.
* The board is mutated in place and `openedStates` is a mutable counter: both are threaded
  through `backtrack` as explicit state, and `backtrack` returns the flag together with the
  final board and counter.
* `backtrack` is recursive without an evident structural argument, so the embedding takes a
  fuel argument and returns `none` when the fuel runs out.  `backtrack_isSome` shows that any
  fuel above the number of empty cells is enough.
-/

namespace SudokuCSP

/-- A board: a list of rows of integer cells; `0` is an empty cell. -/
abbrev Board := List (List Int)

/-- A grid of candidate sets; a set is the list of its elements in insertion order. -/
abbrev Domains := List (List (List Int))

/-- The read `board[row][col]`; `none` stands for `undefined`. -/
def cellAt (board : Board) (row col : Nat) : Option Int :=
  match board[row]? with
  | none => none
  | some r => r[col]?

/-- The write `board[row][col] = v`. -/
def setCell (board : Board) (row col : Nat) (v : Int) : Board :=
  List.modify (fun r => r.set col v) row board

/-- The read `domains[row][col]`. -/
def domAt (domains : Domains) (row col : Nat) : List Int :=
  match domains[row]? with
  | none => []
  | some r => r[col]?.getD []

/-- Apply a set operation in place to `domains[row][col]`. -/
def domModify (domains : Domains) (row col : Nat) (f : List Int → List Int) : Domains :=
  List.modify (fun r => List.modify f col r) row domains

/-- `Set.prototype.add`. -/
def setAdd (s : List Int) (v : Int) : List Int :=
  if s.contains v then s else s ++ [v]

/-- `Set.prototype.delete`. -/
def setDelete (s : List Int) (v : Int) : List Int :=
  s.filter (fun w => !(w == v))

/-- The comparison `x > n` of JavaScript on a cell read; `undefined > n` is false. -/
def jsGt (x : Option Int) (n : Int) : Bool :=
  match x with
  | some v => decide (n < v)
  | none => false

/-- The comparison `x < n` of JavaScript on a cell read; `undefined < n` is false. -/
def jsLt (x : Option Int) (n : Int) : Bool :=
  match x with
  | some v => decide (v < n)
  | none => false

/-- `isNaN(x)` on a cell read: an integer is a number, `undefined` is not. -/
def jsIsNaN (x : Option Int) : Bool :=
  match x with
  | some _ => false
  | none => true

/-- `isBoardValid` (lines 10-19): the range test reads `board[col][row]`, the `isNaN` test reads
`board[row][col]`. -/
def isBoardValid (SIZE : Nat) (board : Board) : Bool :=
  (List.range SIZE).all fun col =>
    (List.range SIZE).all fun row =>
      !(jsGt (cellAt board col row) (SIZE : Int) || jsLt (cellAt board col row) 0
        || jsIsNaN (cellAt board row col))

/-- `isValid` (lines 22-41): the row and column scan, then the box scan. -/
def isValid (SIZE BOX_SIZE : Nat) (board : Board) (row col : Nat) (num : Int) : Bool :=
  if (List.range SIZE).any
      (fun x => cellAt board row x == some num || cellAt board x col == some num) then false
  else
    let startRow := row / BOX_SIZE * BOX_SIZE
    let startCol := col / BOX_SIZE * BOX_SIZE
    if (List.range BOX_SIZE).any (fun i =>
        (List.range BOX_SIZE).any (fun j =>
          cellAt board (startRow + i) (startCol + j) == some num)) then false
    else true

/-- `initializeDomains` (lines 44-59): a `SIZE × SIZE` grid of sets; the set of an empty cell
receives, for `num = 1 .. SIZE`, each `num` that `isValid` accepts. -/
def initializeDomains (SIZE BOX_SIZE : Nat) (board : Board) : Domains :=
  (List.range SIZE).map fun row =>
    (List.range SIZE).map fun col =>
      if cellAt board row col == some 0 then
        (List.range' 1 SIZE).foldl
          (fun s (num : Nat) =>
            if isValid SIZE BOX_SIZE board row col (num : Int) then setAdd s (num : Int) else s)
          []
      else []

/-- The MRV scan of `selectCell` (lines 64-78): the loop state is `(minSize, bestCell)`, with
`none` for `Infinity` and for `null`. -/
def selectCellMRV (SIZE : Nat) (board : Board) (domains : Domains) : Option (Nat × Nat) :=
  ((List.range SIZE).foldl
    (fun st row =>
      (List.range SIZE).foldl
        (fun (st : Option Nat × Option (Nat × Nat)) col =>
          if cellAt board row col == some 0 then
            let domainSize := (domAt domains row col).length
            match st.1 with
            | none => (some domainSize, some (row, col))
            | some minSize =>
              if domainSize < minSize then (some domainSize, some (row, col)) else st
          else st)
        st)
    (none, none)).2

/-- The static scan of `selectCell` (lines 81-87): the first empty cell in row-major order. -/
def selectCellFirst (SIZE : Nat) (board : Board) : Option (Nat × Nat) :=
  (List.range SIZE).findSome? fun row =>
    (List.range SIZE).findSome? fun col =>
      if cellAt board row col == some 0 then some (row, col) else none

/-- `selectCell` (lines 62-89); `none` stands for both `null` and `undefined`. -/
def selectCell (SIZE : Nat) (useMRV : Bool) (board : Board) (domains : Domains) :
    Option (Nat × Nat) :=
  if useMRV then selectCellMRV SIZE board domains else selectCellFirst SIZE board

/-- The constraint count of `sortDomainByLCV` (lines 97-112) for one candidate. -/
def lcvCount (SIZE BOX_SIZE : Nat) (board : Board) (domains : Domains) (row col : Nat)
    (num : Int) : Nat :=
  let count := (List.range SIZE).foldl
    (fun count x =>
      let count :=
        if cellAt board row x == some 0 && (domAt domains row x).contains num then count + 1
        else count
      if cellAt board x col == some 0 && (domAt domains x col).contains num then count + 1
      else count)
    0
  let startRow := row / BOX_SIZE * BOX_SIZE
  let startCol := col / BOX_SIZE * BOX_SIZE
  (List.range BOX_SIZE).foldl
    (fun count i =>
      (List.range BOX_SIZE).foldl
        (fun count j =>
          if cellAt board (startRow + i) (startCol + j) == some 0
              && (domAt domains (startRow + i) (startCol + j)).contains num then count + 1
          else count)
        count)
    count

/-- `sortDomainByLCV` (lines 92-118).  `Array.prototype.sort` is stable, and a stable sort by a
score has a single possible result; insertion sort computes it. -/
def sortDomainByLCV (SIZE BOX_SIZE : Nat) (useLCV : Bool) (board : Board) (domains : Domains)
    (row col : Nat) : List Int :=
  if !useLCV then domAt domains row col
  else
    List.insertionSort
      (fun a b => lcvCount SIZE BOX_SIZE board domains row col a
        ≤ lcvCount SIZE BOX_SIZE board domains row col b)
      (domAt domains row col)

/-- `updateDomains` (lines 120-134). -/
def updateDomains (SIZE BOX_SIZE : Nat) (domains : Domains) (row col : Nat) (num : Int) :
    Domains :=
  let domains := domModify domains row col (fun _ => [])
  let domains := (List.range SIZE).foldl
    (fun d x => domModify (domModify d row x (fun s => setDelete s num)) x col
      (fun s => setDelete s num))
    domains
  let startRow := row / BOX_SIZE * BOX_SIZE
  let startCol := col / BOX_SIZE * BOX_SIZE
  (List.range BOX_SIZE).foldl
    (fun d i =>
      (List.range BOX_SIZE).foldl
        (fun d j => domModify d (startRow + i) (startCol + j) (fun s => setDelete s num))
        d)
    domains

/-- The result of a search frame: the returned flag, the board and `openedStates` after it. -/
abbrev Frame := Bool × Board × Nat

/-- The candidate loop of `backtrack` (lines 145-162).  `child` is the recursive call; the
per-frame copy `newDomains` of line 151 is the value `domains` itself, since values are never
mutated. -/
def tryCandidates (SIZE BOX_SIZE : Nat) (child : Board → Domains → Nat → Option Frame)
    (domains : Domains) (row col : Nat) : List Int → Board → Nat → Option Frame
  | [], board, openedStates => some (false, board, openedStates)
  | num :: rest, board, openedStates =>
    if isValid SIZE BOX_SIZE board row col num then
      let board := setCell board row col num
      let openedStates := openedStates + 1
      let newDomains := updateDomains SIZE BOX_SIZE domains row col num
      match child board newDomains openedStates with
      | none => none
      | some (true, board, openedStates) => some (true, board, openedStates)
      | some (false, board, openedStates) =>
        tryCandidates SIZE BOX_SIZE child domains row col rest (setCell board row col 0)
          openedStates
    else tryCandidates SIZE BOX_SIZE child domains row col rest board openedStates

/-- `backtrack` (lines 137-163), with fuel. -/
def backtrack (SIZE BOX_SIZE : Nat) (useMRV useLCV : Bool) :
    Nat → Board → Domains → Nat → Option Frame
  | 0, _, _, _ => none
  | fuel + 1, board, domains, openedStates =>
    match selectCell SIZE useMRV board domains with
    | none => some (true, board, openedStates)
    | some (row, col) =>
      tryCandidates SIZE BOX_SIZE (backtrack SIZE BOX_SIZE useMRV useLCV fuel) domains row col
        (sortDomainByLCV SIZE BOX_SIZE useLCV board domains row col) board openedStates

/-- The three outcomes of `solveSudokuCSP` (lines 166-183), with the board and `openedStates`
as they are when the outcome is reported. -/
inductive Outcome where
  | Solved (board : Board) (openedStates : Nat)
  | NoSolution (board : Board) (openedStates : Nat)
  | Invalid (board : Board) (openedStates : Nat)
  deriving DecidableEq, Repr

/-- `solveSudokuCSP` (lines 3-184), with fuel for the search. -/
def solveSudokuCSP (fuel : Nat) (board : Board) (useMRV useLCV : Bool) : Option Outcome :=
  let SIZE := board.length
  let BOX_SIZE := Nat.sqrt SIZE
  let openedStates := 0
  if isBoardValid SIZE board then
    let domains := initializeDomains SIZE BOX_SIZE board
    match backtrack SIZE BOX_SIZE useMRV useLCV fuel board domains openedStates with
    | none => none
    | some (true, board, openedStates) => some (Outcome.Solved board openedStates)
    | some (false, board, openedStates) => some (Outcome.NoSolution board openedStates)
  else some (Outcome.Invalid board openedStates)

/-! ## Shape of boards and grids -/

/-- A board (or grid) with `N` rows of `N` cells each. -/
def Square {α : Type} (N : Nat) (g : List (List α)) : Prop :=
  g.length = N ∧ ∀ r ∈ g, r.length = N

instance {α : Type} (N : Nat) (g : List (List α)) : Decidable (Square N g) :=
  inferInstanceAs (Decidable (g.length = N ∧ ∀ r ∈ g, r.length = N))

/-- Every cell of the board lies in `[0, N]`. -/
def CellsInRange (N : Nat) (board : Board) : Prop :=
  ∀ r ∈ board, ∀ v ∈ r, 0 ≤ v ∧ v ≤ (N : Int)

instance (N : Nat) (board : Board) : Decidable (CellsInRange N board) :=
  inferInstanceAs (Decidable (∀ r ∈ board, ∀ v ∈ r, 0 ≤ v ∧ v ≤ (N : Int)))

/-! ## Vocabulary of the statements -/

/-- Cell `(r, c)` lies in the `B × B` box whose top-left corner is
`(row / B * B, col / B * B)`, the box of `(row, col)`. -/
def InBoxOf (B row col r c : Nat) : Prop :=
  row / B * B ≤ r ∧ r < row / B * B + B ∧ col / B * B ≤ c ∧ c < col / B * B + B

instance (B row col r c : Nat) : Decidable (InBoxOf B row col r c) :=
  inferInstanceAs (Decidable (_ ∧ _ ∧ _ ∧ _))

/-- The values of `[1, N]` that `isValid` accepts at `(row, col)`, in ascending order. -/
def validValues (N B : Nat) (board : Board) (row col : Nat) : List Int :=
  ((List.range' 1 N).filter (fun (n : Nat) => isValid N B board row col (n : Int))).map
    (fun (n : Nat) => (n : Int))

/-- Grid `d2` is grid `d1` with `num` deleted from the sets of the cells in `S`, and the other
sets as they were. -/
def DeletedOn (num : Int) (S : Nat → Nat → Prop) (d1 d2 : Domains) : Prop :=
  ∀ r c, (S r c → domAt d2 r c = setDelete (domAt d1 r c) num) ∧
    (¬ S r c → domAt d2 r c = domAt d1 r c)

/-- The cells of an `N × N` grid in row-major order. -/
def cells (N : Nat) : List (Nat × Nat) :=
  (List.range N).flatMap fun r => (List.range N).map fun c => (r, c)

/-- Cell `p` comes before cell `q` in row-major order. -/
def RowMajorLt (p q : Nat × Nat) : Prop :=
  p.1 < q.1 ∨ (p.1 = q.1 ∧ p.2 < q.2)

/-- One iteration of the body of the MRV scan (lines 68-75) at cell `p`. -/
def mrvStep (board : Board) (domains : Domains) (st : Option Nat × Option (Nat × Nat))
    (p : Nat × Nat) : Option Nat × Option (Nat × Nat) :=
  if cellAt board p.1 p.2 == some 0 then
    match st.1 with
    | none => (some (domAt domains p.1 p.2).length, some (p.1, p.2))
    | some minSize =>
      if (domAt domains p.1 p.2).length < minSize then
        (some (domAt domains p.1 p.2).length, some (p.1, p.2))
      else st
  else st

/-- A 9 × 9 board of integers holding the value `10`, which is out of range. -/
def boardWithTen : Board :=
  [[5, 3, 0, 0, 7, 0, 0, 0, 0],
   [6, 0, 0, 1, 9, 5, 0, 0, 0],
   [0, 9, 8, 0, 0, 0, 0, 6, 0],
   [8, 0, 0, 0, 6, 0, 0, 0, 3],
   [4, 0, 0, 8, 0, 3, 0, 10, 1],
   [7, 0, 0, 0, 2, 0, 0, 0, 6],
   [0, 6, 0, 0, 0, 0, 2, 8, 0],
   [0, 0, 0, 4, 1, 9, 0, 0, 5],
   [0, 0, 0, 0, 8, 0, 0, 7, 9]]

/-- The number of `0` cells of the board within the `N × N` grid. -/
def countZeros (N : Nat) (board : Board) : Nat :=
  ((cells N).filter (fun p => cellAt board p.1 p.2 == some 0)).length

/-- A 4 × 4 board without solution: `(0, 0)` only admits `1`, after which `(0, 1)` admits
nothing. -/
def deadEndBoard : Board :=
  [[0, 0, 2, 3], [4, 0, 0, 0], [0, 0, 0, 0], [0, 0, 0, 0]]

/-- Cell `(r', c')` is in the grid and in the row, the column or the box of `(r, c)`. -/
def Related (N B r c r' c' : Nat) : Prop :=
  r' < N ∧ c' < N ∧ (r' = r ∨ c' = c ∨ InBoxOf B r c r' c')

/-- No cell of the row, the column or the box of `(r, c)`, other than `(r, c)`, holds `v`. -/
def PeerFree (N B : Nat) (S : Board) (r c : Nat) (v : Int) : Prop :=
  ∀ r' c', Related N B r c r' c' → ¬ (r' = r ∧ c' = c) → cellAt S r' c' ≠ some v

/-- Two different cells that share a row, a column or a box hold the same non-zero value. -/
def Clash (B : Nat) (S : Board) (r c r' c' : Nat) : Prop :=
  (r' = r ∨ c' = c ∨ InBoxOf B r c r' c') ∧ ¬ (r' = r ∧ c' = c) ∧
    cellAt S r c = cellAt S r' c' ∧ cellAt S r c ≠ some 0 ∧ cellAt S r c ≠ none

instance (B : Nat) (S : Board) (r c r' c' : Nat) : Decidable (Clash B S r c r' c') :=
  inferInstanceAs (Decidable (_ ∧ _ ∧ _ ∧ _ ∧ _))

/-- No non-zero value is repeated in a row, a column or a box of `S`. -/
def NoRepeat (N B : Nat) (S : Board) : Prop :=
  ∀ r, r < N → ∀ c, c < N → ∀ r', r' < N → ∀ c', c' < N → ¬ Clash B S r c r' c'

instance (N B : Nat) (S : Board) : Decidable (NoRepeat N B S) :=
  inferInstanceAs (Decidable (∀ r, r < N → ∀ c, c < N → ∀ r', r' < N → ∀ c', c' < N →
    ¬ Clash B S r c r' c'))

/-- Board `S` is `board` with its `0` cells filled: the other cells are as in `board`, and each
cell that is `0` in `board` holds a value of `[1, N]` that no other cell of its row, column or
box holds in `S`. -/
def Fills (N B : Nat) (board S : Board) : Prop :=
  (∀ r c, cellAt board r c ≠ some 0 → cellAt S r c = cellAt board r c) ∧
  (∀ r c, r < N → c < N → cellAt board r c = some 0 →
    ∃ v : Int, cellAt S r c = some v ∧ 1 ≤ v ∧ v ≤ (N : Int) ∧ PeerFree N B S r c v)

/-- Every candidate of the grid lies in `[1, N]`. -/
def DomRange (N : Nat) (d : Domains) : Prop :=
  ∀ r c v, v ∈ domAt d r c → 1 ≤ v ∧ v ≤ (N : Int)

/-- The set of every `0` cell holds every value of `[1, N]` that `isValid` accepts there. -/
def DomSuper (N B : Nat) (board : Board) (d : Domains) : Prop :=
  ∀ r c, r < N → c < N → cellAt board r c = some 0 →
    ∀ v : Int, 1 ≤ v → v ≤ (N : Int) → isValid N B board r c v = true → v ∈ domAt d r c

/-- The cells of row `r`. -/
def rowCells (N r : Nat) : List (Nat × Nat) :=
  (List.range N).map fun c => (r, c)

/-- The cells of column `c`. -/
def colCells (N c : Nat) : List (Nat × Nat) :=
  (List.range N).map fun r => (r, c)

/-- The cells of the box in box-row `br` and box-column `bc`. -/
def boxCells (B br bc : Nat) : List (Nat × Nat) :=
  (List.range B).flatMap fun i => (List.range B).map fun j => (br * B + i, bc * B + j)

/-- The cells of `L` hold each value of `[1, N]` exactly once. -/
def EachOnce (N : Nat) (S : Board) (L : List (Nat × Nat)) : Prop :=
  ∀ v : Int, 1 ≤ v → v ≤ (N : Int) →
    L.countP (fun p => decide (cellAt S p.1 p.2 = some v)) = 1

/-- Every row, every column and every box of `S` holds each value of `[1, N]` exactly once. -/
def Complete (N B : Nat) (S : Board) : Prop :=
  (∀ r, r < N → EachOnce N S (rowCells N r)) ∧
  (∀ c, c < N → EachOnce N S (colCells N c)) ∧
  (∀ br bc, br < B → bc < B → EachOnce N S (boxCells B br bc))

/-- Board `S` is an assignment of values of `[1, N]` to the empty cells of `board` that leaves
no repeated value in any row, column or box. -/
def IsCompletion (N B : Nat) (board S : Board) : Prop :=
  Square N S ∧
  (∀ r c v, cellAt board r c = some v → v ≠ 0 → cellAt S r c = some v) ∧
  (∀ r c, r < N → c < N → cellAt board r c = some 0 →
    ∃ v : Int, cellAt S r c = some v ∧ 1 ≤ v ∧ v ≤ (N : Int)) ∧
  NoRepeat N B S

/-- A 4 × 4 board with two givens and fourteen empty cells. -/
def cornerBoard : Board :=
  [[1, 0, 0, 0], [0, 0, 0, 0], [0, 0, 0, 0], [0, 0, 0, 2]]

/-- The board that the search with MRV and LCV leaves for `cornerBoard`. -/
def cornerSolved : Board :=
  [[1, 2, 4, 3], [4, 3, 2, 1], [2, 1, 3, 4], [3, 4, 1, 2]]

/-- A 4 × 4 board on whose first cell the two candidates `2` and `3` have different LCV
counts. -/
def lcvBoard : Board :=
  [[0, 4, 0, 1], [0, 0, 0, 3], [0, 0, 0, 0], [0, 2, 0, 0]]

/-- The test of the LCV scans at cell `p`: the cell is empty and its set has `v`. -/
def emptyWith (board : Board) (domains : Domains) (v : Int) (p : Nat × Nat) : Bool :=
  cellAt board p.1 p.2 == some 0 && (domAt domains p.1 p.2).contains v

/-- The score in the words of the specification: the number of empty cells other than
`(row, col)`, in its row, its column or its box, whose set has `v`, each cell counted once. -/
def otherPeerCount (N B : Nat) (board : Board) (domains : Domains) (row col : Nat) (v : Int) :
    Nat :=
  (cells N).countP fun p =>
    !(p.1 == row && p.2 == col)
      && (p.1 == row || p.2 == col || decide (InBoxOf B row col p.1 p.2))
      && emptyWith board domains v p

/-- The number of empty cells other than `(row, col)` that lie in its box and also in its row or
its column, and whose set has `v`: the cells that two scans of `sortDomainByLCV` visit. -/
def boxLineCount (N B : Nat) (board : Board) (domains : Domains) (row col : Nat) (v : Int) :
    Nat :=
  (cells N).countP fun p =>
    !(p.1 == row && p.2 == col)
      && (p.1 == row || p.2 == col) && decide (InBoxOf B row col p.1 p.2)
      && emptyWith board domains v p

/-- The 4 × 4 board with no given. -/
def emptyBoard4 : Board :=
  [[0, 0, 0, 0], [0, 0, 0, 0], [0, 0, 0, 0], [0, 0, 0, 0]]

/-- The ordering in the words of the specification: the stable sort of the set of `(row, col)`
by the deduplicated score `otherPeerCount`. -/
def sortByPeerCount (N B : Nat) (board : Board) (domains : Domains) (row col : Nat) : List Int :=
  List.insertionSort
    (fun a b => otherPeerCount N B board domains row col a
      ≤ otherPeerCount N B board domains row col b)
    (domAt domains row col)

/-- The set of every `0` cell holds exactly the values of `[1, N]` that `isValid` accepts
there. -/
def DomExact (N B : Nat) (board : Board) (d : Domains) : Prop :=
  ∀ r c, r < N → c < N → cellAt board r c = some 0 →
    ∀ v : Int, 1 ≤ v → v ≤ (N : Int) → (v ∈ domAt d r c ↔ isValid N B board r c v = true)

/-- The arguments `(board, domains)` of the calls of `backtrack` that a search started on
`board` can make: the root call, and from a call on `(b, d)` whose selected cell is
`(row, col)`, for a candidate `num` that passes the check of line 146, the call of line 154 on
the board with `num` placed and the updated copy of `d`. -/
inductive Reachable (N B : Nat) (useMRV useLCV : Bool) (board : Board) :
    Board → Domains → Prop
  | root : Reachable N B useMRV useLCV board board (initializeDomains N B board)
  | child {b : Board} {d : Domains} {row col : Nat} {num : Int} :
      Reachable N B useMRV useLCV board b d →
      selectCell N useMRV b d = some (row, col) →
      num ∈ sortDomainByLCV N B useLCV b d row col →
      isValid N B b row col num = true →
      Reachable N B useMRV useLCV board (setCell b row col num)
        (updateDomains N B d row col num)

/-- The result of a search frame together with a ghost counter: the flag, the board,
`openedStates`, and the number of placements undone so far. -/
abbrev FrameU := Bool × Board × Nat × Nat

/-- The candidate loop `tryCandidates` with a ghost counter `undone` that is incremented each
time line 158 resets the cell to `0`.  Nothing else differs (`tryCandidatesU_erase`). -/
def tryCandidatesU (SIZE BOX_SIZE : Nat)
    (child : Board → Domains → Nat → Nat → Option FrameU) (domains : Domains) (row col : Nat) :
    List Int → Board → Nat → Nat → Option FrameU
  | [], board, openedStates, undone => some (false, board, openedStates, undone)
  | num :: rest, board, openedStates, undone =>
    if isValid SIZE BOX_SIZE board row col num then
      let board := setCell board row col num
      let openedStates := openedStates + 1
      let newDomains := updateDomains SIZE BOX_SIZE domains row col num
      match child board newDomains openedStates undone with
      | none => none
      | some (true, board, openedStates, undone) => some (true, board, openedStates, undone)
      | some (false, board, openedStates, undone) =>
        tryCandidatesU SIZE BOX_SIZE child domains row col rest (setCell board row col 0)
          openedStates (undone + 1)
    else tryCandidatesU SIZE BOX_SIZE child domains row col rest board openedStates undone

/-- The search `backtrack` with the ghost counter `undone` (`backtrackU_erase`). -/
def backtrackU (SIZE BOX_SIZE : Nat) (useMRV useLCV : Bool) :
    Nat → Board → Domains → Nat → Nat → Option FrameU
  | 0, _, _, _, _ => none
  | fuel + 1, board, domains, openedStates, undone =>
    match selectCell SIZE useMRV board domains with
    | none => some (true, board, openedStates, undone)
    | some (row, col) =>
      tryCandidatesU SIZE BOX_SIZE (backtrackU SIZE BOX_SIZE useMRV useLCV fuel) domains row col
        (sortDomainByLCV SIZE BOX_SIZE useLCV board domains row col) board openedStates undone

/-- Forget the ghost counter. -/
def eraseUndone (r : FrameU) : Frame :=
  (r.1, r.2.1, r.2.2.1)

/-- The number of cells that are `0` in `board` and not `0` in `final`: the cells that the search
left filled. -/
def filledBySearch (N : Nat) (board final : Board) : Nat :=
  (cells N).countP fun p =>
    cellAt board p.1 p.2 == some 0 && !(cellAt final p.1 p.2 == some 0)

/-- The board that the search without heuristics leaves for `cornerBoard`. -/
def cornerSolvedPlain : Board :=
  [[1, 2, 3, 4], [3, 4, 2, 1], [2, 1, 4, 3], [4, 3, 1, 2]]

/-- Board `b1`, read cell by cell in row-major order over the `N × N` grid, is lexicographically
at most `b2`: the two agree on every cell, or at the first cell where they differ `b1` holds the
smaller value. -/
def BoardLexLe (N : Nat) (b1 b2 : Board) : Prop :=
  (∀ r c, r < N → c < N → cellAt b1 r c = cellAt b2 r c) ∨
  ∃ r c, r < N ∧ c < N ∧
    (∀ q : Nat × Nat, q.1 < N → q.2 < N → RowMajorLt q (r, c) →
      cellAt b1 q.1 q.2 = cellAt b2 q.1 q.2) ∧
    ∃ x y : Int, cellAt b1 r c = some x ∧ cellAt b2 r c = some y ∧ x < y

/-- Every set of the grid iterates in ascending numeric order. -/
def DomSorted (d : Domains) : Prop :=
  ∀ r c, (domAt d r c).Pairwise (fun a b => a < b)

/-- The 9 × 9 board whose row 0 starts `5, 5` and whose other cells are `0`. -/
def twoFivesBoard : Board :=
  [[5, 5, 0, 0, 0, 0, 0, 0, 0],
   [0, 0, 0, 0, 0, 0, 0, 0, 0],
   [0, 0, 0, 0, 0, 0, 0, 0, 0],
   [0, 0, 0, 0, 0, 0, 0, 0, 0],
   [0, 0, 0, 0, 0, 0, 0, 0, 0],
   [0, 0, 0, 0, 0, 0, 0, 0, 0],
   [0, 0, 0, 0, 0, 0, 0, 0, 0],
   [0, 0, 0, 0, 0, 0, 0, 0, 0],
   [0, 0, 0, 0, 0, 0, 0, 0, 0]]

/-- A 4 × 4 board with `1` twice in row 0 and a single empty cell. -/
def repeatBoard : Board :=
  [[1, 1, 3, 4], [3, 4, 2, 1], [2, 1, 4, 3], [4, 3, 1, 0]]

/-- The board `repeatBoard` with its empty cell filled by the search. -/
def repeatBoardFilled : Board :=
  [[1, 1, 3, 4], [3, 4, 2, 1], [2, 1, 4, 3], [4, 3, 1, 2]]

/-- The 9 × 9 board whose 81 cells are all `0`. -/
def zeroBoard9 : Board :=
  [[0, 0, 0, 0, 0, 0, 0, 0, 0],
   [0, 0, 0, 0, 0, 0, 0, 0, 0],
   [0, 0, 0, 0, 0, 0, 0, 0, 0],
   [0, 0, 0, 0, 0, 0, 0, 0, 0],
   [0, 0, 0, 0, 0, 0, 0, 0, 0],
   [0, 0, 0, 0, 0, 0, 0, 0, 0],
   [0, 0, 0, 0, 0, 0, 0, 0, 0],
   [0, 0, 0, 0, 0, 0, 0, 0, 0],
   [0, 0, 0, 0, 0, 0, 0, 0, 0]]

/-- A completed 9 × 9 board, which shows that `zeroBoard9` has a completion. -/
def fullBoard9 : Board :=
  [[1, 2, 3, 4, 5, 6, 7, 8, 9],
   [4, 5, 6, 7, 8, 9, 1, 2, 3],
   [7, 8, 9, 1, 2, 3, 4, 5, 6],
   [2, 1, 4, 3, 6, 5, 8, 9, 7],
   [3, 6, 5, 8, 9, 7, 2, 1, 4],
   [8, 9, 7, 2, 1, 4, 3, 6, 5],
   [5, 3, 1, 6, 4, 2, 9, 7, 8],
   [6, 4, 2, 9, 7, 8, 5, 3, 1],
   [9, 7, 8, 5, 3, 1, 6, 4, 2]]

/-- The example board of `src/app.js`, lines 187-197. -/
def exampleBoard : Board :=
  [[5, 0, 0, 0, 0, 0, 0, 0, 0],
   [6, 0, 0, 1, 9, 5, 0, 0, 0],
   [0, 9, 8, 0, 0, 0, 0, 6, 0],
   [8, 0, 0, 0, 6, 0, 0, 0, 3],
   [4, 0, 0, 8, 0, 3, 0, 0, 1],
   [7, 0, 0, 0, 2, 0, 0, 0, 6],
   [0, 6, 0, 0, 0, 0, 2, 8, 0],
   [0, 0, 0, 4, 1, 9, 0, 0, 5],
   [0, 0, 0, 0, 8, 0, 0, 1, 9]]

/-- The completion of `exampleBoard`. -/
def exampleSolved : Board :=
  [[5, 3, 4, 6, 7, 8, 1, 9, 2],
   [6, 7, 2, 1, 9, 5, 3, 4, 8],
   [1, 9, 8, 3, 4, 2, 5, 6, 7],
   [8, 5, 9, 7, 6, 1, 4, 2, 3],
   [4, 2, 6, 8, 5, 3, 9, 7, 1],
   [7, 1, 3, 9, 2, 4, 8, 5, 6],
   [9, 6, 1, 5, 3, 7, 2, 8, 4],
   [2, 8, 7, 4, 1, 9, 6, 3, 5],
   [3, 4, 5, 2, 8, 6, 7, 1, 9]]

/-- Join two lists of results, when both are there. -/
def appendResults {α : Type} : Option (List α) → Option (List α) → Option (List α)
  | some l1, some l2 => some (l1 ++ l2)
  | _, _ => none

/-- A proof device, not part of the program: the boards obtained by trying, at the cell that
`selectCell` chooses with MRV, every value of its set in turn, down to the boards without empty
cell.  `allFillings_complete` shows that every filling of the board is among them. -/
def allFillings (N B : Nat) : Nat → Board → Domains → Option (List Board)
  | 0, _, _ => none
  | fuel + 1, board, domains =>
    match selectCell N true board domains with
    | none => some [board]
    | some (row, col) =>
      (domAt domains row col).foldr
        (fun v acc =>
          appendResults
            (allFillings N B fuel (setCell board row col v) (updateDomains N B domains row col v))
            acc)
        (some [])

/-! ## Boards whose rows share storage

In JavaScript `board` is an array of references to row arrays, and two entries of it may refer
to one and the same array.  `Board` cannot express that, so the search is embedded a second
time over a store of row arrays. -/

/-- A JavaScript board with explicit row identity: `board[r]` is the array `arrays[rowIds[r]]`.
Two rows with the same identifier are one array object. -/
structure SharedBoard where
  rowIds : List Nat
  arrays : List (List Int)
deriving DecidableEq

/-- What the reads `board[r][c]` see: row `r` is the content of its array. -/
def SharedBoard.view (board : SharedBoard) : Board :=
  board.rowIds.map (fun i => board.arrays.getD i [])

/-- The assignment `board[row][col] = v`: it writes into the array that row `row` refers to, so
every row that is the same array changes with it. -/
def SharedBoard.write (board : SharedBoard) (row col : Nat) (v : Int) : SharedBoard :=
  match board.rowIds[row]? with
  | none => board
  | some i => ⟨board.rowIds, List.modify (fun r => r.set col v) i board.arrays⟩

/-- A board of `Board` as a JavaScript board: every row is an array of its own. -/
def SharedBoard.ofBoard (board : Board) : SharedBoard :=
  ⟨List.range board.length, board⟩

/-- A candidate that the check of line 146 turned down: the board and the domains of the frame,
the selected cell and the candidate. -/
structure Rejected where
  board : Board
  domains : Domains
  row : Nat
  col : Nat
  num : Int
deriving DecidableEq

/-- The result of a search frame over a `SharedBoard`: the flag, the board, `openedStates`,
and the ghost list of the candidates rejected by line 146 so far. -/
abbrev FrameShared := Bool × SharedBoard × Nat × List Rejected

/-- The loop of lines 145-160 over a `SharedBoard`.  Reads go through `view`, the assignments
of lines 147 and 158 through `write`; the domains are as in `tryCandidates`, since every set of
a domain grid is created by `initializeDomains` or by the copy of line 151.  The ghost list
`rejected` gets an entry when the check of line 146 fails, which the code passes in silence. -/
def tryCandidatesShared (SIZE BOX_SIZE : Nat)
    (child : SharedBoard → Domains → Nat → List Rejected → Option FrameShared)
    (domains : Domains) (row col : Nat) :
    List Int → SharedBoard → Nat → List Rejected → Option FrameShared
  | [], board, openedStates, rejected => some (false, board, openedStates, rejected)
  | num :: rest, board, openedStates, rejected =>
    if isValid SIZE BOX_SIZE board.view row col num then
      let board := board.write row col num
      let openedStates := openedStates + 1
      let newDomains := updateDomains SIZE BOX_SIZE domains row col num
      match child board newDomains openedStates rejected with
      | none => none
      | some (true, board, openedStates, rejected) => some (true, board, openedStates, rejected)
      | some (false, board, openedStates, rejected) =>
        tryCandidatesShared SIZE BOX_SIZE child domains row col rest (board.write row col 0)
          openedStates rejected
    else
      tryCandidatesShared SIZE BOX_SIZE child domains row col rest board openedStates
        (rejected ++ [⟨board.view, domains, row, col, num⟩])

/-- The function `backtrack` (lines 137-163) over a `SharedBoard`, with fuel as in
`backtrack`. -/
def backtrackShared (SIZE BOX_SIZE : Nat) (useMRV useLCV : Bool) :
    Nat → SharedBoard → Domains → Nat → List Rejected → Option FrameShared
  | 0, _, _, _, _ => none
  | fuel + 1, board, domains, openedStates, rejected =>
    match selectCell SIZE useMRV board.view domains with
    | none => some (true, board, openedStates, rejected)
    | some (row, col) =>
      tryCandidatesShared SIZE BOX_SIZE (backtrackShared SIZE BOX_SIZE useMRV useLCV fuel)
        domains row col (sortDomainByLCV SIZE BOX_SIZE useLCV board.view domains row col) board
        openedStates rejected

/-- A frame of `backtrackShared` without the ghost list. -/
def eraseRejected (frame : FrameShared) : Bool × SharedBoard × Nat :=
  (frame.1, frame.2.1, frame.2.2.1)

/-- A frame of `backtrack` with every row of its board an array of its own. -/
def shareFrame (frame : Frame) : Bool × SharedBoard × Nat :=
  (frame.1, SharedBoard.ofBoard frame.2.1, frame.2.2)

/-- The 4 × 4 board of zeros whose rows 0 and 2 are one array:
`const r = [0, 0, 0, 0]; board = [r, [0, 0, 0, 0], r, [0, 0, 0, 0]]`. -/
def sharedRowsBoard : SharedBoard :=
  ⟨[0, 1, 0, 2], [[0, 0, 0, 0], [0, 0, 0, 0], [0, 0, 0, 0]]⟩

/-- The board of the frame in which `sharedRowsBoard` meets its first rejected candidate. -/
def rejectingBoard : Board :=
  [[1, 2, 3, 4], [3, 4, 1, 2], [1, 2, 3, 4], [0, 0, 0, 0]]

/-- The domains of the frame in which `sharedRowsBoard` meets its first rejected candidate. -/
def rejectingDomains : Domains :=
  [[[], [], [], []], [[], [], [], []],
   [[2, 4], [1, 3], [2, 4], [1, 3]], [[2, 4], [1, 3], [2, 4], [1, 3]]]

/-! # Verified properties -/

/-! ## Reads and writes of cells -/

theorem cellAt_isSome_of_square {N : Nat} {board : Board} (h : Square N board) {r c : Nat}
    (hr : r < N) (hc : c < N) : ∃ v, cellAt board r c = some v := by
  obtain ⟨hl, hrows⟩ := h
  have hr' : r < board.length := by omega
  have hrow : (board[r]).length = N := hrows _ (List.getElem_mem hr')
  have hc' : c < (board[r]).length := by omega
  refine ⟨(board[r])[c], ?_⟩
  simp [cellAt, List.getElem?_eq_getElem hr', List.getElem?_eq_getElem hc']

theorem cellAt_lt_of_some {N : Nat} {board : Board} (h : Square N board) {r c : Nat} {v : Int}
    (hv : cellAt board r c = some v) : r < N ∧ c < N := by
  obtain ⟨hl, hrows⟩ := h
  unfold cellAt at hv
  cases hb : board[r]? with
  | none => simp [hb] at hv
  | some row =>
    simp only [hb] at hv
    have h1 := List.getElem?_eq_some_iff.1 hb
    obtain ⟨hr, hrow⟩ := h1
    have h2 := List.getElem?_eq_some_iff.1 hv
    obtain ⟨hc, _⟩ := h2
    have : row ∈ board := hrow ▸ List.getElem_mem hr
    have := hrows row this
    omega

theorem cellAt_setCell (board : Board) (r c : Nat) (v : Int) (r' c' : Nat) :
    cellAt (setCell board r c v) r' c'
      = if r' = r ∧ c' = c then (cellAt board r c).map (fun _ => v) else cellAt board r' c' := by
  unfold cellAt setCell
  rw [List.getElem?_modify]
  by_cases hr : r = r'
  · subst hr
    cases hb : board[r]? with
    | none => simp
    | some row =>
      simp only [Option.map_eq_map, Option.map_some', if_true, true_and]
      rw [List.getElem?_set]
      by_cases hc : c = c'
      · subst hc
        by_cases hlt : c < row.length
        · simp [hlt, List.getElem?_eq_getElem hlt]
        · simp [hlt, List.getElem?_eq_none (Nat.le_of_not_lt hlt)]
      · have : ¬ c' = c := fun h => hc h.symm
        simp [hc, this]
  · have : ¬ r' = r := fun h => hr h.symm
    cases hb : board[r']? <;> simp [hr, this]

theorem cellAt_setCell_same {board : Board} {r c : Nat} {w : Int} (v : Int)
    (h : cellAt board r c = some w) : cellAt (setCell board r c v) r c = some v := by
  rw [cellAt_setCell]; simp [h]

theorem cellAt_setCell_ne (board : Board) {r c r' c' : Nat} (v : Int)
    (h : ¬ (r' = r ∧ c' = c)) : cellAt (setCell board r c v) r' c' = cellAt board r' c' := by
  rw [cellAt_setCell]; simp [h]

theorem setCell_square {N : Nat} {board : Board} (h : Square N board) (r c : Nat) (v : Int) :
    Square N (setCell board r c v) := by
  obtain ⟨hl, hrows⟩ := h
  refine ⟨by simp [setCell, hl], ?_⟩
  intro row hrow
  obtain ⟨i, hi⟩ := List.getElem?_of_mem hrow
  unfold setCell at hi
  rw [List.getElem?_modify] at hi
  cases hb : board[i]? with
  | none => simp [hb] at hi
  | some row0 =>
    have hlen := hrows row0 (by obtain ⟨h1, h2⟩ := List.getElem?_eq_some_iff.1 hb; exact h2 ▸ List.getElem_mem h1)
    simp only [hb, Option.map_eq_map, Option.map_some', Option.some.injEq] at hi
    subst hi
    split <;> simp [hlen]

/-- Two boards with the same cell reads and the same shape are equal. -/
theorem board_ext {N : Nat} {b1 b2 : Board} (h1 : Square N b1) (h2 : Square N b2)
    (h : ∀ r c, r < N → c < N → cellAt b1 r c = cellAt b2 r c) : b1 = b2 := by
  obtain ⟨hl1, hr1⟩ := h1
  obtain ⟨hl2, hr2⟩ := h2
  apply List.ext_getElem (by omega)
  intro i hi1 hi2
  have e1 := hr1 _ (List.getElem_mem hi1)
  have e2 := hr2 _ (List.getElem_mem hi2)
  apply List.ext_getElem (by omega)
  intro j hj1 hj2
  have := h i j (by omega) (by omega)
  simpa [cellAt, List.getElem?_eq_getElem hi1, List.getElem?_eq_getElem hi2,
    List.getElem?_eq_getElem hj1, List.getElem?_eq_getElem hj2] using this

/-- Undoing a placement on a cell that was empty gives the board back. -/
theorem setCell_undo (board : Board) (r c : Nat) (v : Int) (h : cellAt board r c = some 0) :
    setCell (setCell board r c v) r c 0 = board := by
  unfold setCell
  unfold cellAt at h
  cases hb : board[r]? with
  | none => simp [hb] at h
  | some row =>
    simp only [hb] at h
    obtain ⟨hr, hrow⟩ := List.getElem?_eq_some_iff.1 hb
    obtain ⟨hc, hcell⟩ := List.getElem?_eq_some_iff.1 h
    apply List.ext_getElem?
    intro i
    rw [List.getElem?_modify, List.getElem?_modify]
    by_cases hi : r = i
    · subst hi
      simp only [hb, Option.map_eq_map, Option.map_some', if_true, List.set_set]
      congr 1
      apply List.ext_getElem?
      intro j
      rw [List.getElem?_set]
      by_cases hj : c = j
      · subst hj; simp [hc, List.getElem?_eq_getElem hc, hcell]
      · simp [hj]
    · cases hbi : board[i]? <;> simp [hi]

/-! ## The constraint checker -/

theorem inBoxOf_iff_offsets (B row col r c : Nat) :
    InBoxOf B row col r c
      ↔ ∃ i, i < B ∧ ∃ j, j < B ∧ r = row / B * B + i ∧ c = col / B * B + j := by
  unfold InBoxOf
  constructor
  · rintro ⟨h1, h2, h3, h4⟩
    exact ⟨r - row / B * B, by omega, c - col / B * B, by omega, by omega, by omega⟩
  · rintro ⟨i, hi, j, hj, rfl, rfl⟩
    omega

theorem div_mul_le_lt {B : Nat} (hB : 0 < B) (row r : Nat) :
    (row / B * B ≤ r ∧ r < row / B * B + B) ↔ r / B = row / B := by
  constructor
  · rintro ⟨h1, h2⟩
    apply Nat.div_eq_of_lt_le
    · exact h1
    · rw [Nat.succ_mul]; exact h2
  · intro h
    rw [← h]
    have := Nat.div_add_mod r B
    have := Nat.mod_lt r hB
    rw [Nat.mul_comm]
    constructor <;> omega

theorem inBoxOf_iff_div {B : Nat} (hB : 0 < B) (row col r c : Nat) :
    InBoxOf B row col r c ↔ r / B = row / B ∧ c / B = col / B := by
  unfold InBoxOf
  rw [← div_mul_le_lt hB row r, ← div_mul_le_lt hB col c]
  tauto

theorem inBoxOf_self {B : Nat} (hB : 0 < B) (row col : Nat) : InBoxOf B row col row col :=
  (inBoxOf_iff_div hB row col row col).2 ⟨rfl, rfl⟩

theorem inBoxOf_symm {B : Nat} (hB : 0 < B) {row col r c : Nat} (h : InBoxOf B row col r c) :
    InBoxOf B r c row col := by
  rw [inBoxOf_iff_div hB] at h ⊢
  exact ⟨h.1.symm, h.2.symm⟩

theorem inBoxOf_lt {N B : Nat} (hN : N = B * B) {row col r c : Nat} (hrow : row < N)
    (hcol : col < N) (h : InBoxOf B row col r c) : r < N ∧ c < N := by
  have hB : 0 < B := by
    rcases Nat.eq_zero_or_pos B with h0 | h0
    · subst h0; omega
    · exact h0
  rw [inBoxOf_iff_div hB] at h
  subst hN
  constructor
  · have : r / B < B := by rw [h.1]; exact Nat.div_lt_of_lt_mul hrow
    exact (Nat.div_lt_iff_lt_mul hB).1 this
  · have : c / B < B := by rw [h.2]; exact Nat.div_lt_of_lt_mul hcol
    exact (Nat.div_lt_iff_lt_mul hB).1 this

/-- What `isValid` computes, on any input. -/
theorem isValid_eq_true_iff (N B : Nat) (board : Board) (row col : Nat) (num : Int) :
    isValid N B board row col num = true ↔
      (∀ x, x < N → cellAt board row x ≠ some num) ∧
      (∀ x, x < N → cellAt board x col ≠ some num) ∧
      (∀ r c, InBoxOf B row col r c → cellAt board r c ≠ some num) := by
  unfold isValid
  simp only [inBoxOf_iff_offsets]
  constructor
  · intro h
    split at h
    · exact absurd h (by simp)
    · rename_i h1
      split at h
      · exact absurd h (by simp)
      · rename_i h2
        simp only [List.any_eq_true, List.mem_range, Bool.or_eq_true, beq_iff_eq, not_exists,
          not_and, not_or] at h1 h2
        refine ⟨fun x hx => (h1 x hx).1, fun x hx => (h1 x hx).2, ?_⟩
        rintro r c ⟨i, hi, j, hj, rfl, rfl⟩
        exact h2 i hi j hj
  · rintro ⟨h1, h2, h3⟩
    have e1 : ¬ ((List.range N).any
        (fun x => cellAt board row x == some num || cellAt board x col == some num) = true) := by
      simp only [List.any_eq_true, List.mem_range, Bool.or_eq_true, beq_iff_eq, not_exists,
        not_and, not_or]
      exact fun x hx => ⟨h1 x hx, h2 x hx⟩
    have e2 : ¬ ((List.range B).any (fun i => (List.range B).any (fun j =>
        cellAt board (row / B * B + i) (col / B * B + j) == some num)) = true) := by
      simp only [List.any_eq_true, List.mem_range, beq_iff_eq, not_exists, not_and]
      exact fun i hi j hj => h3 _ _ ⟨i, hi, j, hj, rfl, rfl⟩
    simp only [e1, e2, if_false]
    trivial

/-- C7.  On an `N × N` board with `N = B²` and `row, col < N`, `isValid board row col num` is
false exactly when `num` is a cell of row `row`, or a cell of column `col`, or a cell of the
`B × B` box whose top-left corner is `(row / B * B, col / B * B)`, and it is true otherwise.  The
function returns a flag only: the board is an argument that no result carries, so it is left as
it was. -/
theorem isValid_spec (N B : Nat) (board : Board) (row col : Nat) (num : Int)
    (hsq : Square N board) (hN : N = B * B) (hrow : row < N) (hcol : col < N) :
    (isValid N B board row col num = false ↔
      (∃ x, x < N ∧ cellAt board row x = some num) ∨
      (∃ x, x < N ∧ cellAt board x col = some num) ∨
      (∃ r c, r < N ∧ c < N ∧ InBoxOf B row col r c ∧ cellAt board r c = some num)) ∧
    (isValid N B board row col num = true ↔
      ¬ ((∃ x, x < N ∧ cellAt board row x = some num) ∨
        (∃ x, x < N ∧ cellAt board x col = some num) ∨
        (∃ r c, r < N ∧ c < N ∧ InBoxOf B row col r c ∧ cellAt board r c = some num))) := by
  have key : isValid N B board row col num = true ↔
      ¬ ((∃ x, x < N ∧ cellAt board row x = some num) ∨
        (∃ x, x < N ∧ cellAt board x col = some num) ∨
        (∃ r c, r < N ∧ c < N ∧ InBoxOf B row col r c ∧ cellAt board r c = some num)) := by
    rw [isValid_eq_true_iff]
    constructor
    · rintro ⟨h1, h2, h3⟩
      rintro (⟨x, hx, h⟩ | ⟨x, hx, h⟩ | ⟨r, c, _, _, hb, h⟩)
      · exact h1 x hx h
      · exact h2 x hx h
      · exact h3 r c hb h
    · intro h
      refine ⟨fun x hx hc => h (Or.inl ⟨x, hx, hc⟩), fun x hx hc => h (Or.inr (Or.inl ⟨x, hx, hc⟩)),
        fun r c hb hc => h (Or.inr (Or.inr ⟨r, c, ?_, ?_, hb, hc⟩))⟩
      · exact (cellAt_lt_of_some hsq hc).1
      · exact (cellAt_lt_of_some hsq hc).2
  refine ⟨?_, key⟩
  rw [← not_iff_not, Bool.not_eq_false]
  exact key

/-- Witness of `isValid_spec` on a 4 × 4 board. -/
theorem isValid_spec_witness :
    Square 4 [[1, 0, 0, 0], [0, 0, 0, 0], [0, 0, 0, 0], [0, 0, 0, (2 : Int)]] ∧
    (isValid 4 2 [[1, 0, 0, 0], [0, 0, 0, 0], [0, 0, 0, 0], [0, 0, 0, 2]] 1 1 1 = false ↔
      (∃ x, x < 4 ∧ cellAt [[1, 0, 0, 0], [0, 0, 0, 0], [0, 0, 0, 0], [0, 0, 0, 2]] 1 x = some 1) ∨
      (∃ x, x < 4 ∧ cellAt [[1, 0, 0, 0], [0, 0, 0, 0], [0, 0, 0, 0], [0, 0, 0, 2]] x 1 = some 1) ∨
      (∃ r c, r < 4 ∧ c < 4 ∧ InBoxOf 2 1 1 r c ∧
        cellAt [[1, 0, 0, 0], [0, 0, 0, 0], [0, 0, 0, 0], [0, 0, 0, 2]] r c = some 1)) :=
  ⟨by decide,
    (isValid_spec 4 2 [[1, 0, 0, 0], [0, 0, 0, 0], [0, 0, 0, 0], [0, 0, 0, 2]] 1 1 1
      (by decide) (by decide) (by decide) (by decide)).1⟩

/-! ## Domain initialization -/

theorem domAt_tabulate (N : Nat) (f : Nat → Nat → List Int) {r c : Nat} (hr : r < N)
    (hc : c < N) :
    domAt ((List.range N).map fun row => (List.range N).map fun col => f row col) r c = f r c := by
  unfold domAt
  simp [List.getElem?_map, List.getElem?_range hr, List.getElem?_range hc]

theorem square_tabulate {α : Type} (N : Nat) (f : Nat → Nat → α) :
    Square N ((List.range N).map fun row => (List.range N).map fun col => f row col) := by
  refine ⟨by simp, ?_⟩
  intro r hr
  simp only [List.mem_map, List.mem_range] at hr
  obtain ⟨a, _, rfl⟩ := hr
  simp

theorem foldl_setAdd (p : Nat → Bool) (l : List Nat) (s0 : List Int) (hnd : l.Nodup)
    (hfresh : ∀ n ∈ l, ((n : Nat) : Int) ∉ s0) :
    l.foldl (fun s (n : Nat) => if p n then setAdd s (n : Int) else s) s0
      = s0 ++ (l.filter p).map (fun (n : Nat) => (n : Int)) := by
  induction l generalizing s0 with
  | nil => simp
  | cons a t ih =>
    have hnd' := (List.nodup_cons.1 hnd)
    simp only [List.foldl_cons]
    by_cases hp : p a = true
    · have ha : ((a : Nat) : Int) ∉ s0 := hfresh a (List.mem_cons_self _ _)
      have hadd : setAdd s0 (a : Int) = s0 ++ [(a : Int)] := by
        unfold setAdd
        simp [ha]
      rw [if_pos hp, hadd, ih _ hnd'.2]
      · simp [List.filter_cons, hp]
      · intro n hn hmem
        rcases List.mem_append.1 hmem with h | h
        · exact hfresh n (List.mem_cons_of_mem _ hn) h
        · simp only [List.mem_singleton, Nat.cast_inj] at h
          subst h
          exact hnd'.1 hn
    · rw [if_neg hp, ih _ hnd'.2]
      · simp [List.filter_cons, hp]
      · intro n hn
        exact hfresh n (List.mem_cons_of_mem _ hn)

theorem domAt_initializeDomains (N B : Nat) (board : Board) {r c : Nat} (hr : r < N)
    (hc : c < N) :
    domAt (initializeDomains N B board) r c
      = if cellAt board r c = some 0 then validValues N B board r c else [] := by
  unfold initializeDomains
  rw [domAt_tabulate N _ hr hc]
  by_cases h : cellAt board r c = some 0
  · simp only [h, beq_self_eq_true, if_true]
    rw [foldl_setAdd (fun (n : Nat) => isValid N B board r c (n : Int)) _ [] (List.nodup_range' 1 N)
      (by simp)]
    simp [validValues]
  · have : (cellAt board r c == some 0) = false := by simpa using h
    simp [h, this]

theorem mem_validValues (N B : Nat) (board : Board) (row col : Nat) (v : Int) :
    v ∈ validValues N B board row col
      ↔ 1 ≤ v ∧ v ≤ (N : Int) ∧ isValid N B board row col v = true := by
  unfold validValues
  simp only [List.mem_map, List.mem_filter, List.mem_range']
  constructor
  · rintro ⟨n, ⟨⟨i, hi, rfl⟩, hv⟩, rfl⟩
    refine ⟨by omega, by omega, hv⟩
  · rintro ⟨h1, h2, h3⟩
    refine ⟨v.toNat, ⟨⟨v.toNat - 1, by omega, by omega⟩, ?_⟩, by omega⟩
    have : ((v.toNat : Nat) : Int) = v := by omega
    rw [this]; exact h3

theorem validValues_nodup (N B : Nat) (board : Board) (row col : Nat) :
    (validValues N B board row col).Nodup := by
  unfold validValues
  apply List.Nodup.map
  · intro a b h; exact Int.ofNat.inj h
  · exact (List.nodup_range' 1 N).filter _

/-- C8.  On an `N × N` board with `N = B²`, `initializeDomains board` is an `N × N` grid; the set
at a cell whose board value is `0` is exactly `{ v ∈ [1, N] | isValid board row col v }` (a list
without repetition, in ascending order, namely `validValues`), and the set at a cell whose board
value is not `0` is empty.  The function returns the grid only, so the board is as it was. -/
theorem initializeDomains_spec (N B : Nat) (board : Board) (hsq : Square N board)
    (hN : N = B * B) :
    Square N (initializeDomains N B board) ∧
    ∀ row col, row < N → col < N →
      (cellAt board row col = some 0 →
        domAt (initializeDomains N B board) row col = validValues N B board row col ∧
        (domAt (initializeDomains N B board) row col).Nodup ∧
        ∀ v : Int, v ∈ domAt (initializeDomains N B board) row col
          ↔ 1 ≤ v ∧ v ≤ (N : Int) ∧ isValid N B board row col v = true) ∧
      (cellAt board row col ≠ some 0 → domAt (initializeDomains N B board) row col = []) := by
  refine ⟨square_tabulate N _, ?_⟩
  intro row col hr hc
  rw [domAt_initializeDomains N B board hr hc]
  constructor
  · intro h
    rw [if_pos h]
    exact ⟨rfl, validValues_nodup N B board row col, mem_validValues N B board row col⟩
  · intro h
    rw [if_neg h]

/-- Witness of `initializeDomains_spec` on a 4 × 4 board. -/
theorem initializeDomains_spec_witness :
    Square 4 [[1, 0, 0, 0], [0, 0, 0, 0], [0, 0, 0, 0], [0, 0, 0, (2 : Int)]] ∧
    Square 4 (initializeDomains 4 2 [[1, 0, 0, 0], [0, 0, 0, 0], [0, 0, 0, 0], [0, 0, 0, 2]]) :=
  ⟨by decide,
    (initializeDomains_spec 4 2 [[1, 0, 0, 0], [0, 0, 0, 0], [0, 0, 0, 0], [0, 0, 0, 2]]
      (by decide) (by decide)).1⟩

/-! ## Forward checking -/

theorem domAt_domModify (d : Domains) (r c : Nat) (f : List Int → List Int) (hf : f [] = [])
    (r' c' : Nat) :
    domAt (domModify d r c f) r' c'
      = if r' = r ∧ c' = c then f (domAt d r c) else domAt d r' c' := by
  unfold domAt domModify
  rw [List.getElem?_modify]
  by_cases hr : r = r'
  · subst hr
    cases hb : d[r]? with
    | none => simp [hf]
    | some row =>
      simp only [Option.map_eq_map, Option.map_some', if_true, true_and]
      rw [List.getElem?_modify]
      by_cases hc : c = c'
      · subst hc
        cases hcell : row[c]? <;> simp [hf]
      · have : ¬ c' = c := fun h => hc h.symm
        cases hcell : row[c']? <;> simp [hc, this]
  · have : ¬ r' = r := fun h => hr h.symm
    cases hb : d[r']? <;> simp [hr, this]

theorem domModify_square {N : Nat} {d : Domains} (h : Square N d) (r c : Nat)
    (f : List Int → List Int) : Square N (domModify d r c f) := by
  obtain ⟨hl, hrows⟩ := h
  refine ⟨by simp [domModify, hl], ?_⟩
  intro row hrow
  obtain ⟨i, hi⟩ := List.getElem?_of_mem hrow
  unfold domModify at hi
  rw [List.getElem?_modify] at hi
  cases hb : d[i]? with
  | none => simp [hb] at hi
  | some row0 =>
    have hlen := hrows row0
      (by obtain ⟨h1, h2⟩ := List.getElem?_eq_some_iff.1 hb; exact h2 ▸ List.getElem_mem h1)
    simp only [hb, Option.map_eq_map, Option.map_some', Option.some.injEq] at hi
    subst hi
    split <;> simp [hlen]

theorem setDelete_nil (num : Int) : setDelete [] num = [] := rfl

theorem setDelete_idem (s : List Int) (num : Int) :
    setDelete (setDelete s num) num = setDelete s num := by
  unfold setDelete
  rw [List.filter_filter]
  congr 1
  funext w
  simp

theorem mem_setDelete (s : List Int) (num v : Int) :
    v ∈ setDelete s num ↔ v ∈ s ∧ v ≠ num := by
  unfold setDelete
  simp

theorem DeletedOn.congr {num : Int} {S T : Nat → Nat → Prop} {d1 d2 : Domains}
    (h : DeletedOn num S d1 d2) (hST : ∀ r c, S r c ↔ T r c) : DeletedOn num T d1 d2 := by
  intro r c
  rw [← hST r c]
  exact h r c

theorem DeletedOn.step {num : Int} {S : Nat → Nat → Prop} {d1 d2 : Domains}
    (h : DeletedOn num S d1 d2) (r0 c0 : Nat) :
    DeletedOn num (fun r c => S r c ∨ (r = r0 ∧ c = c0)) d1
      (domModify d2 r0 c0 (fun s => setDelete s num)) := by
  intro r c
  rw [domAt_domModify _ _ _ (fun s => setDelete s num) rfl]
  by_cases hS : S r c
  · by_cases hc : r = r0 ∧ c = c0
    · obtain ⟨rfl, rfl⟩ := hc
      refine ⟨fun _ => ?_, fun hn => absurd (Or.inl hS) hn⟩
      simp only [and_self, if_true]
      rw [(h r c).1 hS, setDelete_idem]
    · refine ⟨fun _ => ?_, fun hn => absurd (Or.inl hS) hn⟩
      rw [if_neg hc]
      exact (h r c).1 hS
  · by_cases hc : r = r0 ∧ c = c0
    · obtain ⟨rfl, rfl⟩ := hc
      refine ⟨fun _ => ?_, fun hn => absurd (Or.inr ⟨rfl, rfl⟩) hn⟩
      simp only [and_self, if_true]
      rw [(h r c).2 hS]
    · refine ⟨fun hp => ?_, fun _ => ?_⟩
      · rcases hp with hp | hp
        · exact absurd hp hS
        · exact absurd hp hc
      · rw [if_neg hc]
        exact (h r c).2 hS

/-- The row and column loop of `updateDomains`, over any list of indices. -/
theorem deletedOn_rowColLoop (num : Int) (row col : Nat) (l : List Nat) (S : Nat → Nat → Prop)
    (d1 d2 : Domains) (h : DeletedOn num S d1 d2) :
    DeletedOn num (fun r c => S r c ∨ (r = row ∧ c ∈ l) ∨ (c = col ∧ r ∈ l)) d1
      (l.foldl (fun d x => domModify (domModify d row x (fun s => setDelete s num)) x col
        (fun s => setDelete s num)) d2) := by
  induction l generalizing S d2 with
  | nil => exact h.congr (by simp)
  | cons x t ih =>
    rw [List.foldl_cons]
    refine (ih _ _ ((h.step row x).step x col)).congr ?_
    intro r c
    simp only [List.mem_cons]
    constructor
    · rintro (((h1 | ⟨h1, h2⟩) | ⟨h1, h2⟩) | ⟨h1, h2⟩ | ⟨h1, h2⟩)
      · exact Or.inl h1
      · exact Or.inr (Or.inl ⟨h1, Or.inl h2⟩)
      · exact Or.inr (Or.inr ⟨h2, Or.inl h1⟩)
      · exact Or.inr (Or.inl ⟨h1, Or.inr h2⟩)
      · exact Or.inr (Or.inr ⟨h1, Or.inr h2⟩)
    · rintro (h1 | ⟨h1, h2 | h2⟩ | ⟨h1, h2 | h2⟩)
      · exact Or.inl (Or.inl (Or.inl h1))
      · exact Or.inl (Or.inl (Or.inr ⟨h1, h2⟩))
      · exact Or.inr (Or.inl ⟨h1, h2⟩)
      · exact Or.inl (Or.inr ⟨h2, h1⟩)
      · exact Or.inr (Or.inr ⟨h1, h2⟩)

/-- The inner box loop of `updateDomains`, over any list of column offsets. -/
theorem deletedOn_boxInner (num : Int) (r0 sc : Nat) (lj : List Nat) (S : Nat → Nat → Prop)
    (d1 d2 : Domains) (h : DeletedOn num S d1 d2) :
    DeletedOn num (fun r c => S r c ∨ (r = r0 ∧ ∃ j ∈ lj, c = sc + j)) d1
      (lj.foldl (fun d j => domModify d r0 (sc + j) (fun s => setDelete s num)) d2) := by
  induction lj generalizing S d2 with
  | nil => exact h.congr (by simp)
  | cons j t ih =>
    rw [List.foldl_cons]
    refine (ih _ _ (h.step r0 (sc + j))).congr ?_
    intro r c
    simp only [List.mem_cons, exists_eq_or_imp]
    tauto

/-- The box loop of `updateDomains`, over any lists of offsets. -/
theorem deletedOn_boxLoop (num : Int) (sr sc : Nat) (li lj : List Nat) (S : Nat → Nat → Prop)
    (d1 d2 : Domains) (h : DeletedOn num S d1 d2) :
    DeletedOn num (fun r c => S r c ∨ ((∃ i ∈ li, r = sr + i) ∧ ∃ j ∈ lj, c = sc + j)) d1
      (li.foldl (fun d i =>
        lj.foldl (fun d j => domModify d (sr + i) (sc + j) (fun s => setDelete s num)) d) d2) := by
  induction li generalizing S d2 with
  | nil => exact h.congr (by simp)
  | cons i t ih =>
    rw [List.foldl_cons]
    refine (ih _ _ (deletedOn_boxInner num (sr + i) sc lj S d1 d2 h)).congr ?_
    intro r c
    simp only [List.mem_cons, exists_eq_or_imp]
    exact (show ∀ (s a p q : Prop), ((s ∨ a ∧ q) ∨ p ∧ q) ↔ (s ∨ (a ∨ p) ∧ q) from by
      intros; tauto) _ _ _ _

theorem foldl_square {N : Nat} (l : List Nat) (g : Domains → Nat → Domains)
    (hg : ∀ d x, Square N d → Square N (g d x)) (d : Domains) (h : Square N d) :
    Square N (l.foldl g d) := by
  induction l generalizing d with
  | nil => exact h
  | cons x t ih => exact ih _ (hg d x h)

theorem updateDomains_square {N : Nat} (B : Nat) {d : Domains} (h : Square N d) (row col : Nat)
    (num : Int) : Square N (updateDomains N B d row col num) := by
  unfold updateDomains
  apply foldl_square
  · intro d i hd
    apply foldl_square
    · intro d j hd
      exact domModify_square hd _ _ _
    · exact hd
  · apply foldl_square
    · intro d x hd
      exact domModify_square (domModify_square hd _ _ _) _ _ _
    · exact domModify_square h _ _ _

/-- What `updateDomains` does to each set, on any input. -/
theorem domAt_updateDomains (N B : Nat) (d : Domains) (row col : Nat) (num : Int) (r c : Nat) :
    domAt (updateDomains N B d row col num) r c
      = if r = row ∧ c = col then []
        else if (r = row ∧ c < N) ∨ (c = col ∧ r < N) ∨ InBoxOf B row col r c then
          setDelete (domAt d r c) num
        else domAt d r c := by
  have h0 : DeletedOn num (fun _ _ => False) (domModify d row col (fun _ => []))
      (domModify d row col (fun _ => [])) := fun r c => ⟨fun h => h.elim, fun _ => rfl⟩
  have h1 := deletedOn_rowColLoop num row col (List.range N) _ _ _ h0
  have h2 := deletedOn_boxLoop num (row / B * B) (col / B * B) (List.range B) (List.range B)
    _ _ _ h1
  have h3 := h2 r c
  have hbox : ((∃ i ∈ List.range B, r = row / B * B + i) ∧ ∃ j ∈ List.range B, c = col / B * B + j)
      ↔ InBoxOf B row col r c := by
    rw [inBoxOf_iff_offsets]
    simp only [List.mem_range]
    constructor
    · rintro ⟨⟨i, hi, h1⟩, j, hj, h2⟩
      exact ⟨i, hi, j, hj, h1, h2⟩
    · rintro ⟨i, hi, j, hj, h1, h2⟩
      exact ⟨⟨i, hi, h1⟩, j, hj, h2⟩
  simp only [List.mem_range] at hbox
  simp only [List.mem_range, false_or] at h3
  rw [hbox] at h3
  have hd0 := domAt_domModify d row col (fun _ => []) rfl r c
  show domAt (List.foldl _ (List.foldl _ (domModify d row col (fun _ => [])) _) _) r c = _
  by_cases hS : (r = row ∧ c < N) ∨ (c = col ∧ r < N) ∨ InBoxOf B row col r c
  · have h4 := h3.1 ((or_assoc).2 hS)
    rw [h4, hd0]
    by_cases hc : r = row ∧ c = col
    · simp [hc, setDelete_nil]
    · simp [hc, hS]
  · have h4 := h3.2 (fun h => hS ((or_assoc).1 h))
    rw [h4, hd0]
    by_cases hc : r = row ∧ c = col
    · simp [hc]
    · simp [hc, hS]

/-- C9.  On an `N × N` grid with `N = B²` and `row, col < N`, after
`updateDomains domains row col num` the grid is still `N × N`, the set at `(row, col)` is empty,
the set at every other cell of the same row, the same column or the same `B × B` box is its
previous set with `num` removed and every other value kept in place, and the set at a cell that
shares neither row, column nor box with `(row, col)` is unchanged. -/
theorem updateDomains_spec (N B : Nat) (domains : Domains) (row col : Nat) (num : Int)
    (hsq : Square N domains) (hN : N = B * B) (hrow : row < N) (hcol : col < N) :
    Square N (updateDomains N B domains row col num) ∧
    domAt (updateDomains N B domains row col num) row col = [] ∧
    (∀ r c, r < N → c < N → ¬ (r = row ∧ c = col) →
      (r = row ∨ c = col ∨ InBoxOf B row col r c) →
      domAt (updateDomains N B domains row col num) r c
        = (domAt domains r c).filter (fun w => decide (w ≠ num))) ∧
    (∀ r c, r < N → c < N → r ≠ row → c ≠ col → ¬ InBoxOf B row col r c →
      domAt (updateDomains N B domains row col num) r c = domAt domains r c) := by
  refine ⟨updateDomains_square B hsq row col num, ?_, ?_, ?_⟩
  · rw [domAt_updateDomains]; simp
  · intro r c hr hc hne hpeer
    rw [domAt_updateDomains, if_neg hne, if_pos]
    · unfold setDelete
      congr 1
      funext w
      by_cases hw : w = num <;> simp [hw]
    · rcases hpeer with h | h | h
      · exact Or.inl ⟨h, hc⟩
      · exact Or.inr (Or.inl ⟨h, hr⟩)
      · exact Or.inr (Or.inr h)
  · intro r c hr hc hne1 hne2 hbox
    rw [domAt_updateDomains, if_neg (fun h => hne1 h.1), if_neg]
    rintro (h | h | h)
    · exact hne1 h.1
    · exact hne2 h.1
    · exact hbox h

/-- Witness of `updateDomains_spec` on a 4 × 4 grid. -/
theorem updateDomains_spec_witness :
    Square 4 (List.replicate 4 (List.replicate 4 [1, 2, 3, (4 : Int)])) ∧
    domAt (updateDomains 4 2 (List.replicate 4 (List.replicate 4 [1, 2, 3, 4])) 1 2 3) 1 2 = [] :=
  ⟨by decide,
    (updateDomains_spec 4 2 (List.replicate 4 (List.replicate 4 [1, 2, 3, 4])) 1 2 3
      (by decide) (by decide) (by decide) (by decide)).2.1⟩

/-! ## Variable selection -/

theorem mem_cells (N : Nat) (p : Nat × Nat) : p ∈ cells N ↔ p.1 < N ∧ p.2 < N := by
  unfold cells
  simp only [List.mem_flatMap, List.mem_map, List.mem_range]
  constructor
  · rintro ⟨r, hr, c, hc, rfl⟩
    exact ⟨hr, hc⟩
  · rintro ⟨h1, h2⟩
    exact ⟨p.1, h1, p.2, h2, rfl⟩

theorem pairwise_cells (N : Nat) : (cells N).Pairwise RowMajorLt := by
  unfold cells
  rw [List.pairwise_flatMap]
  constructor
  · intro r _
    rw [List.pairwise_map]
    exact (List.pairwise_lt_range N).imp (fun h => Or.inr ⟨rfl, h⟩)
  · refine (List.pairwise_lt_range N).imp ?_
    intro a b hab x hx y hy
    simp only [List.mem_map, List.mem_range] at hx hy
    obtain ⟨_, _, rfl⟩ := hx
    obtain ⟨_, _, rfl⟩ := hy
    exact Or.inl hab

theorem rowMajorLt_asymm {p q : Nat × Nat} (h : RowMajorLt p q) : ¬ RowMajorLt q p := by
  unfold RowMajorLt at *
  omega

theorem rowMajorLt_irrefl (p : Nat × Nat) : ¬ RowMajorLt p p := by
  unfold RowMajorLt
  omega

theorem nodup_cells (N : Nat) : (cells N).Nodup := by
  refine (pairwise_cells N).imp ?_
  intro a b h hab
  subst hab
  exact rowMajorLt_irrefl a h

/-- In a split of the row-major list at `p`, the cells before `p` in the list are those before it
in row-major order. -/
theorem cells_split {N : Nat} {l1 l2 : List (Nat × Nat)} {p : Nat × Nat}
    (h : cells N = l1 ++ p :: l2) (q : Nat × Nat) (hq : q.1 < N ∧ q.2 < N) :
    (q ∈ l1 ↔ RowMajorLt q p) ∧ (q ∈ l2 ↔ RowMajorLt p q) := by
  have hpw := pairwise_cells N
  rw [h, List.pairwise_append, List.pairwise_cons] at hpw
  obtain ⟨_, ⟨hp2, _⟩, h12⟩ := hpw
  have hmem : q ∈ l1 ++ p :: l2 := h ▸ (mem_cells N q).2 hq
  rw [List.mem_append, List.mem_cons] at hmem
  constructor
  · constructor
    · intro h1
      exact h12 q h1 p (List.mem_cons_self _ _)
    · intro hlt
      rcases hmem with h1 | rfl | h2
      · exact h1
      · exact absurd hlt (rowMajorLt_irrefl _)
      · exact absurd hlt (rowMajorLt_asymm (hp2 q h2))
  · constructor
    · intro h2
      exact hp2 q h2
    · intro hlt
      rcases hmem with h1 | rfl | h2
      · exact absurd hlt (rowMajorLt_asymm (h12 q h1 p (List.mem_cons_self _ _)))
      · exact absurd hlt (rowMajorLt_irrefl _)
      · exact h2

theorem foldl_nested {σ : Type} (f : σ → Nat × Nat → σ) (l1 l2 : List Nat) (init : σ) :
    l1.foldl (fun st a => l2.foldl (fun st b => f st (a, b)) st) init
      = (l1.flatMap fun a => l2.map fun b => (a, b)).foldl f init := by
  induction l1 generalizing init with
  | nil => rfl
  | cons a t ih =>
    rw [List.foldl_cons, ih, List.flatMap_cons, List.foldl_append, List.foldl_map]

theorem findSome_nested {β : Type} (f : Nat × Nat → Option β) (l1 l2 : List Nat) :
    l1.findSome? (fun a => l2.findSome? (fun b => f (a, b)))
      = (l1.flatMap fun a => l2.map fun b => (a, b)).findSome? f := by
  induction l1 with
  | nil => rfl
  | cons a t ih =>
    rw [List.flatMap_cons, List.findSome?_append, List.findSome?_map, ← ih,
      List.findSome?_cons]
    cases h : List.findSome? (fun b => f (a, b)) l2 with
    | none =>
      have : List.findSome? (f ∘ fun b => (a, b)) l2 = none := h
      rw [this]; rfl
    | some v =>
      have : List.findSome? (f ∘ fun b => (a, b)) l2 = some v := h
      rw [this]; rfl

theorem selectCellMRV_eq (N : Nat) (board : Board) (domains : Domains) :
    selectCellMRV N board domains = ((cells N).foldl (mrvStep board domains) (none, none)).2 := by
  unfold selectCellMRV cells
  rw [← foldl_nested]
  rfl

theorem selectCellFirst_eq (N : Nat) (board : Board) :
    selectCellFirst N board
      = (cells N).findSome? (fun p => if cellAt board p.1 p.2 = some 0 then some p else none) := by
  unfold selectCellFirst cells
  rw [← findSome_nested]
  simp

/-- The state of the MRV scan after any list of cells: nothing yet if no cell of the list is
empty, otherwise the first empty cell of the list whose set is smallest. -/
theorem mrv_scan (board : Board) (domains : Domains) (L : List (Nat × Nat)) :
    (L.foldl (mrvStep board domains) (none, none) = (none, none) ∧
      ∀ q ∈ L, cellAt board q.1 q.2 ≠ some 0) ∨
    (∃ p l1 l2, L = l1 ++ p :: l2 ∧
      L.foldl (mrvStep board domains) (none, none)
        = (some (domAt domains p.1 p.2).length, some p) ∧
      cellAt board p.1 p.2 = some 0 ∧
      (∀ q ∈ l1, cellAt board q.1 q.2 = some 0 →
        (domAt domains p.1 p.2).length < (domAt domains q.1 q.2).length) ∧
      (∀ q ∈ l2, cellAt board q.1 q.2 = some 0 →
        (domAt domains p.1 p.2).length ≤ (domAt domains q.1 q.2).length)) := by
  induction L using List.reverseRecOn with
  | nil => exact Or.inl ⟨rfl, by simp⟩
  | append_singleton L x ih =>
    rw [List.foldl_append, List.foldl_cons, List.foldl_nil]
    by_cases hx : cellAt board x.1 x.2 = some 0
    · rcases ih with ⟨hst, hnone⟩ | ⟨p, l1, l2, hL, hst, hp, h1, h2⟩
      · right
        refine ⟨x, L, [], rfl, ?_, hx, ?_, by simp⟩
        · rw [hst]; simp [mrvStep, hx]
        · intro q hq hq0
          exact absurd hq0 (hnone q hq)
      · right
        by_cases hlt : (domAt domains x.1 x.2).length < (domAt domains p.1 p.2).length
        · refine ⟨x, L, [], rfl, ?_, hx, ?_, by simp⟩
          · rw [hst]; simp [mrvStep, hx, hlt]
          · intro q hq hq0
            rw [hL, List.mem_append, List.mem_cons] at hq
            rcases hq with hq | rfl | hq
            · exact Nat.lt_trans hlt (h1 q hq hq0)
            · exact hlt
            · exact Nat.lt_of_lt_of_le hlt (h2 q hq hq0)
        · refine ⟨p, l1, l2 ++ [x], by rw [hL]; simp, ?_, hp, h1, ?_⟩
          · rw [hst]; simp [mrvStep, hx, hlt]
          · intro q hq hq0
            rw [List.mem_append, List.mem_singleton] at hq
            rcases hq with hq | rfl
            · exact h2 q hq hq0
            · exact Nat.le_of_not_lt hlt
    · have hstep : ∀ st, mrvStep board domains st x = st := by
        intro st
        have : (cellAt board x.1 x.2 == some 0) = false := by simpa using hx
        simp [mrvStep, this]
      rw [hstep]
      rcases ih with ⟨hst, hnone⟩ | ⟨p, l1, l2, hL, hst, hp, h1, h2⟩
      · left
        refine ⟨hst, ?_⟩
        intro q hq
        rw [List.mem_append, List.mem_singleton] at hq
        rcases hq with hq | rfl
        · exact hnone q hq
        · exact hx
      · right
        refine ⟨p, l1, l2 ++ [x], by rw [hL]; simp, hst, hp, h1, ?_⟩
        intro q hq hq0
        rw [List.mem_append, List.mem_singleton] at hq
        rcases hq with hq | rfl
        · exact h2 q hq hq0
        · exact absurd hq0 hx

/-- What the MRV scan returns. -/
theorem selectCellMRV_cases (N : Nat) (board : Board) (domains : Domains) :
    (selectCellMRV N board domains = none ∧
      ∀ r c, r < N → c < N → cellAt board r c ≠ some 0) ∨
    (∃ p, selectCellMRV N board domains = some p ∧ p.1 < N ∧ p.2 < N ∧
      cellAt board p.1 p.2 = some 0 ∧
      ∀ q : Nat × Nat, q.1 < N → q.2 < N → cellAt board q.1 q.2 = some 0 →
        (domAt domains p.1 p.2).length ≤ (domAt domains q.1 q.2).length ∧
        (RowMajorLt q p → (domAt domains p.1 p.2).length < (domAt domains q.1 q.2).length)) := by
  rw [selectCellMRV_eq]
  rcases mrv_scan board domains (cells N) with ⟨hst, hnone⟩ | ⟨p, l1, l2, hL, hst, hp, h1, h2⟩
  · left
    rw [hst]
    exact ⟨rfl, fun r c hr hc => hnone (r, c) ((mem_cells N (r, c)).2 ⟨hr, hc⟩)⟩
  · right
    have hpm : p ∈ cells N := by rw [hL]; simp
    have hpN := (mem_cells N p).1 hpm
    refine ⟨p, by rw [hst], hpN.1, hpN.2, hp, ?_⟩
    intro q hq1 hq2 hq0
    have hs := cells_split hL q ⟨hq1, hq2⟩
    have hqm : q ∈ l1 ++ p :: l2 := hL ▸ (mem_cells N q).2 ⟨hq1, hq2⟩
    rw [List.mem_append, List.mem_cons] at hqm
    constructor
    · rcases hqm with h | rfl | h
      · exact Nat.le_of_lt (h1 q h hq0)
      · exact Nat.le_refl _
      · exact h2 q h hq0
    · intro hlt
      exact h1 q (hs.1.2 hlt) hq0

/-- What the static scan returns. -/
theorem selectCellFirst_cases (N : Nat) (board : Board) :
    (selectCellFirst N board = none ∧ ∀ r c, r < N → c < N → cellAt board r c ≠ some 0) ∨
    (∃ p, selectCellFirst N board = some p ∧ p.1 < N ∧ p.2 < N ∧
      cellAt board p.1 p.2 = some 0 ∧
      ∀ q : Nat × Nat, q.1 < N → q.2 < N → RowMajorLt q p → cellAt board q.1 q.2 ≠ some 0) := by
  rw [selectCellFirst_eq]
  cases hres : (cells N).findSome?
      (fun p => if cellAt board p.1 p.2 = some 0 then some p else none) with
  | none =>
    left
    refine ⟨rfl, ?_⟩
    intro r c hr hc h0
    have := List.findSome?_eq_none_iff.1 hres (r, c) ((mem_cells N (r, c)).2 ⟨hr, hc⟩)
    simp [h0] at this
  | some p =>
    right
    obtain ⟨l1, a, l2, hL, ha, hbefore⟩ := List.findSome?_eq_some_iff.1 hres
    have ha0 : cellAt board a.1 a.2 = some 0 := by
      by_contra hne
      simp [hne] at ha
    have hap : a = p := by simpa [ha0] using ha
    subst hap
    have hpm : a ∈ cells N := by rw [hL]; simp
    have hpN := (mem_cells N a).1 hpm
    refine ⟨a, rfl, hpN.1, hpN.2, ha0, ?_⟩
    intro q hq1 hq2 hlt h0
    have hs := cells_split hL q ⟨hq1, hq2⟩
    have := hbefore q (hs.1.2 hlt)
    simp [h0] at this

/-- C10.  On an `N × N` board with an `N × N` domain grid, `selectCell` returns no cell exactly
when the board has no `0` cell; a returned cell is in the grid and holds `0`; with
`useMRV = false` no cell before it in row-major order holds `0`; with `useMRV = true` its set is
no larger than the set of any `0` cell and strictly smaller than the set of every `0` cell before
it in row-major order. -/
theorem selectCell_spec (N : Nat) (useMRV : Bool) (board : Board) (domains : Domains)
    (hb : Square N board) (hd : Square N domains) :
    (selectCell N useMRV board domains = none
      ↔ ∀ r c, r < N → c < N → cellAt board r c ≠ some 0) ∧
    (∀ p, selectCell N useMRV board domains = some p →
      p.1 < N ∧ p.2 < N ∧ cellAt board p.1 p.2 = some 0 ∧
      (useMRV = false →
        ∀ q : Nat × Nat, q.1 < N → q.2 < N → RowMajorLt q p → cellAt board q.1 q.2 ≠ some 0) ∧
      (useMRV = true →
        ∀ q : Nat × Nat, q.1 < N → q.2 < N → cellAt board q.1 q.2 = some 0 →
          (domAt domains p.1 p.2).length ≤ (domAt domains q.1 q.2).length ∧
          (RowMajorLt q p →
            (domAt domains p.1 p.2).length < (domAt domains q.1 q.2).length))) := by
  cases useMRV with
  | false =>
    simp only [selectCell, Bool.false_eq_true, if_false, true_implies, false_implies, and_true]
    rcases selectCellFirst_cases N board with ⟨h1, h2⟩ | ⟨p, h1, h2, h3, h4, h5⟩
    · rw [h1]
      exact ⟨⟨fun _ => h2, fun _ => rfl⟩, fun p hp => by cases hp⟩
    · rw [h1]
      refine ⟨⟨fun h => (by cases h), fun h => absurd h4 (h p.1 p.2 h2 h3)⟩, ?_⟩
      intro p' hp'
      cases hp'
      exact ⟨h2, h3, h4, h5⟩
  | true =>
    simp only [selectCell, if_true, true_implies, Bool.true_eq_false, false_implies, true_and]
    rcases selectCellMRV_cases N board domains with ⟨h1, h2⟩ | ⟨p, h1, h2, h3, h4, h5⟩
    · rw [h1]
      exact ⟨⟨fun _ => h2, fun _ => rfl⟩, fun p hp => by cases hp⟩
    · rw [h1]
      refine ⟨⟨fun h => (by cases h), fun h => absurd h4 (h p.1 p.2 h2 h3)⟩, ?_⟩
      intro p' hp'
      cases hp'
      exact ⟨h2, h3, h4, h5⟩

/-- Witness of `selectCell_spec`: on this 4 × 4 board with MRV the cell `(0, 3)` is chosen. -/
theorem selectCell_spec_witness :
    Square 4 [[1, 0, 0, 0], [0, 0, 0, 0], [0, 0, 0, 0], [0, 0, 0, (2 : Int)]] ∧
    Square 4 (initializeDomains 4 2 [[1, 0, 0, 0], [0, 0, 0, 0], [0, 0, 0, 0], [0, 0, 0, 2]]) ∧
    (selectCell 4 true [[1, 0, 0, 0], [0, 0, 0, 0], [0, 0, 0, 0], [0, 0, 0, 2]]
        (initializeDomains 4 2 [[1, 0, 0, 0], [0, 0, 0, 0], [0, 0, 0, 0], [0, 0, 0, 2]]) = none
      ↔ ∀ r c, r < 4 → c < 4 →
        cellAt [[1, 0, 0, 0], [0, 0, 0, 0], [0, 0, 0, 0], [0, 0, 0, 2]] r c ≠ some 0) :=
  ⟨by decide, by decide,
    (selectCell_spec 4 true [[1, 0, 0, 0], [0, 0, 0, 0], [0, 0, 0, 0], [0, 0, 0, 2]]
      (initializeDomains 4 2 [[1, 0, 0, 0], [0, 0, 0, 0], [0, 0, 0, 0], [0, 0, 0, 2]])
      (by decide) (by decide)).1⟩

/-! ## Validation -/

/-- On an `N × N` board the transposed range read covers the same cells, and no read is
`undefined`. -/
theorem isBoardValid_eq_false_iff (N : Nat) (board : Board) (hsq : Square N board) :
    isBoardValid N board = false
      ↔ ∃ r c v, r < N ∧ c < N ∧ cellAt board r c = some v ∧ (v < 0 ∨ (N : Int) < v) := by
  rw [← Bool.not_eq_true]
  unfold isBoardValid
  simp only [List.all_eq_true, List.mem_range, Bool.not_eq_true', Bool.or_eq_false_iff,
    not_forall]
  constructor
  · rintro ⟨col, hcol, row, hrow, h⟩
    obtain ⟨v, hv⟩ := cellAt_isSome_of_square hsq hcol hrow
    obtain ⟨w, hw⟩ := cellAt_isSome_of_square hsq hrow hcol
    refine ⟨col, row, v, hcol, hrow, hv, ?_⟩
    by_contra hcon
    apply h
    simp only [hv, hw, jsGt, jsLt, jsIsNaN, decide_eq_false_iff_not, and_true]
    omega
  · rintro ⟨r, c, v, hr, hc, hv, hbad⟩
    refine ⟨r, hr, c, hc, ?_⟩
    rintro ⟨⟨h1, h2⟩, _⟩
    simp only [hv, jsGt, jsLt, decide_eq_false_iff_not] at h1 h2
    omega

/-- C4.  On an `N × N` board of integers `isBoardValid` returns false exactly when some cell is
negative or greater than `N`, although the range test reads `board[col][row]` and the `isNaN`
test reads `board[row][col]`.  When it returns false, `solveSudokuCSP` reports `Invalid` with
the board as it was given and `openedStates = 0`, whatever the fuel, zero included: no domain
is built and no search frame is entered. -/
theorem isBoardValid_spec (N : Nat) (board : Board) (hsq : Square N board) :
    (isBoardValid N board = false
      ↔ ∃ r c v, r < N ∧ c < N ∧ cellAt board r c = some v ∧ (v < 0 ∨ (N : Int) < v)) ∧
    (isBoardValid N board = false →
      ∀ (fuel : Nat) (useMRV useLCV : Bool),
        solveSudokuCSP fuel board useMRV useLCV = some (Outcome.Invalid board 0)) := by
  refine ⟨isBoardValid_eq_false_iff N board hsq, ?_⟩
  intro h fuel useMRV useLCV
  unfold solveSudokuCSP
  rw [hsq.1]
  simp only [h, Bool.false_eq_true, if_false]

/-- Witness of `isBoardValid_spec`: a 9 × 9 board holding the value `10` is reported `Invalid`,
unchanged and with `openedStates = 0`, with no fuel at all. -/
theorem isBoardValid_spec_witness :
    Square 9 boardWithTen ∧ isBoardValid 9 boardWithTen = false ∧
    solveSudokuCSP 0 boardWithTen false true = some (Outcome.Invalid boardWithTen 0) :=
  ⟨by decide, by decide,
    (isBoardValid_spec 9 boardWithTen (by decide)).2 (by decide) 0 false true⟩

/-! ## The search: restoration of the board and termination -/

theorem selectCell_some {N : Nat} {useMRV : Bool} {board : Board} {domains : Domains}
    {row col : Nat} (h : selectCell N useMRV board domains = some (row, col)) :
    row < N ∧ col < N ∧ cellAt board row col = some 0 := by
  unfold selectCell at h
  cases useMRV with
  | false =>
    simp only [Bool.false_eq_true, if_false] at h
    rcases selectCellFirst_cases N board with ⟨h1, _⟩ | ⟨p, h1, h2, h3, h4, _⟩
    · rw [h1] at h; cases h
    · rw [h1] at h; cases h; exact ⟨h2, h3, h4⟩
  | true =>
    simp only [if_true] at h
    rcases selectCellMRV_cases N board domains with ⟨h1, _⟩ | ⟨p, h1, h2, h3, h4, _⟩
    · rw [h1] at h; cases h
    · rw [h1] at h; cases h; exact ⟨h2, h3, h4⟩

theorem selectCell_none {N : Nat} {useMRV : Bool} {board : Board} {domains : Domains}
    (h : selectCell N useMRV board domains = none) :
    ∀ r c, r < N → c < N → cellAt board r c ≠ some 0 := by
  unfold selectCell at h
  cases useMRV with
  | false =>
    simp only [Bool.false_eq_true, if_false] at h
    rcases selectCellFirst_cases N board with ⟨_, h2⟩ | ⟨p, h1, _⟩
    · exact h2
    · rw [h1] at h; cases h
  | true =>
    simp only [if_true] at h
    rcases selectCellMRV_cases N board domains with ⟨_, h2⟩ | ⟨p, h1, _⟩
    · exact h2
    · rw [h1] at h; cases h

/-- A value accepted by `isValid` at an empty cell is not `0`: the row scan reads the cell
itself. -/
theorem isValid_ne_zero {N B : Nat} {board : Board} {row col : Nat} {num : Int}
    (hcol : col < N) (h0 : cellAt board row col = some 0)
    (hv : isValid N B board row col num = true) : num ≠ 0 := by
  rintro rfl
  exact ((isValid_eq_true_iff N B board row col 0).1 hv).1 col hcol h0

theorem countZeros_setCell {N : Nat} {board : Board} {row col : Nat} {num : Int}
    (hrow : row < N) (hcol : col < N) (h0 : cellAt board row col = some 0) (hnum : num ≠ 0) :
    countZeros N (setCell board row col num) + 1 = countZeros N board := by
  unfold countZeros
  have hmem : (row, col) ∈ cells N := (mem_cells N (row, col)).2 ⟨hrow, hcol⟩
  have hnd := nodup_cells N
  generalize cells N = L at hmem hnd
  induction L with
  | nil => cases hmem
  | cons p t ih =>
    have hnd' := List.nodup_cons.1 hnd
    by_cases hp : p = (row, col)
    · subst hp
      have hrest : t.filter (fun p => cellAt (setCell board row col num) p.1 p.2 == some 0)
          = t.filter (fun p => cellAt board p.1 p.2 == some 0) := by
        apply List.filter_congr
        intro q hq
        have hne : ¬ (q.1 = row ∧ q.2 = col) := by
          rintro ⟨h1, h2⟩
          apply hnd'.1
          have : q = (row, col) := Prod.ext h1 h2
          rw [← this]; exact hq
        rw [cellAt_setCell_ne board num hne]
      have hnew : (cellAt (setCell board row col num) row col == some 0) = false := by
        rw [cellAt_setCell_same num h0]
        simpa using hnum
      rw [List.filter_cons, List.filter_cons]
      simp only [hnew, h0, beq_self_eq_true, if_true, Bool.false_eq_true, if_false,
        List.length_cons, hrest]
    · have hmem' : (row, col) ∈ t := by
        rcases List.mem_cons.1 hmem with h | h
        · exact absurd h.symm hp
        · exact h
      have hne : ¬ (p.1 = row ∧ p.2 = col) := fun h => hp (Prod.ext h.1 h.2)
      have ih' := ih hmem' hnd'.2
      rw [List.filter_cons, List.filter_cons, cellAt_setCell_ne board num hne]
      split
      · simp only [List.length_cons]; omega
      · exact ih'

/-- The candidate loop gives the board back when it fails, provided the recursive call does. -/
theorem tryCandidates_restores {N B : Nat} {child : Board → Domains → Nat → Option Frame}
    (hchild : ∀ b d o b' o', child b d o = some (false, b', o') → b' = b)
    (domains : Domains) (row col : Nat) (cands : List Int) (board : Board) (opened : Nat)
    (h0 : cellAt board row col = some 0) (b' : Board) (o' : Nat)
    (h : tryCandidates N B child domains row col cands board opened = some (false, b', o')) :
    b' = board := by
  induction cands generalizing opened with
  | nil =>
    simp only [tryCandidates, Option.some.injEq, Prod.mk.injEq, true_and] at h
    exact h.1.symm
  | cons num rest ih =>
    unfold tryCandidates at h
    split at h
    · simp only at h
      split at h
      · cases h
      · cases h
      · rename_i b1 o1 hc
        have hb1 := hchild _ _ _ _ _ hc
        rw [hb1, setCell_undo board row col num h0] at h
        exact ih _ h
    · exact ih _ h

/-- A failed `backtrack` gives the board back, whatever the arguments. -/
theorem backtrack_false_board (N B : Nat) (useMRV useLCV : Bool) (fuel : Nat) (board : Board)
    (domains : Domains) (opened : Nat) (b' : Board) (o' : Nat)
    (h : backtrack N B useMRV useLCV fuel board domains opened = some (false, b', o')) :
    b' = board := by
  induction fuel generalizing board domains opened b' o' with
  | zero => simp [backtrack] at h
  | succ fuel ih =>
    unfold backtrack at h
    split at h
    · cases h
    · rename_i row col hsel
      exact tryCandidates_restores (fun b d o b' o' hc => ih b d o b' o' hc) domains row col _
        board opened (selectCell_some hsel).2.2 b' o' h

/-- The candidate loop returns, provided the recursive call returns on every board with fewer
empty cells and gives the board back when it fails. -/
theorem tryCandidates_isSome {N B : Nat} {child : Board → Domains → Nat → Option Frame}
    (board : Board) (row col : Nat) (hrow : row < N) (hcol : col < N)
    (h0 : cellAt board row col = some 0)
    (hchild : ∀ b d o b' o', child b d o = some (false, b', o') → b' = b)
    (hsome : ∀ b d o, countZeros N b < countZeros N board → (child b d o).isSome = true)
    (domains : Domains) (cands : List Int) (opened : Nat) :
    (tryCandidates N B child domains row col cands board opened).isSome = true := by
  induction cands generalizing opened with
  | nil => rfl
  | cons num rest ih =>
    unfold tryCandidates
    split
    · rename_i hv
      have hlt : countZeros N (setCell board row col num) < countZeros N board := by
        have := countZeros_setCell hrow hcol h0 (isValid_ne_zero hcol h0 hv)
        omega
      have hs := hsome (setCell board row col num) (updateDomains N B domains row col num)
        (opened + 1) hlt
      simp only
      split
      · rename_i hc
        rw [hc] at hs; cases hs
      · rfl
      · rename_i b1 o1 hc
        rw [hchild _ _ _ _ _ hc, setCell_undo board row col num h0]
        exact ih _
    · exact ih _

/-- The candidate loop only looks at the recursive call on boards with fewer empty cells. -/
theorem tryCandidates_congr {N B : Nat} {child1 child2 : Board → Domains → Nat → Option Frame}
    (board : Board) (row col : Nat) (hrow : row < N) (hcol : col < N)
    (h0 : cellAt board row col = some 0)
    (hchild : ∀ b d o b' o', child1 b d o = some (false, b', o') → b' = b)
    (hagree : ∀ b d o, countZeros N b < countZeros N board → child1 b d o = child2 b d o)
    (domains : Domains) (cands : List Int) (opened : Nat) :
    tryCandidates N B child1 domains row col cands board opened
      = tryCandidates N B child2 domains row col cands board opened := by
  induction cands generalizing opened with
  | nil => rfl
  | cons num rest ih =>
    rw [tryCandidates, tryCandidates]
    split
    · rename_i hv
      have hlt : countZeros N (setCell board row col num) < countZeros N board := by
        have := countZeros_setCell hrow hcol h0 (isValid_ne_zero hcol h0 hv)
        omega
      have ha := hagree (setCell board row col num) (updateDomains N B domains row col num)
        (opened + 1) hlt
      simp only
      rw [← ha]
      split
      · rfl
      · rfl
      · rename_i b1 o1 hc
        rw [hchild _ _ _ _ _ hc, setCell_undo board row col num h0]
        exact ih _
    · exact ih _

/-- Fuel above the number of empty cells is enough for `backtrack` to return. -/
theorem backtrack_isSome (N B : Nat) (useMRV useLCV : Bool) (fuel : Nat) (board : Board)
    (domains : Domains) (opened : Nat) (hfuel : countZeros N board < fuel) :
    (backtrack N B useMRV useLCV fuel board domains opened).isSome = true := by
  induction fuel generalizing board domains opened with
  | zero => omega
  | succ fuel ih =>
    unfold backtrack
    split
    · rfl
    · rename_i row col hsel
      obtain ⟨hrow, hcol, h0⟩ := selectCell_some hsel
      exact tryCandidates_isSome board row col hrow hcol h0
        (fun b d o b' o' hc => backtrack_false_board N B useMRV useLCV fuel b d o b' o' hc)
        (fun b d o hlt => ih b d o (by omega)) _ _ _

/-- With enough fuel the result of `backtrack` does not depend on the fuel. -/
theorem backtrack_fuel (N B : Nat) (useMRV useLCV : Bool) (fuel1 fuel2 : Nat) (board : Board)
    (domains : Domains) (opened : Nat) (h1 : countZeros N board < fuel1)
    (h2 : countZeros N board < fuel2) :
    backtrack N B useMRV useLCV fuel1 board domains opened
      = backtrack N B useMRV useLCV fuel2 board domains opened := by
  induction fuel1 generalizing fuel2 board domains opened with
  | zero => omega
  | succ fuel1 ih =>
    cases fuel2 with
    | zero => omega
    | succ fuel2 =>
      rw [backtrack, backtrack]
      split
      · rfl
      · rename_i row col hsel
        obtain ⟨hrow, hcol, h0⟩ := selectCell_some hsel
        exact tryCandidates_congr board row col hrow hcol h0
          (fun b d o b' o' hc => backtrack_false_board N B useMRV useLCV fuel1 b d o b' o' hc)
          (fun b d o hlt => ih fuel2 b d o (by omega) (by omega)) _ _ _

theorem cellAt_mem {board : Board} {r c : Nat} {v : Int} (h : cellAt board r c = some v) :
    ∃ row ∈ board, v ∈ row := by
  unfold cellAt at h
  cases hb : board[r]? with
  | none => simp [hb] at h
  | some row =>
    simp only [hb] at h
    obtain ⟨h1, h2⟩ := List.getElem?_eq_some_iff.1 hb
    obtain ⟨h3, h4⟩ := List.getElem?_eq_some_iff.1 h
    exact ⟨row, h2 ▸ List.getElem_mem h1, h4 ▸ List.getElem_mem h3⟩

theorem isBoardValid_of_inRange {N : Nat} {board : Board} (hsq : Square N board)
    (hcells : CellsInRange N board) : isBoardValid N board = true := by
  by_contra hne
  rw [Bool.not_eq_true] at hne
  obtain ⟨r, c, v, _, _, hv, hbad⟩ := (isBoardValid_eq_false_iff N board hsq).1 hne
  obtain ⟨row, hrow, hmem⟩ := cellAt_mem hv
  have := hcells row hrow v hmem
  omega

/-- On a well-formed board `solveSudokuCSP` is the search from the initial domains. -/
theorem solve_eq {N B : Nat} {board : Board} (hsq : Square N board) (hN : N = B * B)
    (hcells : CellsInRange N board) (fuel : Nat) (useMRV useLCV : Bool) :
    solveSudokuCSP fuel board useMRV useLCV
      = match backtrack N B useMRV useLCV fuel board (initializeDomains N B board) 0 with
        | none => none
        | some (true, b, o) => some (Outcome.Solved b o)
        | some (false, b, o) => some (Outcome.NoSolution b o) := by
  unfold solveSudokuCSP
  have hB : Nat.sqrt N = B := by rw [hN]; exact Nat.sqrt_eq B
  simp only [hsq.1, hB, isBoardValid_of_inRange hsq hcells, if_true]

/-- C3.  On a well-formed board (`N × N`, `N = B²`, cells in `[0, N]`), for every `N × N` domain
grid, every combination of `useMRV`/`useLCV` and every value of the counter: if
`backtrack board domains` returns false, the board after the call equals the board before it.
In particular a `NoSolution` outcome of `solveSudokuCSP` carries the input board. -/
theorem backtrack_restores (N B : Nat) (useMRV useLCV : Bool) (board : Board)
    (domains : Domains) (hsq : Square N board) (hN : N = B * B)
    (hcells : CellsInRange N board) (hd : Square N domains) :
    (∀ fuel opened b' o',
      backtrack N B useMRV useLCV fuel board domains opened = some (false, b', o') →
        b' = board) ∧
    (∀ fuel b' o',
      solveSudokuCSP fuel board useMRV useLCV = some (Outcome.NoSolution b' o') →
        b' = board) := by
  constructor
  · intro fuel opened b' o' h
    exact backtrack_false_board N B useMRV useLCV fuel board domains opened b' o' h
  · intro fuel b' o' h
    rw [solve_eq hsq hN hcells] at h
    split at h
    · cases h
    · cases h
    · rename_i b o hbt
      cases h
      exact backtrack_false_board N B useMRV useLCV fuel board _ 0 _ _ hbt

/-- Witness of `backtrack_restores`: on `deadEndBoard` the search places a `1`, fails, and
returns the board as it was, with one opened state. -/
theorem backtrack_restores_witness :
    backtrack 4 2 false false 17 deadEndBoard (initializeDomains 4 2 deadEndBoard) 0
      = some (false, deadEndBoard, 1) ∧ deadEndBoard = deadEndBoard :=
  ⟨by decide,
    (backtrack_restores 4 2 false false deadEndBoard (initializeDomains 4 2 deadEndBoard)
      (by decide) (by decide) (by decide) (by decide)).1 17 0 deadEndBoard 1 (by decide)⟩

/-- C6.  On a well-formed board, for every combination of `useMRV`/`useLCV`, the search
terminates: any fuel above the number of `0` cells makes `solveSudokuCSP` report `Solved` or
`NoSolution`, and the report is the same for all such fuels.  The recursion is well-founded
because, in every frame, `backtrack` only calls itself on boards with strictly fewer `0` cells
than the board of the frame: replacing the recursive call by one that refuses any other board
changes nothing. -/
theorem backtrack_terminates (N B : Nat) (useMRV useLCV : Bool) (board : Board)
    (hsq : Square N board) (hN : N = B * B) (hcells : CellsInRange N board) :
    (∀ fuel, countZeros N board < fuel →
      (∃ b' o', solveSudokuCSP fuel board useMRV useLCV = some (Outcome.Solved b' o') ∨
        solveSudokuCSP fuel board useMRV useLCV = some (Outcome.NoSolution b' o')) ∧
      solveSudokuCSP fuel board useMRV useLCV
        = solveSudokuCSP (countZeros N board + 1) board useMRV useLCV) ∧
    (∀ (fuel : Nat) (frameBoard : Board) (domains : Domains) (opened : Nat),
      backtrack N B useMRV useLCV (fuel + 1) frameBoard domains opened
        = match selectCell N useMRV frameBoard domains with
          | none => some (true, frameBoard, opened)
          | some (row, col) =>
            tryCandidates N B
              (fun b d o =>
                if countZeros N b < countZeros N frameBoard then
                  backtrack N B useMRV useLCV fuel b d o
                else none)
              domains row col (sortDomainByLCV N B useLCV frameBoard domains row col)
              frameBoard opened) := by
  constructor
  · intro fuel hfuel
    constructor
    · rw [solve_eq hsq hN hcells]
      have hs := backtrack_isSome N B useMRV useLCV fuel board (initializeDomains N B board) 0
        hfuel
      rcases hbt : backtrack N B useMRV useLCV fuel board (initializeDomains N B board) 0
        with _ | ⟨_ | _, b, o⟩
      · rw [hbt] at hs; cases hs
      · exact ⟨b, o, Or.inr rfl⟩
      · exact ⟨b, o, Or.inl rfl⟩
    · rw [solve_eq hsq hN hcells, solve_eq hsq hN hcells,
        backtrack_fuel N B useMRV useLCV fuel (countZeros N board + 1) board _ 0 hfuel
          (Nat.lt_succ_self _)]
  · intro fuel frameBoard domains opened
    rw [backtrack]
    split
    · rfl
    · rename_i row col hsel
      obtain ⟨hrow, hcol, h0⟩ := selectCell_some hsel
      exact tryCandidates_congr frameBoard row col hrow hcol h0
        (fun b d o b' o' hc => backtrack_false_board N B useMRV useLCV fuel b d o b' o' hc)
        (fun b d o hlt => by simp only [hlt, if_true]) _ _ _

/-- Witness of `backtrack_terminates`: `deadEndBoard` has 13 empty cells, and fuel 17 is
enough. -/
theorem backtrack_terminates_witness :
    countZeros 4 deadEndBoard < 17 ∧
    ((∃ b' o', solveSudokuCSP 17 deadEndBoard false false = some (Outcome.Solved b' o') ∨
        solveSudokuCSP 17 deadEndBoard false false = some (Outcome.NoSolution b' o')) ∧
      solveSudokuCSP 17 deadEndBoard false false
        = solveSudokuCSP (countZeros 4 deadEndBoard + 1) deadEndBoard false false) :=
  ⟨by decide,
    (backtrack_terminates 4 2 false false deadEndBoard (by decide) (by decide) (by decide)).1 17
      (by decide)⟩

/-! ## The search: soundness and completeness -/

theorem pos_of_sq {N B : Nat} (hN : N = B * B) {r : Nat} (hr : r < N) : 0 < B := by
  rcases Nat.eq_zero_or_pos B with h0 | h0
  · subst h0; omega
  · exact h0

theorem related_symm {N B : Nat} (hN : N = B * B) {r c r' c' : Nat} (hr : r < N) (hc : c < N)
    (h : Related N B r c r' c') : Related N B r' c' r c := by
  obtain ⟨_, _, h3⟩ := h
  refine ⟨hr, hc, ?_⟩
  rcases h3 with h | h | h
  · exact Or.inl h.symm
  · exact Or.inr (Or.inl h.symm)
  · exact Or.inr (Or.inr (inBoxOf_symm (pos_of_sq hN hr) h))

theorem related_self {N B : Nat} {r c : Nat} (hr : r < N) (hc : c < N) :
    Related N B r c r c := ⟨hr, hc, Or.inl rfl⟩

theorem isValid_iff_related {N B : Nat} (hN : N = B * B) (board : Board) {r c : Nat}
    (hr : r < N) (hc : c < N) (v : Int) :
    isValid N B board r c v = true
      ↔ ∀ r' c', Related N B r c r' c' → cellAt board r' c' ≠ some v := by
  rw [isValid_eq_true_iff]
  constructor
  · rintro ⟨h1, h2, h3⟩ r' c' ⟨hr', hc', hrel⟩
    rcases hrel with h | h | h
    · subst h; exact h1 c' hc'
    · subst h; exact h2 r' hr'
    · exact h3 r' c' h
  · intro h
    refine ⟨fun x hx => h r x ⟨hr, hx, Or.inl rfl⟩, fun x hx => h x c ⟨hx, hc, Or.inr (Or.inl rfl)⟩,
      fun r' c' hb => ?_⟩
    have := inBoxOf_lt hN hr hc hb
    exact h r' c' ⟨this.1, this.2, Or.inr (Or.inr hb)⟩

theorem fills_no_zero {N B : Nat} {board S : Board} (h : Fills N B board S) {r c : Nat}
    (hr : r < N) (hc : c < N) : cellAt S r c ≠ some 0 := by
  by_cases h0 : cellAt board r c = some 0
  · obtain ⟨v, hv, h1, _⟩ := h.2 r c hr hc h0
    rw [hv]
    intro hcon
    cases hcon
    omega
  · rw [h.1 r c h0]; exact h0

/-- One placement accepted by `isValid`, followed by a filling of the rest, fills the board. -/
theorem fills_step {N B : Nat} (hN : N = B * B) {board b' : Board} {row col : Nat} {num : Int}
    (hrow : row < N) (hcol : col < N) (h0 : cellAt board row col = some 0)
    (hv : isValid N B board row col num = true) (h1 : 1 ≤ num) (h2 : num ≤ (N : Int))
    (hf : Fills N B (setCell board row col num) b') : Fills N B board b' := by
  have hnum0 : (some num : Option Int) ≠ some 0 := by
    intro h; cases h; omega
  have hplaced : cellAt b' row col = some num := by
    have := hf.1 row col (by rw [cellAt_setCell_same num h0]; exact hnum0)
    rw [this, cellAt_setCell_same num h0]
  constructor
  · intro r c hne
    have hrc : ¬ (r = row ∧ c = col) := by
      rintro ⟨rfl, rfl⟩; exact hne h0
    have := hf.1 r c (by rw [cellAt_setCell_ne board num hrc]; exact hne)
    rw [this, cellAt_setCell_ne board num hrc]
  · intro r c hr hc hz
    by_cases hrc : r = row ∧ c = col
    · obtain ⟨rfl, rfl⟩ := hrc
      refine ⟨num, hplaced, h1, h2, ?_⟩
      intro r' c' hrel hne
      by_cases hz' : cellAt board r' c' = some 0
      · have hz1 : cellAt (setCell board r c num) r' c' = some 0 := by
          rw [cellAt_setCell_ne board num hne]; exact hz'
        obtain ⟨w, hw, _, _, hpf⟩ := hf.2 r' c' hrel.1 hrel.2.1 hz1
        have := hpf r c (related_symm hN hr hc hrel) (fun h => hne ⟨h.1.symm, h.2.symm⟩)
        rw [hw]
        intro hcon
        cases hcon
        exact this hplaced
      · have := hf.1 r' c' (by rw [cellAt_setCell_ne board num hne]; exact hz')
        rw [this, cellAt_setCell_ne board num hne]
        exact (isValid_iff_related hN board hr hc num).1 hv r' c' hrel
    · have hz1 : cellAt (setCell board row col num) r c = some 0 := by
        rw [cellAt_setCell_ne board num hrc]; exact hz
      exact hf.2 r c hr hc hz1

theorem fills_refl {N B : Nat} {board : Board}
    (h : ∀ r c, r < N → c < N → cellAt board r c ≠ some 0) : Fills N B board board :=
  ⟨fun _ _ _ => rfl, fun r c hr hc h0 => absurd h0 (h r c hr hc)⟩

theorem domRange_updateDomains {N : Nat} (B : Nat) {d : Domains} (h : DomRange N d)
    (row col : Nat) (num : Int) : DomRange N (updateDomains N B d row col num) := by
  intro r c v hv
  rw [domAt_updateDomains] at hv
  split at hv
  · cases hv
  · split at hv
    · exact h r c v ((mem_setDelete _ _ _).1 hv).1
    · exact h r c v hv

theorem mem_sortDomainByLCV (N B : Nat) (useLCV : Bool) (board : Board) (domains : Domains)
    (row col : Nat) (v : Int) :
    v ∈ sortDomainByLCV N B useLCV board domains row col ↔ v ∈ domAt domains row col := by
  unfold sortDomainByLCV
  split
  · rfl
  · exact (List.perm_insertionSort _ _).mem_iff

/-- Soundness of the candidate loop. -/
theorem tryCandidates_sound {N B : Nat} (hN : N = B * B)
    {child : Board → Domains → Nat → Option Frame} (board : Board) (row col : Nat)
    (hrow : row < N) (hcol : col < N) (h0 : cellAt board row col = some 0)
    (hrestore : ∀ b d o b' o', child b d o = some (false, b', o') → b' = b)
    (hchild : ∀ b d o b' o', DomRange N d → child b d o = some (true, b', o') → Fills N B b b')
    (domains : Domains) (hdom : DomRange N domains) (cands : List Int)
    (hc : ∀ v ∈ cands, 1 ≤ v ∧ v ≤ (N : Int)) (opened : Nat) (b' : Board) (o' : Nat)
    (h : tryCandidates N B child domains row col cands board opened = some (true, b', o')) :
    Fills N B board b' := by
  induction cands generalizing opened with
  | nil => simp [tryCandidates] at h
  | cons num rest ih =>
    have hc' : ∀ v ∈ rest, 1 ≤ v ∧ v ≤ (N : Int) := fun v hv => hc v (List.mem_cons_of_mem _ hv)
    unfold tryCandidates at h
    split at h
    · rename_i hv
      simp only at h
      split at h
      · cases h
      · rename_i b1 o1 hch
        cases h
        have hnum := hc num (List.mem_cons_self _ _)
        exact fills_step hN hrow hcol h0 hv hnum.1 hnum.2
          (hchild _ _ _ _ _ (domRange_updateDomains B hdom row col num) hch)
      · rename_i b1 o1 hch
        rw [hrestore _ _ _ _ _ hch, setCell_undo board row col num h0] at h
        exact ih hc' _ h
    · exact ih hc' _ h

/-- Soundness of a frame: a successful `backtrack` leaves a filling of its board. -/
theorem backtrack_sound {N B : Nat} (hN : N = B * B) (useMRV useLCV : Bool) (fuel : Nat)
    (board : Board) (domains : Domains) (hdom : DomRange N domains) (opened : Nat) (b' : Board)
    (o' : Nat)
    (h : backtrack N B useMRV useLCV fuel board domains opened = some (true, b', o')) :
    Fills N B board b' := by
  induction fuel generalizing board domains opened b' o' with
  | zero => simp [backtrack] at h
  | succ fuel ih =>
    unfold backtrack at h
    split at h
    · rename_i hsel
      cases h
      exact fills_refl (selectCell_none hsel)
    · rename_i row col hsel
      obtain ⟨hrow, hcol, h0⟩ := selectCell_some hsel
      exact tryCandidates_sound hN board row col hrow hcol h0
        (fun b d o b' o' hc => backtrack_false_board N B useMRV useLCV fuel b d o b' o' hc)
        (fun b d o b' o' hd hc => ih b d hd o b' o' hc) domains hdom _
        (fun v hv => hdom row col v ((mem_sortDomainByLCV N B useLCV board domains row col v).1 hv))
        opened b' o' h

theorem fills_isValid {N B : Nat} (hN : N = B * B) {board S : Board} (hf : Fills N B board S)
    {row col : Nat} (hrow : row < N) (hcol : col < N) (h0 : cellAt board row col = some 0)
    {v : Int} (hv : cellAt S row col = some v) (h1 : 1 ≤ v) (hpf : PeerFree N B S row col v) :
    isValid N B board row col v = true := by
  rw [isValid_iff_related hN board hrow hcol]
  intro r' c' hrel hcon
  by_cases hrc : r' = row ∧ c' = col
  · obtain ⟨rfl, rfl⟩ := hrc
    rw [h0] at hcon
    cases hcon
    omega
  · have hne0 : cellAt board r' c' ≠ some 0 := by
      rw [hcon]; intro h; cases h; omega
    have := hf.1 r' c' hne0
    rw [hcon] at this
    exact hpf r' c' hrel hrc this

theorem fills_setCell {N B : Nat} {board S : Board} (hf : Fills N B board S) {row col : Nat}
    (h0 : cellAt board row col = some 0) {v : Int} (hv : cellAt S row col = some v) :
    Fills N B (setCell board row col v) S := by
  constructor
  · intro r c hne
    by_cases hrc : r = row ∧ c = col
    · obtain ⟨rfl, rfl⟩ := hrc
      rw [cellAt_setCell_same v h0, hv]
    · rw [cellAt_setCell_ne board v hrc] at hne ⊢
      exact hf.1 r c hne
  · intro r c hr hc hz
    by_cases hrc : r = row ∧ c = col
    · obtain ⟨rfl, rfl⟩ := hrc
      rw [cellAt_setCell_same v h0] at hz
      cases hz
      obtain ⟨w, hw, hw1, _⟩ := hf.2 r c hr hc h0
      rw [hv] at hw
      cases hw
      omega
    · rw [cellAt_setCell_ne board v hrc] at hz
      exact hf.2 r c hr hc hz

/-- Forward checking keeps every value that `isValid` still accepts. -/
theorem domSuper_updateDomains {N B : Nat} (hN : N = B * B) {board : Board} {d : Domains}
    (hd : DomSuper N B board d) {row col : Nat} (hrow : row < N) (hcol : col < N)
    (h0 : cellAt board row col = some 0) {v : Int} (hv0 : v ≠ 0) :
    DomSuper N B (setCell board row col v) (updateDomains N B d row col v) := by
  intro r c hr hc hz w hw1 hw2 hval
  have hplaced : cellAt (setCell board row col v) row col = some v := cellAt_setCell_same v h0
  have hrc : ¬ (r = row ∧ c = col) := by
    rintro ⟨rfl, rfl⟩
    rw [hplaced] at hz
    cases hz
    exact hv0 rfl
  rw [cellAt_setCell_ne board v hrc] at hz
  have hrelnew := (isValid_iff_related hN _ hr hc w).1 hval
  have hvalold : isValid N B board r c w = true := by
    rw [isValid_iff_related hN board hr hc]
    intro r' c' hrel hcon
    by_cases hq : r' = row ∧ c' = col
    · obtain ⟨rfl, rfl⟩ := hq
      rw [h0] at hcon
      cases hcon
      omega
    · exact hrelnew r' c' hrel (by rw [cellAt_setCell_ne board v hq]; exact hcon)
  have hmem := hd r c hr hc hz w hw1 hw2 hvalold
  rw [domAt_updateDomains, if_neg hrc]
  split
  · rename_i hpeer
    rw [mem_setDelete]
    refine ⟨hmem, ?_⟩
    rintro rfl
    have hrel : Related N B r c row col := by
      refine ⟨hrow, hcol, ?_⟩
      rcases hpeer with h | h | h
      · exact Or.inl h.1.symm
      · exact Or.inr (Or.inl h.1.symm)
      · exact Or.inr (Or.inr (inBoxOf_symm (pos_of_sq hN hr) h))
    exact hrelnew row col hrel hplaced
  · exact hmem

/-- Completeness of the candidate loop: it does not fail while a filling of the board holds one
of the candidates at the chosen cell. -/
theorem tryCandidates_complete {N B : Nat} (hN : N = B * B)
    {child : Board → Domains → Nat → Option Frame} (board S : Board) (hf : Fills N B board S)
    (row col : Nat) (hrow : row < N) (hcol : col < N) (h0 : cellAt board row col = some 0)
    (v : Int) (hv : cellAt S row col = some v) (hv1 : 1 ≤ v)
    (hval : isValid N B board row col v = true)
    (hrestore : ∀ b d o b' o', child b d o = some (false, b', o') → b' = b)
    (hchild : ∀ b d o b' o', Fills N B b S → DomSuper N B b d →
      child b d o ≠ some (false, b', o'))
    (domains : Domains) (hdom : DomSuper N B board domains) (cands : List Int)
    (hmem : v ∈ cands) (opened : Nat) (b' : Board) (o' : Nat) :
    tryCandidates N B child domains row col cands board opened ≠ some (false, b', o') := by
  induction cands generalizing opened with
  | nil => cases hmem
  | cons num rest ih =>
    intro h
    unfold tryCandidates at h
    split at h
    · simp only at h
      split at h
      · cases h
      · cases h
      · rename_i b1 o1 hch
        by_cases hnv : num = v
        · subst hnv
          exact hchild _ _ _ _ _ (fills_setCell hf h0 hv)
            (domSuper_updateDomains hN hdom hrow hcol h0 (by omega)) hch
        · have hrest : v ∈ rest := by
            rcases List.mem_cons.1 hmem with h' | h'
            · exact absurd h'.symm hnv
            · exact h'
          rw [hrestore _ _ _ _ _ hch, setCell_undo board row col num h0] at h
          exact ih hrest _ h
    · rename_i hnot
      have hnv : num ≠ v := by
        rintro rfl
        exact hnot hval
      have hrest : v ∈ rest := by
        rcases List.mem_cons.1 hmem with h' | h'
        · exact absurd h'.symm hnv
        · exact h'
      exact ih hrest _ h

/-- Completeness of a frame: `backtrack` does not fail on a board that has a filling, when the
sets hold every value that `isValid` accepts. -/
theorem backtrack_complete {N B : Nat} (hN : N = B * B) (useMRV useLCV : Bool) (fuel : Nat)
    (board S : Board) (hf : Fills N B board S) (domains : Domains)
    (hdom : DomSuper N B board domains) (opened : Nat) (b' : Board) (o' : Nat) :
    backtrack N B useMRV useLCV fuel board domains opened ≠ some (false, b', o') := by
  induction fuel generalizing board domains opened b' o' with
  | zero => simp [backtrack]
  | succ fuel ih =>
    intro h
    unfold backtrack at h
    split at h
    · cases h
    · rename_i row col hsel
      obtain ⟨hrow, hcol, h0⟩ := selectCell_some hsel
      obtain ⟨v, hv, hv1, hv2, hpf⟩ := hf.2 row col hrow hcol h0
      have hval := fills_isValid hN hf hrow hcol h0 hv hv1 hpf
      have hmem := hdom row col hrow hcol h0 v hv1 hv2 hval
      exact tryCandidates_complete hN board S hf row col hrow hcol h0 v hv hv1 hval
        (fun b d o b' o' hc => backtrack_false_board N B useMRV useLCV fuel b d o b' o' hc)
        (fun b d o b' o' hfb hdb => ih b hfb d hdb o b' o') domains hdom _
        ((mem_sortDomainByLCV N B useLCV board domains row col v).2 hmem) opened b' o' h

theorem domAt_initializeDomains_mem {N B : Nat} {board : Board} {r c : Nat} {v : Int}
    (h : v ∈ domAt (initializeDomains N B board) r c) :
    r < N ∧ c < N ∧ v ∈ validValues N B board r c := by
  by_cases hr : r < N
  · by_cases hc : c < N
    · rw [domAt_initializeDomains N B board hr hc] at h
      split at h
      · exact ⟨hr, hc, h⟩
      · cases h
    · exfalso
      unfold initializeDomains domAt at h
      simp [List.getElem?_map, List.getElem?_range hr,
        List.getElem?_eq_none (l := List.range N) (n := c) (by simpa using hc)] at h
  · exfalso
    unfold initializeDomains domAt at h
    simp [List.getElem?_map,
      List.getElem?_eq_none (l := List.range N) (n := r) (by simpa using hr)] at h

theorem domRange_initializeDomains (N B : Nat) (board : Board) :
    DomRange N (initializeDomains N B board) := by
  intro r c v hv
  have := (mem_validValues N B board r c v).1 (domAt_initializeDomains_mem hv).2.2
  exact ⟨this.1, this.2.1⟩

theorem domSuper_initializeDomains (N B : Nat) (board : Board) :
    DomSuper N B board (initializeDomains N B board) := by
  intro r c hr hc hz v h1 h2 hval
  rw [domAt_initializeDomains N B board hr hc, if_pos hz]
  exact (mem_validValues N B board r c v).2 ⟨h1, h2, hval⟩

/-! ## Soundness, completeness and heuristic-invariance of the solver -/

theorem noRepeat_ne {N B : Nat} {S : Board} (h : NoRepeat N B S) {r c r' c' : Nat} (hr : r < N)
    (hc : c < N) (hrel : Related N B r c r' c') (hne : ¬ (r' = r ∧ c' = c)) {v : Int}
    (hv : v ≠ 0) (h1 : cellAt S r c = some v) : cellAt S r' c' ≠ some v := by
  intro h2
  apply h r hr c hc r' hrel.1 c' hrel.2.1
  refine ⟨hrel.2.2, hne, by rw [h1, h2], ?_, ?_⟩
  · rw [h1]; intro h; cases h; exact hv rfl
  · rw [h1]; intro h; cases h

theorem peerFree_of_noRepeat {N B : Nat} {S : Board} (h : NoRepeat N B S) {r c : Nat}
    (hr : r < N) (hc : c < N) {v : Int} (hv : v ≠ 0) (h1 : cellAt S r c = some v) :
    PeerFree N B S r c v :=
  fun _ _ hrel hne => noRepeat_ne h hr hc hrel hne hv h1

/-- A filling of a board without repetition has no repetition. -/
theorem noRepeat_of_fills {N B : Nat} (hN : N = B * B) {board S : Board}
    (hnr : NoRepeat N B board) (hf : Fills N B board S) : NoRepeat N B S := by
  intro r hr c hc r' hr' c' hc'
  rintro ⟨hrel, hne, heq, hnz, hnn⟩
  have hR : Related N B r c r' c' := ⟨hr', hc', hrel⟩
  by_cases h0 : cellAt board r c = some 0
  · obtain ⟨v, hv, _, _, hpf⟩ := hf.2 r c hr hc h0
    exact hpf r' c' hR hne (by rw [← heq, hv])
  · by_cases h0' : cellAt board r' c' = some 0
    · obtain ⟨w, hw, _, _, hpf⟩ := hf.2 r' c' hr' hc' h0'
      exact hpf r c (related_symm hN hr hc hR) (fun h => hne ⟨h.1.symm, h.2.symm⟩)
        (by rw [heq, hw])
    · rw [hf.1 r c h0] at heq hnz hnn
      rw [hf.1 r' c' h0'] at heq
      exact hnr r hr c hc r' hr' c' hc' ⟨hrel, hne, heq, hnz, hnn⟩

/-- A list of `N` cells, any two of them in a common row, column or box, on a board without
repetition whose cells are in `[1, N]`, holds each value of `[1, N]` exactly once. -/
theorem eachOnce_of_noRepeat {N B : Nat} {S : Board} (hnr : NoRepeat N B S)
    (hvals : ∀ r c, r < N → c < N → ∃ v : Int, cellAt S r c = some v ∧ 1 ≤ v ∧ v ≤ (N : Int))
    (L : List (Nat × Nat)) (hnd : L.Nodup) (hlen : L.length = N)
    (hin : ∀ p ∈ L, p.1 < N ∧ p.2 < N)
    (hrel : ∀ p ∈ L, ∀ q ∈ L, q.1 = p.1 ∨ q.2 = p.2 ∨ InBoxOf B p.1 p.2 q.1 q.2) :
    EachOnce N S L := by
  have hnodup : (L.map fun p => cellAt S p.1 p.2).Nodup := by
    apply List.Nodup.map_on _ hnd
    intro p hp q hq hpq
    by_contra hne
    obtain ⟨v, hv, hv1, _⟩ := hvals p.1 p.2 (hin p hp).1 (hin p hp).2
    have hq' := hin q hq
    refine noRepeat_ne hnr (hin p hp).1 (hin p hp).2 ⟨hq'.1, hq'.2, hrel p hp q hq⟩ ?_
      (by omega : v ≠ 0) hv (by rw [← hpq, hv])
    rintro ⟨h1, h2⟩
    exact hne (Prod.ext h1.symm h2.symm)
  have htarget : ((List.range' 1 N).map fun (n : Nat) => some (n : Int)).Nodup := by
    apply List.Nodup.map _ (List.nodup_range' 1 N)
    intro a b hab
    exact Int.ofNat.inj (Option.some.inj hab)
  have hsub : (L.map fun p => cellAt S p.1 p.2)
      ⊆ (List.range' 1 N).map fun (n : Nat) => some (n : Int) := by
    intro x hx
    obtain ⟨p, hp, rfl⟩ := List.mem_map.1 hx
    obtain ⟨v, hv, hv1, hv2⟩ := hvals p.1 p.2 (hin p hp).1 (hin p hp).2
    rw [hv, List.mem_map]
    refine ⟨v.toNat, ?_, ?_⟩
    · rw [List.mem_range']
      exact ⟨v.toNat - 1, by omega, by omega⟩
    · congr 1; omega
  have hperm := (hnodup.subperm hsub).perm_of_length_le (by simp [hlen])
  intro v hv1 hv2
  have hcount : L.countP (fun p => decide (cellAt S p.1 p.2 = some v))
      = List.countP (fun x : Option Int => decide (x = some v))
          (L.map fun p => cellAt S p.1 p.2) := by
    rw [List.countP_map]
    rfl
  have hcount2 : List.countP (fun x : Option Int => decide (x = some v))
        (L.map fun p => cellAt S p.1 p.2)
      = @List.count (Option Int) instBEqOfDecidableEq (some v)
          (L.map fun p => cellAt S p.1 p.2) := rfl
  rw [hcount, hcount2, hperm.count_eq]
  apply List.count_eq_one_of_mem htarget
  rw [List.mem_map]
  refine ⟨v.toNat, ?_, ?_⟩
  · rw [List.mem_range']
    exact ⟨v.toNat - 1, by omega, by omega⟩
  · congr 1; omega

theorem boxCells_mem {B br bc : Nat} {p : Nat × Nat} (hp : p ∈ boxCells B br bc) :
    ∃ i, i < B ∧ ∃ j, j < B ∧ p = (br * B + i, bc * B + j) := by
  unfold boxCells at hp
  simp only [List.mem_flatMap, List.mem_map, List.mem_range] at hp
  obtain ⟨i, hi, j, hj, rfl⟩ := hp
  exact ⟨i, hi, j, hj, rfl⟩

theorem boxCells_nodup (B br bc : Nat) : (boxCells B br bc).Nodup := by
  unfold boxCells
  rw [List.nodup_flatMap]
  constructor
  · intro i _
    apply List.Nodup.map _ (List.nodup_range B)
    intro a b hab
    simp only [Prod.mk.injEq, true_and] at hab
    omega
  · refine (List.nodup_range B).imp ?_
    intro a b hab
    rw [Function.onFun, List.disjoint_left]
    intro p hp hq
    simp only [List.mem_map, List.mem_range] at hp hq
    obtain ⟨j, _, rfl⟩ := hp
    obtain ⟨j', _, h⟩ := hq
    simp only [Prod.mk.injEq] at h
    omega

theorem boxCells_length (B br bc : Nat) : (boxCells B br bc).length = B * B := by
  unfold boxCells
  rw [List.length_flatMap]
  simp [Function.comp_def]

theorem div_of_offset {B : Nat} (br i : Nat) (hi : i < B) : (br * B + i) / B = br := by
  have hB : 0 < B := by omega
  rw [Nat.mul_comm, Nat.mul_add_div hB, Nat.div_eq_of_lt hi]
  rfl

/-- A board without repetition whose `N × N` cells are all in `[1, N]` is complete. -/
theorem complete_of_noRepeat {N B : Nat} (hN : N = B * B) {S : Board} (hnr : NoRepeat N B S)
    (hvals : ∀ r c, r < N → c < N → ∃ v : Int, cellAt S r c = some v ∧ 1 ≤ v ∧ v ≤ (N : Int)) :
    Complete N B S := by
  refine ⟨?_, ?_, ?_⟩
  · intro r hr
    apply eachOnce_of_noRepeat hnr hvals
    · apply List.Nodup.map _ (List.nodup_range N)
      intro a b hab
      exact (Prod.mk.inj hab).2
    · simp [rowCells]
    · intro p hp
      simp only [rowCells, List.mem_map, List.mem_range] at hp
      obtain ⟨c, hc, rfl⟩ := hp
      exact ⟨hr, hc⟩
    · intro p hp q hq
      simp only [rowCells, List.mem_map, List.mem_range] at hp hq
      obtain ⟨c, _, rfl⟩ := hp
      obtain ⟨c', _, rfl⟩ := hq
      exact Or.inl rfl
  · intro c hc
    apply eachOnce_of_noRepeat hnr hvals
    · apply List.Nodup.map _ (List.nodup_range N)
      intro a b hab
      exact (Prod.mk.inj hab).1
    · simp [colCells]
    · intro p hp
      simp only [colCells, List.mem_map, List.mem_range] at hp
      obtain ⟨r, hr, rfl⟩ := hp
      exact ⟨hr, hc⟩
    · intro p hp q hq
      simp only [colCells, List.mem_map, List.mem_range] at hp hq
      obtain ⟨r, _, rfl⟩ := hp
      obtain ⟨r', _, rfl⟩ := hq
      exact Or.inr (Or.inl rfl)
  · intro br bc hbr hbc
    have hB : 0 < B := by omega
    apply eachOnce_of_noRepeat hnr hvals
    · exact boxCells_nodup B br bc
    · rw [boxCells_length, hN]
    · intro p hp
      obtain ⟨i, hi, j, hj, rfl⟩ := boxCells_mem hp
      subst hN
      constructor
      · calc br * B + i < br * B + B := by omega
          _ = (br + 1) * B := by ring
          _ ≤ B * B := Nat.mul_le_mul_right B hbr
      · calc bc * B + j < bc * B + B := by omega
          _ = (bc + 1) * B := by ring
          _ ≤ B * B := Nat.mul_le_mul_right B hbc
    · intro p hp q hq
      obtain ⟨i, hi, j, hj, rfl⟩ := boxCells_mem hp
      obtain ⟨i', hi', j', hj', rfl⟩ := boxCells_mem hq
      refine Or.inr (Or.inr ((inBoxOf_iff_div hB _ _ _ _).2 ?_))
      simp only [div_of_offset br i hi, div_of_offset br i' hi', div_of_offset bc j hj,
        div_of_offset bc j' hj', and_self]

theorem tryCandidates_square {N B : Nat} {child : Board → Domains → Nat → Option Frame}
    (hchild : ∀ b d o r, Square N b → child b d o = some r → Square N r.2.1)
    (domains : Domains) (row col : Nat) (cands : List Int) (board : Board)
    (hsq : Square N board) (opened : Nat) (r : Frame)
    (h : tryCandidates N B child domains row col cands board opened = some r) :
    Square N r.2.1 := by
  induction cands generalizing board opened with
  | nil =>
    simp only [tryCandidates, Option.some.injEq] at h
    rw [← h]; exact hsq
  | cons num rest ih =>
    unfold tryCandidates at h
    split at h
    · simp only at h
      split at h
      · cases h
      · rename_i b1 o1 hch
        cases h
        exact hchild _ _ _ _ (setCell_square hsq row col num) hch
      · rename_i b1 o1 hch
        exact ih _ (setCell_square (hchild _ _ _ _ (setCell_square hsq row col num) hch)
          row col 0) _ h
    · exact ih _ hsq _ h

/-- The search keeps the shape of the board. -/
theorem backtrack_square (N B : Nat) (useMRV useLCV : Bool) (fuel : Nat) (board : Board)
    (domains : Domains) (opened : Nat) (r : Frame) (hsq : Square N board)
    (h : backtrack N B useMRV useLCV fuel board domains opened = some r) : Square N r.2.1 := by
  induction fuel generalizing board domains opened r with
  | zero => simp [backtrack] at h
  | succ fuel ih =>
    unfold backtrack at h
    split at h
    · cases h; exact hsq
    · exact tryCandidates_square (fun b d o r hb hc => ih b d o r hb hc) _ _ _ _ board hsq _ r h

theorem fills_of_completion {N B : Nat} {board S : Board} (hsq : Square N board)
    (hS : IsCompletion N B board S) : Fills N B board S := by
  obtain ⟨hSsq, hagree, hvals, hnr⟩ := hS
  constructor
  · intro r c hne
    cases hb : cellAt board r c with
    | none =>
      cases hs : cellAt S r c with
      | none => rfl
      | some w =>
        obtain ⟨hr, hc⟩ := cellAt_lt_of_some hSsq hs
        obtain ⟨u, hu⟩ := cellAt_isSome_of_square hsq hr hc
        rw [hb] at hu; cases hu
    | some v =>
      exact hagree r c v hb (fun h => hne (by rw [hb, h]))
  · intro r c hr hc h0
    obtain ⟨v, hv, h1, h2⟩ := hvals r c hr hc h0
    exact ⟨v, hv, h1, h2, peerFree_of_noRepeat hnr hr hc (by omega) hv⟩

/-- C1.  Soundness of the solver.  On an `N × N` board with `N = B²`, cells in `[0, N]` and no
non-zero value repeated in a row, column or box, for every combination of `useMRV`/`useLCV`: if
the search started on `initializeDomains board` returns true, then `solveSudokuCSP` reports
`Solved` with the final board, which is `N × N`, has no `0` cell, agrees with the input on every
cell that was non-zero, and holds each value of `[1, N]` exactly once in every row, every column
and every box. -/
theorem solve_sound (N B : Nat) (useMRV useLCV : Bool) (board : Board) (hsq : Square N board)
    (hN : N = B * B) (hcells : CellsInRange N board) (hcons : NoRepeat N B board) (fuel : Nat)
    (b' : Board) (o' : Nat)
    (h : backtrack N B useMRV useLCV fuel board (initializeDomains N B board) 0
      = some (true, b', o')) :
    solveSudokuCSP fuel board useMRV useLCV = some (Outcome.Solved b' o') ∧
    Square N b' ∧
    (∀ r c, r < N → c < N → cellAt b' r c ≠ some 0) ∧
    (∀ r c v, cellAt board r c = some v → v ≠ 0 → cellAt b' r c = some v) ∧
    Complete N B b' := by
  have hf := backtrack_sound hN useMRV useLCV fuel board _
    (domRange_initializeDomains N B board) 0 b' o' h
  refine ⟨?_, backtrack_square N B useMRV useLCV fuel board _ 0 _ hsq h,
    fun r c hr hc => fills_no_zero hf hr hc, ?_, ?_⟩
  · rw [solve_eq hsq hN hcells, h]
  · intro r c v hv hv0
    rw [hf.1 r c (by rw [hv]; intro hcon; cases hcon; exact hv0 rfl)]
    exact hv
  · apply complete_of_noRepeat hN (noRepeat_of_fills hN hcons hf)
    intro r c hr hc
    by_cases h0 : cellAt board r c = some 0
    · obtain ⟨v, hv, h1, h2, _⟩ := hf.2 r c hr hc h0
      exact ⟨v, hv, h1, h2⟩
    · obtain ⟨u, hu⟩ := cellAt_isSome_of_square hsq hr hc
      obtain ⟨row, hrow, hmem⟩ := cellAt_mem hu
      have hrange := hcells row hrow u hmem
      have hu0 : u ≠ 0 := by
        rintro rfl; exact h0 hu
      refine ⟨u, by rw [hf.1 r c h0]; exact hu, by omega, hrange.2⟩

/-- Witness of `solve_sound`: the search with MRV and LCV on `cornerBoard` returns true with
`cornerSolved`, which is therefore complete. -/
theorem solve_sound_witness :
    NoRepeat 4 2 cornerBoard ∧
    backtrack 4 2 true true 15 cornerBoard (initializeDomains 4 2 cornerBoard) 0
      = some (true, cornerSolved, 14) ∧
    Complete 4 2 cornerSolved :=
  ⟨by decide, by decide,
    (solve_sound 4 2 true true cornerBoard (by decide) (by decide) (by decide) (by decide) 15
      cornerSolved 14 (by decide)).2.2.2.2⟩

/-- C2.  Completeness of the solver.  On an `N × N` board with `N = B²` and cells in `[0, N]`,
for every combination of `useMRV`/`useLCV`: if the search started on `initializeDomains board`
returns false, then `solveSudokuCSP` reports `NoSolution` and no assignment of values of
`[1, N]` to the empty cells of the board leaves every row, column and box free of repeated
values. -/
theorem solve_complete (N B : Nat) (useMRV useLCV : Bool) (board : Board)
    (hsq : Square N board) (hN : N = B * B) (hcells : CellsInRange N board) (fuel : Nat)
    (b' : Board) (o' : Nat)
    (h : backtrack N B useMRV useLCV fuel board (initializeDomains N B board) 0
      = some (false, b', o')) :
    solveSudokuCSP fuel board useMRV useLCV = some (Outcome.NoSolution b' o') ∧
    ¬ ∃ S, IsCompletion N B board S := by
  constructor
  · rw [solve_eq hsq hN hcells, h]
  · rintro ⟨S, hS⟩
    exact backtrack_complete hN useMRV useLCV fuel board S (fills_of_completion hsq hS) _
      (domSuper_initializeDomains N B board) 0 b' o' h

/-- Witness of `solve_complete`: the search fails on `deadEndBoard`, which has no
completion. -/
theorem solve_complete_witness :
    backtrack 4 2 false false 17 deadEndBoard (initializeDomains 4 2 deadEndBoard) 0
      = some (false, deadEndBoard, 1) ∧
    ¬ ∃ S, IsCompletion 4 2 deadEndBoard S :=
  ⟨by decide,
    (solve_complete 4 2 false false deadEndBoard (by decide) (by decide) (by decide) 17
      deadEndBoard 1 (by decide)).2⟩

/-- C5.  Heuristic-invariance of the outcome.  On an `N × N` board with `N = B²` and cells in
`[0, N]`, with any fuel above the number of empty cells, the four runs of `solveSudokuCSP` with
`(useMRV, useLCV)` in `{false, true}²` agree: all four report `Solved`, or all four report
`NoSolution`. -/
theorem heuristic_invariance (N B : Nat) (board : Board) (hsq : Square N board)
    (hN : N = B * B) (hcells : CellsInRange N board) (fuel : Nat)
    (hfuel : countZeros N board < fuel) :
    (∀ useMRV useLCV : Bool, ∃ b' o',
      solveSudokuCSP fuel board useMRV useLCV = some (Outcome.Solved b' o')) ∨
    (∀ useMRV useLCV : Bool, ∃ b' o',
      solveSudokuCSP fuel board useMRV useLCV = some (Outcome.NoSolution b' o')) := by
  have hres : ∀ m l : Bool, ∃ flag b o,
      backtrack N B m l fuel board (initializeDomains N B board) 0 = some (flag, b, o) := by
    intro m l
    have hs := backtrack_isSome N B m l fuel board (initializeDomains N B board) 0 hfuel
    rcases hbt : backtrack N B m l fuel board (initializeDomains N B board) 0
      with _ | ⟨flag, b, o⟩
    · rw [hbt] at hs; cases hs
    · exact ⟨flag, b, o, rfl⟩
  by_cases hex : ∃ (m l : Bool) (b : Board) (o : Nat),
      backtrack N B m l fuel board (initializeDomains N B board) 0 = some (true, b, o)
  · left
    obtain ⟨m, l, b, o, hb⟩ := hex
    have hf := backtrack_sound hN m l fuel board _ (domRange_initializeDomains N B board) 0 b o hb
    intro m' l'
    obtain ⟨flag, b2, o2, h2⟩ := hres m' l'
    cases flag with
    | false =>
      exact absurd h2 (backtrack_complete hN m' l' fuel board b hf _
        (domSuper_initializeDomains N B board) 0 b2 o2)
    | true => exact ⟨b2, o2, by rw [solve_eq hsq hN hcells, h2]⟩
  · right
    intro m l
    obtain ⟨flag, b2, o2, h2⟩ := hres m l
    cases flag with
    | false => exact ⟨b2, o2, by rw [solve_eq hsq hN hcells, h2]⟩
    | true => exact absurd ⟨m, l, b2, o2, h2⟩ hex

/-- Witness of `heuristic_invariance` on `deadEndBoard` with fuel 17. -/
theorem heuristic_invariance_witness :
    countZeros 4 deadEndBoard < 17 ∧
    ((∀ useMRV useLCV : Bool, ∃ b' o',
      solveSudokuCSP 17 deadEndBoard useMRV useLCV = some (Outcome.Solved b' o')) ∨
    (∀ useMRV useLCV : Bool, ∃ b' o',
      solveSudokuCSP 17 deadEndBoard useMRV useLCV = some (Outcome.NoSolution b' o'))) :=
  ⟨by decide,
    heuristic_invariance 4 2 deadEndBoard (by decide) (by decide) (by decide) 17 (by decide)⟩

/-! ## Value ordering -/

/-- Inserting into a list keeps, for every score, the values of that score in their order, the
inserted value coming first among those of its own score. -/
theorem filter_orderedInsert (f : Int → Nat) (s : Nat) (a : Int) (l : List Int) :
    (List.orderedInsert (fun x y => f x ≤ f y) a l).filter (fun x => decide (f x = s))
      = if f a = s then a :: l.filter (fun x => decide (f x = s))
        else l.filter (fun x => decide (f x = s)) := by
  induction l with
  | nil =>
    by_cases ha : f a = s <;> simp [List.orderedInsert, ha]
  | cons b t ih =>
    rw [List.orderedInsert]
    by_cases hab : f a ≤ f b
    · rw [if_pos hab]
      by_cases ha : f a = s <;> simp [List.filter_cons, ha]
    · rw [if_neg hab, List.filter_cons, ih]
      by_cases ha : f a = s
      · have hb : ¬ f b = s := by omega
        simp [ha, hb, List.filter_cons]
      · by_cases hb : f b = s <;> simp [ha, hb, List.filter_cons]

/-- Insertion sort by a score is stable: for every score, the values of that score come out in
the order in which they went in. -/
theorem filter_insertionSort (f : Int → Nat) (s : Nat) (l : List Int) :
    (List.insertionSort (fun x y => f x ≤ f y) l).filter (fun x => decide (f x = s))
      = l.filter (fun x => decide (f x = s)) := by
  induction l with
  | nil => rfl
  | cons a t ih =>
    rw [List.insertionSort, filter_orderedInsert, ih, List.filter_cons]
    by_cases ha : f a = s <;> simp [ha]

theorem sorted_insertionSort_score (f : Int → Nat) (l : List Int) :
    (List.insertionSort (fun x y => f x ≤ f y) l).Sorted (fun x y => f x ≤ f y) := by
  haveI : IsTotal Int (fun x y => f x ≤ f y) := ⟨fun x y => Nat.le_total (f x) (f y)⟩
  haveI : IsTrans Int (fun x y => f x ≤ f y) := ⟨fun _ _ _ h1 h2 => Nat.le_trans h1 h2⟩
  exact List.sorted_insertionSort _ l

/-- C11.  With `useLCV = true`, on an `N × N` board and domain grid and a cell `(row, col)` of the
grid whose set has no repeated element (it is a `Set`), `sortDomainByLCV` returns a rearrangement
of the set: every value of the set exactly once and nothing else.  The sequence is ordered by
non-decreasing constraint score `lcvCount`, and for every score the values of that score appear
in the same order as in the set's iteration order. -/
theorem sortDomainByLCV_spec (N B : Nat) (board : Board) (domains : Domains) (row col : Nat)
    (hb : Square N board) (hd : Square N domains) (hrow : row < N) (hcol : col < N)
    (hset : (domAt domains row col).Nodup) :
    (sortDomainByLCV N B true board domains row col).Perm (domAt domains row col) ∧
    (sortDomainByLCV N B true board domains row col).Nodup ∧
    (∀ v, (sortDomainByLCV N B true board domains row col).count v
      = if v ∈ domAt domains row col then 1 else 0) ∧
    (sortDomainByLCV N B true board domains row col).Sorted
      (fun a b => lcvCount N B board domains row col a ≤ lcvCount N B board domains row col b) ∧
    (∀ s : Nat,
      (sortDomainByLCV N B true board domains row col).filter
          (fun v => decide (lcvCount N B board domains row col v = s))
        = (domAt domains row col).filter
          (fun v => decide (lcvCount N B board domains row col v = s))) := by
  have hperm : (sortDomainByLCV N B true board domains row col).Perm (domAt domains row col) := by
    simp only [sortDomainByLCV, Bool.not_true, Bool.false_eq_true, if_false]
    exact List.perm_insertionSort _ _
  refine ⟨hperm, hperm.nodup_iff.2 hset, ?_, ?_, ?_⟩
  · intro v
    rw [hperm.count_eq]
    by_cases hv : v ∈ domAt domains row col
    · rw [if_pos hv]; exact List.count_eq_one_of_mem hset hv
    · rw [if_neg hv]; exact List.count_eq_zero_of_not_mem hv
  · simp only [sortDomainByLCV, Bool.not_true, Bool.false_eq_true, if_false]
    exact sorted_insertionSort_score _ _
  · intro s
    simp only [sortDomainByLCV, Bool.not_true, Bool.false_eq_true, if_false]
    exact filter_insertionSort _ s _

/-- Witness of `sortDomainByLCV_spec`: at cell `(0, 0)` of `lcvBoard` the set `[2, 3]` is
returned as `[3, 2]`. -/
theorem sortDomainByLCV_spec_witness :
    domAt (initializeDomains 4 2 lcvBoard) 0 0 = [2, 3] ∧
    sortDomainByLCV 4 2 true lcvBoard (initializeDomains 4 2 lcvBoard) 0 0 = [3, 2] ∧
    (sortDomainByLCV 4 2 true lcvBoard (initializeDomains 4 2 lcvBoard) 0 0).Perm
      (domAt (initializeDomains 4 2 lcvBoard) 0 0) :=
  ⟨by decide, by decide,
    (sortDomainByLCV_spec 4 2 lcvBoard (initializeDomains 4 2 lcvBoard) 0 0 (by decide)
      (by decide) (by decide) (by decide) (by decide)).1⟩

/-! ## The LCV score -/

theorem foldl_count_two (p q : Nat → Bool) (l : List Nat) (c0 : Nat) :
    l.foldl (fun count x =>
        let count := if p x then count + 1 else count
        if q x then count + 1 else count) c0
      = c0 + l.countP p + l.countP q := by
  induction l generalizing c0 with
  | nil => simp
  | cons x t ih =>
    rw [List.foldl_cons, ih, List.countP_cons, List.countP_cons]
    by_cases hp : p x = true <;> by_cases hq : q x = true <;> simp [hp, hq] <;> omega

theorem foldl_count (p : Nat × Nat → Bool) (l : List (Nat × Nat)) (c0 : Nat) :
    l.foldl (fun count x => if p x then count + 1 else count) c0 = c0 + l.countP p := by
  induction l generalizing c0 with
  | nil => simp
  | cons x t ih =>
    rw [List.foldl_cons, ih, List.countP_cons]
    by_cases hp : p x = true
    · rw [if_pos hp, if_pos hp]; omega
    · rw [if_neg hp, if_neg hp]; omega

/-- The count of `sortDomainByLCV` is the sum of three scans: the row, the column and the box,
each counting the empty cells whose set has `num`. -/
theorem lcvCount_eq_scans (N B : Nat) (board : Board) (domains : Domains) (row col : Nat)
    (num : Int) :
    lcvCount N B board domains row col num
      = (rowCells N row).countP (emptyWith board domains num)
        + (colCells N col).countP (emptyWith board domains num)
        + (boxCells B (row / B) (col / B)).countP (emptyWith board domains num) := by
  unfold lcvCount
  simp only
  rw [foldl_count_two (fun x => cellAt board row x == some 0 && (domAt domains row x).contains num)
    (fun x => cellAt board x col == some 0 && (domAt domains x col).contains num)]
  rw [foldl_nested (fun count (p : Nat × Nat) =>
    if (cellAt board (row / B * B + p.1) (col / B * B + p.2) == some 0
        && (domAt domains (row / B * B + p.1) (col / B * B + p.2)).contains num) = true
    then count + 1 else count)]
  rw [foldl_count (fun p => cellAt board (row / B * B + p.1) (col / B * B + p.2) == some 0
        && (domAt domains (row / B * B + p.1) (col / B * B + p.2)).contains num)]
  have hbox : boxCells B (row / B) (col / B)
      = ((List.range B).flatMap fun i => (List.range B).map fun j => (i, j)).map
          (fun p => (row / B * B + p.1, col / B * B + p.2)) := by
    unfold boxCells
    rw [List.map_flatMap]
    simp [List.map_map, Function.comp_def]
  rw [hbox, rowCells, colCells, List.countP_map, List.countP_map, List.countP_map]
  simp only [Nat.zero_add]
  rfl

theorem rowCells_nodup (N row : Nat) : (rowCells N row).Nodup := by
  apply List.Nodup.map _ (List.nodup_range N)
  intro a b hab
  exact (Prod.mk.inj hab).2

theorem colCells_nodup (N col : Nat) : (colCells N col).Nodup := by
  apply List.Nodup.map _ (List.nodup_range N)
  intro a b hab
  exact (Prod.mk.inj hab).1

/-- A count over a duplicate-free list of cells of the grid is the count over the whole grid of
the cells that are in the list. -/
theorem countP_eq_cells {N : Nat} (L : List (Nat × Nat)) (hnd : L.Nodup) (S : Nat × Nat → Bool)
    (hmem : ∀ p, p ∈ L ↔ (p.1 < N ∧ p.2 < N) ∧ S p = true) (g : Nat × Nat → Bool) :
    L.countP g = (cells N).countP (fun p => S p && g p) := by
  have hperm : L.Perm ((cells N).filter S) := by
    rw [List.perm_ext_iff_of_nodup hnd ((nodup_cells N).filter _)]
    intro p
    rw [hmem, List.mem_filter, mem_cells]
  rw [hperm.countP_eq, List.countP_filter]
  congr 1
  funext p
  exact Bool.and_comm _ _

theorem countP_rowCells {N : Nat} {row : Nat} (hrow : row < N) (g : Nat × Nat → Bool) :
    (rowCells N row).countP g = (cells N).countP (fun p => p.1 == row && g p) := by
  apply countP_eq_cells _ (rowCells_nodup N row) (fun p => p.1 == row)
  intro p
  simp only [rowCells, List.mem_map, List.mem_range, beq_iff_eq]
  constructor
  · rintro ⟨c, hc, rfl⟩
    exact ⟨⟨hrow, hc⟩, rfl⟩
  · rintro ⟨⟨_, hc⟩, h⟩
    exact ⟨p.2, hc, Prod.ext h.symm rfl⟩

theorem countP_colCells {N : Nat} {col : Nat} (hcol : col < N) (g : Nat × Nat → Bool) :
    (colCells N col).countP g = (cells N).countP (fun p => p.2 == col && g p) := by
  apply countP_eq_cells _ (colCells_nodup N col) (fun p => p.2 == col)
  intro p
  simp only [colCells, List.mem_map, List.mem_range, beq_iff_eq]
  constructor
  · rintro ⟨r, hr, rfl⟩
    exact ⟨⟨hr, hcol⟩, rfl⟩
  · rintro ⟨⟨hr, _⟩, h⟩
    exact ⟨p.1, hr, Prod.ext rfl h.symm⟩

theorem countP_boxCells {N B : Nat} (hN : N = B * B) {row col : Nat} (hrow : row < N)
    (hcol : col < N) (g : Nat × Nat → Bool) :
    (boxCells B (row / B) (col / B)).countP g
      = (cells N).countP (fun p => decide (InBoxOf B row col p.1 p.2) && g p) := by
  apply countP_eq_cells _ (boxCells_nodup B _ _) (fun p => decide (InBoxOf B row col p.1 p.2))
  intro p
  simp only [decide_eq_true_eq]
  constructor
  · intro hp
    obtain ⟨i, hi, j, hj, rfl⟩ := boxCells_mem hp
    have hbox : InBoxOf B row col (row / B * B + i) (col / B * B + j) :=
      (inBoxOf_iff_offsets B row col _ _).2 ⟨i, hi, j, hj, rfl, rfl⟩
    exact ⟨inBoxOf_lt hN hrow hcol hbox, hbox⟩
  · rintro ⟨_, hbox⟩
    obtain ⟨i, hi, j, hj, h1, h2⟩ := (inBoxOf_iff_offsets B row col _ _).1 hbox
    unfold boxCells
    simp only [List.mem_flatMap, List.mem_map, List.mem_range]
    exact ⟨i, hi, j, hj, Prod.ext h1.symm h2.symm⟩

/-- Three counts against two counts and a threefold count, compared cell by cell. -/
theorem countP_three (p1 p2 p3 q1 q2 q3 : Nat × Nat → Bool) (L : List (Nat × Nat))
    (h : ∀ x ∈ L, (if p1 x then 1 else 0) + (if p2 x then 1 else 0) + (if p3 x then 1 else 0)
      = (if q1 x then 1 else 0) + (if q2 x then 1 else 0) + 3 * (if q3 x then 1 else 0)) :
    L.countP p1 + L.countP p2 + L.countP p3
      = L.countP q1 + L.countP q2 + 3 * L.countP q3 := by
  induction L with
  | nil => rfl
  | cons x t ih =>
    have hx := h x (List.mem_cons_self _ _)
    have ht := ih (fun y hy => h y (List.mem_cons_of_mem _ hy))
    simp only [List.countP_cons]
    omega

theorem countP_self {N : Nat} {row col : Nat} (hrow : row < N) (hcol : col < N) :
    (cells N).countP (fun p => p.1 == row && p.2 == col) = 1 := by
  have h1 : (cells N).countP (fun p => p.1 == row && p.2 == col)
      = (cells N).countP (fun p => decide (p = (row, col))) := by
    congr 1
    funext p
    rcases p with ⟨a, b⟩
    by_cases ha : a = row <;> by_cases hb : b = col <;> simp [ha, hb]
  have h2 : (cells N).countP (fun p => decide (p = (row, col)))
      = @List.count (Nat × Nat) instBEqOfDecidableEq (row, col) (cells N) := rfl
  rw [h1, h2]
  exact List.count_eq_one_of_mem (nodup_cells N) ((mem_cells N (row, col)).2 ⟨hrow, hcol⟩)

/-- The count of `sortDomainByLCV` against the score of the specification, when the cell is
empty and its set has `v`: the cell itself is counted by each of the three scans, and a cell of
the box that lies on the row or the column is counted by two scans. -/
theorem lcvCount_eq_peers {N B : Nat} (hN : N = B * B) (board : Board) (domains : Domains)
    {row col : Nat} (hrow : row < N) (hcol : col < N) {v : Int}
    (h0 : cellAt board row col = some 0) (hv : v ∈ domAt domains row col) :
    lcvCount N B board domains row col v
      = otherPeerCount N B board domains row col v + boxLineCount N B board domains row col v
        + 3 := by
  have hself : emptyWith board domains v (row, col) = true := by
    simp [emptyWith, h0, hv]
  have hselfCount : (cells N).countP
      (fun p => (p.1 == row && p.2 == col) && emptyWith board domains v p) = 1 := by
    rw [← countP_self hrow hcol]
    apply List.countP_congr
    intro p _
    rcases p with ⟨a, b⟩
    by_cases ha : a = row
    · by_cases hb : b = col
      · subst ha; subst hb; simp [hself]
      · simp [ha, hb]
    · simp [ha]
  rw [lcvCount_eq_scans, countP_rowCells hrow, countP_colCells hcol,
    countP_boxCells hN hrow hcol]
  rw [countP_three _ _ _
    (fun p => !(p.1 == row && p.2 == col)
      && (p.1 == row || p.2 == col || decide (InBoxOf B row col p.1 p.2))
      && emptyWith board domains v p)
    (fun p => !(p.1 == row && p.2 == col)
      && (p.1 == row || p.2 == col) && decide (InBoxOf B row col p.1 p.2)
      && emptyWith board domains v p)
    (fun p => (p.1 == row && p.2 == col) && emptyWith board domains v p)]
  · rw [hselfCount]
    rfl
  · intro p _
    rcases p with ⟨a, b⟩
    have hbox : a = row → b = col → InBoxOf B row col a b := by
      rintro rfl rfl
      exact inBoxOf_self (pos_of_sq hN hrow) a b
    by_cases ha : a = row
    · by_cases hb : b = col
      · subst ha; subst hb
        have hx := hbox rfl rfl
        cases he : emptyWith board domains v (a, b) <;> simp [hx, he]
      · by_cases hx : InBoxOf B row col a b <;>
          cases he : emptyWith board domains v (a, b) <;> simp [ha, hb, hx, he]
    · by_cases hb : b = col <;> by_cases hx : InBoxOf B row col a b <;>
        cases he : emptyWith board domains v (a, b) <;> simp [ha, hb, hx, he]

/-- C12, as the code has it.  On an `N × N` board and domain grid with `N = B²`, for an empty
cell `(row, col)` and a candidate `v` of its set, the constraint score that `sortDomainByLCV`
computes is the number of other empty cells of the row, the column or the box whose set has `v`,
plus the number of those that lie in the box and also on the row or the column (two scans visit
them), plus 3 (each of the three scans visits `(row, col)` itself). -/
theorem lcvCount_spec (N B : Nat) (board : Board) (domains : Domains) (row col : Nat) (v : Int)
    (hb : Square N board) (hd : Square N domains) (hN : N = B * B) (hrow : row < N)
    (hcol : col < N) (h0 : cellAt board row col = some 0) (hv : v ∈ domAt domains row col) :
    lcvCount N B board domains row col v
      = otherPeerCount N B board domains row col v + boxLineCount N B board domains row col v
        + 3 :=
  lcvCount_eq_peers hN board domains hrow hcol h0 hv

/-- Witness of `lcvCount_spec` on the empty 4 × 4 board: the count of `1` at `(0, 0)` is
`7 + 2 + 3`. -/
theorem lcvCount_spec_witness :
    otherPeerCount 4 2 emptyBoard4 (initializeDomains 4 2 emptyBoard4) 0 0 1 = 7 ∧
    boxLineCount 4 2 emptyBoard4 (initializeDomains 4 2 emptyBoard4) 0 0 1 = 2 ∧
    lcvCount 4 2 emptyBoard4 (initializeDomains 4 2 emptyBoard4) 0 0 1
      = otherPeerCount 4 2 emptyBoard4 (initializeDomains 4 2 emptyBoard4) 0 0 1
        + boxLineCount 4 2 emptyBoard4 (initializeDomains 4 2 emptyBoard4) 0 0 1 + 3 :=
  ⟨by decide, by decide,
    lcvCount_spec 4 2 emptyBoard4 (initializeDomains 4 2 emptyBoard4) 0 0 1 (by decide)
      (by decide) (by decide) (by decide) (by decide) (by decide) (by decide)⟩

/-- C12 as stated fails: on the empty 4 × 4 board, `(0, 0)` is empty and `1` is in its set;
seven other empty cells of its row, column and box have `1` in their sets, but the count of
`sortDomainByLCV` is 12. -/
theorem lcvCount_counterexample :
    cellAt emptyBoard4 0 0 = some 0 ∧
    (1 : Int) ∈ domAt (initializeDomains 4 2 emptyBoard4) 0 0 ∧
    otherPeerCount 4 2 emptyBoard4 (initializeDomains 4 2 emptyBoard4) 0 0 1 = 7 ∧
    lcvCount 4 2 emptyBoard4 (initializeDomains 4 2 emptyBoard4) 0 0 1 = 12 ∧
    lcvCount 4 2 emptyBoard4 (initializeDomains 4 2 emptyBoard4) 0 0 1
      ≠ otherPeerCount 4 2 emptyBoard4 (initializeDomains 4 2 emptyBoard4) 0 0 1 := by
  decide

theorem orderedInsert_congr (r1 r2 : Int → Int → Prop) [DecidableRel r1] [DecidableRel r2]
    (a : Int) (l : List Int) (h : ∀ b ∈ l, r1 a b ↔ r2 a b) :
    List.orderedInsert r1 a l = List.orderedInsert r2 a l := by
  induction l with
  | nil => rfl
  | cons b t ih =>
    have hb := h b (List.mem_cons_self _ _)
    have ht := ih (fun c hc => h c (List.mem_cons_of_mem _ hc))
    rw [List.orderedInsert, List.orderedInsert]
    by_cases hab : r1 a b
    · rw [if_pos hab, if_pos (hb.1 hab)]
    · rw [if_neg hab, if_neg (fun h2 => hab (hb.2 h2)), ht]

/-- Insertion sort only looks at how the relation compares the elements of the list. -/
theorem insertionSort_congr (r1 r2 : Int → Int → Prop) [DecidableRel r1] [DecidableRel r2]
    (l : List Int) (h : ∀ a ∈ l, ∀ b ∈ l, r1 a b ↔ r2 a b) :
    List.insertionSort r1 l = List.insertionSort r2 l := by
  induction l with
  | nil => rfl
  | cons a t ih =>
    have ht := ih (fun x hx y hy => h x (List.mem_cons_of_mem _ hx) y (List.mem_cons_of_mem _ hy))
    rw [List.insertionSort, List.insertionSort, ht]
    apply orderedInsert_congr
    intro b hb
    exact h a (List.mem_cons_self _ _) b
      (List.mem_cons_of_mem _ ((List.mem_insertionSort r2).1 hb))

/-- C18, as the code has it.  On an `N × N` board and domain grid with `N = B²` and an empty cell
`(row, col)`, the sequence returned by `sortDomainByLCV` with `useLCV = true` is the stable sort
of the set by the deduplicated score plus the number of other empty cells that lie in the box and
also on the row or the column and whose set has the candidate.  The threefold count of
`(row, col)` itself changes nothing; the double count does, unless it is the same for all
candidates, in which case the sequence is the stable sort by the deduplicated score. -/
theorem sortDomainByLCV_dedup (N B : Nat) (board : Board) (domains : Domains) (row col : Nat)
    (hb : Square N board) (hd : Square N domains) (hN : N = B * B) (hrow : row < N)
    (hcol : col < N) (h0 : cellAt board row col = some 0) :
    sortDomainByLCV N B true board domains row col
      = List.insertionSort
          (fun a b =>
            otherPeerCount N B board domains row col a + boxLineCount N B board domains row col a
              ≤ otherPeerCount N B board domains row col b
                + boxLineCount N B board domains row col b)
          (domAt domains row col) ∧
    ((∀ a ∈ domAt domains row col, ∀ b ∈ domAt domains row col,
        boxLineCount N B board domains row col a = boxLineCount N B board domains row col b) →
      sortDomainByLCV N B true board domains row col
        = sortByPeerCount N B board domains row col) := by
  have hsort : sortDomainByLCV N B true board domains row col
      = List.insertionSort
          (fun a b => lcvCount N B board domains row col a
            ≤ lcvCount N B board domains row col b)
          (domAt domains row col) := by
    simp only [sortDomainByLCV, Bool.not_true, Bool.false_eq_true, if_false]
  constructor
  · rw [hsort]
    apply insertionSort_congr
    intro a ha b hb'
    rw [lcvCount_eq_peers hN board domains hrow hcol h0 ha,
      lcvCount_eq_peers hN board domains hrow hcol h0 hb']
    omega
  · intro hsame
    rw [hsort, sortByPeerCount]
    apply insertionSort_congr
    intro a ha b hb'
    rw [lcvCount_eq_peers hN board domains hrow hcol h0 ha,
      lcvCount_eq_peers hN board domains hrow hcol h0 hb', hsame a ha b hb']
    omega

/-- Witness of `sortDomainByLCV_dedup` at cell `(0, 0)` of `lcvBoard`. -/
theorem sortDomainByLCV_dedup_witness :
    cellAt lcvBoard 0 0 = some 0 ∧
    sortDomainByLCV 4 2 true lcvBoard (initializeDomains 4 2 lcvBoard) 0 0
      = List.insertionSort
          (fun a b =>
            otherPeerCount 4 2 lcvBoard (initializeDomains 4 2 lcvBoard) 0 0 a
                + boxLineCount 4 2 lcvBoard (initializeDomains 4 2 lcvBoard) 0 0 a
              ≤ otherPeerCount 4 2 lcvBoard (initializeDomains 4 2 lcvBoard) 0 0 b
                + boxLineCount 4 2 lcvBoard (initializeDomains 4 2 lcvBoard) 0 0 b)
          (domAt (initializeDomains 4 2 lcvBoard) 0 0) :=
  ⟨by decide,
    (sortDomainByLCV_dedup 4 2 lcvBoard (initializeDomains 4 2 lcvBoard) 0 0 (by decide)
      (by decide) (by decide) (by decide) (by decide) (by decide)).1⟩

/-- C18 as stated fails: at the empty cell `(0, 0)` of `lcvBoard`, with the domains of
`initializeDomains`, the candidates `2` and `3` both have deduplicated score 2, so the stable
sort by that score keeps `[2, 3]`; `sortDomainByLCV` counts 6 for `2` and 5 for `3` and returns
`[3, 2]`. -/
theorem sortDomainByLCV_dedup_counterexample :
    Square 4 lcvBoard ∧ cellAt lcvBoard 0 0 = some 0 ∧
    sortByPeerCount 4 2 lcvBoard (initializeDomains 4 2 lcvBoard) 0 0 = [2, 3] ∧
    sortDomainByLCV 4 2 true lcvBoard (initializeDomains 4 2 lcvBoard) 0 0 = [3, 2] ∧
    sortDomainByLCV 4 2 true lcvBoard (initializeDomains 4 2 lcvBoard) 0 0
      ≠ sortByPeerCount 4 2 lcvBoard (initializeDomains 4 2 lcvBoard) 0 0 := by
  decide

/-! ## Exactness of the domains in the search -/

theorem domExact_initializeDomains (N B : Nat) (board : Board) :
    DomExact N B board (initializeDomains N B board) := by
  intro r c hr hc hz v h1 h2
  rw [domAt_initializeDomains N B board hr hc, if_pos hz, mem_validValues]
  exact ⟨fun h => h.2.2, fun h => ⟨h1, h2, h⟩⟩

theorem domSuper_of_domExact {N B : Nat} {board : Board} {d : Domains}
    (h : DomExact N B board d) : DomSuper N B board d :=
  fun r c hr hc hz v h1 h2 hval => (h r c hr hc hz v h1 h2).2 hval

/-- Forward checking keeps the sets exact. -/
theorem domExact_updateDomains {N B : Nat} (hN : N = B * B) {board : Board} {d : Domains}
    (hd : DomExact N B board d) {row col : Nat} (hrow : row < N) (hcol : col < N)
    (h0 : cellAt board row col = some 0) {num : Int} (hnum : num ≠ 0) :
    DomExact N B (setCell board row col num) (updateDomains N B d row col num) := by
  intro r c hr hc hz v h1 h2
  constructor
  · intro hmem
    have hplaced : cellAt (setCell board row col num) row col = some num :=
      cellAt_setCell_same num h0
    have hrc : ¬ (r = row ∧ c = col) := by
      rintro ⟨rfl, rfl⟩
      rw [hplaced] at hz
      cases hz
      exact hnum rfl
    have hzb : cellAt board r c = some 0 := by
      rw [cellAt_setCell_ne board num hrc] at hz; exact hz
    rw [domAt_updateDomains, if_neg hrc] at hmem
    have hold : v ∈ domAt d r c := by
      split at hmem
      · exact ((mem_setDelete _ _ _).1 hmem).1
      · exact hmem
    have hvalold := (isValid_iff_related hN board hr hc v).1 ((hd r c hr hc hzb v h1 h2).1 hold)
    rw [isValid_iff_related hN _ hr hc]
    intro r' c' hrel
    by_cases hq : r' = row ∧ c' = col
    · obtain ⟨rfl, rfl⟩ := hq
      rw [hplaced]
      intro hcon
      cases hcon
      have hcond : (r = r' ∧ c < N) ∨ (c = c' ∧ r < N) ∨ InBoxOf B r' c' r c := by
        rcases hrel.2.2 with h | h | h
        · exact Or.inl ⟨h.symm, hc⟩
        · exact Or.inr (Or.inl ⟨h.symm, hr⟩)
        · exact Or.inr (Or.inr (inBoxOf_symm (pos_of_sq hN hr) h))
      rw [if_pos hcond, mem_setDelete] at hmem
      exact hmem.2 rfl
    · rw [cellAt_setCell_ne board num hq]
      exact hvalold r' c' hrel
  · intro hval
    exact domSuper_updateDomains hN (domSuper_of_domExact hd) hrow hcol h0 hnum r c hr hc hz v
      h1 h2 hval

theorem reachable_domExact {N B : Nat} (hN : N = B * B) {useMRV useLCV : Bool} {board b : Board}
    {d : Domains} (h : Reachable N B useMRV useLCV board b d) : DomExact N B b d := by
  induction h with
  | root => exact domExact_initializeDomains N B board
  | child _ hsel _ hval ih =>
    obtain ⟨hrow, hcol, h0⟩ := selectCell_some hsel
    exact domExact_updateDomains hN ih hrow hcol h0 (isValid_ne_zero hcol h0 hval)

theorem reachable_domRange {N B : Nat} {useMRV useLCV : Bool} {board b : Board}
    {d : Domains} (h : Reachable N B useMRV useLCV board b d) : DomRange N d := by
  induction h with
  | root => exact domRange_initializeDomains N B board
  | child _ _ _ _ ih => exact domRange_updateDomains B ih _ _ _

/-- The candidate loop only calls `child` on the board with a checked candidate placed and the
updated copy of the domains. -/
theorem tryCandidates_congr_cands {N B : Nat}
    {child1 child2 : Board → Domains → Nat → Option Frame} (board : Board) (row col : Nat)
    (h0 : cellAt board row col = some 0)
    (hchild : ∀ b d o b' o', child1 b d o = some (false, b', o') → b' = b)
    (domains : Domains) (cands : List Int)
    (hagree : ∀ num ∈ cands, isValid N B board row col num = true → ∀ o,
      child1 (setCell board row col num) (updateDomains N B domains row col num) o
        = child2 (setCell board row col num) (updateDomains N B domains row col num) o)
    (opened : Nat) :
    tryCandidates N B child1 domains row col cands board opened
      = tryCandidates N B child2 domains row col cands board opened := by
  induction cands generalizing opened with
  | nil => rfl
  | cons num rest ih =>
    have hrest := ih (fun n hn => hagree n (List.mem_cons_of_mem _ hn))
    rw [tryCandidates, tryCandidates]
    split
    · rename_i hv
      have ha := hagree num (List.mem_cons_self _ _) hv (opened + 1)
      simp only
      rw [← ha]
      split
      · rfl
      · rfl
      · rename_i b1 o1 hc
        rw [hchild _ _ _ _ _ hc, setCell_undo board row col num h0]
        exact hrest _
    · exact hrest _

/-- C16.  On an `N × N` board with `N = B²` and cells in `[0, N]`, for every combination of
`useMRV`/`useLCV`: at every call `backtrack b d` reached from the root call on
`(board, initializeDomains board)`, for every cell `(r, c)` with `b[r][c] = 0` and every `v` in
`[1, N]`, `v` is in `d[r][c]` exactly when `isValid b r c v` holds.  The second part ties
`Reachable` to the code: a frame only calls `backtrack` on a board with a checked candidate
placed and the updated copy of its domains, since refusing any other call changes nothing.  A
frame never mutates its own grid and gets its board back from a failed call (`backtrack_false_board`),
so the pair it works on after an undo is the reachable pair it was called on. -/
theorem domains_exact (N B : Nat) (useMRV useLCV : Bool) (board : Board) (hsq : Square N board)
    (hN : N = B * B) (hcells : CellsInRange N board) :
    (∀ b d, Reachable N B useMRV useLCV board b d → DomExact N B b d) ∧
    (∀ (fuel : Nat) (b : Board) (d : Domains) (opened : Nat),
      backtrack N B useMRV useLCV (fuel + 1) b d opened
        = match selectCell N useMRV b d with
          | none => some (true, b, opened)
          | some (row, col) =>
            tryCandidates N B
              (fun b1 d1 o1 =>
                if (sortDomainByLCV N B useLCV b d row col).any (fun num =>
                    isValid N B b row col num && decide (b1 = setCell b row col num)
                      && decide (d1 = updateDomains N B d row col num)) then
                  backtrack N B useMRV useLCV fuel b1 d1 o1
                else none)
              d row col (sortDomainByLCV N B useLCV b d row col) b opened) := by
  constructor
  · intro b d h
    exact reachable_domExact hN h
  · intro fuel b d opened
    rw [backtrack]
    split
    · rfl
    · rename_i row col hsel
      obtain ⟨_, _, h0⟩ := selectCell_some hsel
      apply tryCandidates_congr_cands b row col h0
        (fun b d o b' o' hc => backtrack_false_board N B useMRV useLCV fuel b d o b' o' hc)
      intro num hnum hval o
      have hany : (sortDomainByLCV N B useLCV b d row col).any (fun n =>
          isValid N B b row col n && decide (setCell b row col num = setCell b row col n)
            && decide (updateDomains N B d row col num = updateDomains N B d row col n))
          = true := by
        rw [List.any_eq_true]
        exact ⟨num, hnum, by simp [hval]⟩
      rw [if_pos hany]

/-- Witness of `domains_exact`: the first call that the search with MRV and LCV makes from the
root frame of `cornerBoard` places `3` at `(0, 3)`; its domains are exact. -/
theorem domains_exact_witness :
    selectCell 4 true cornerBoard (initializeDomains 4 2 cornerBoard) = some (0, 3) ∧
    DomExact 4 2 (setCell cornerBoard 0 3 3)
      (updateDomains 4 2 (initializeDomains 4 2 cornerBoard) 0 3 3) :=
  ⟨by decide,
    (domains_exact 4 2 true true cornerBoard (by decide) (by decide) (by decide)).1 _ _
      (Reachable.child Reachable.root (by decide) (by decide) (by decide))⟩

/-- When every row of the board is an array of its own, which is all that `Board` can express:
on an `N × N` board with `N = B²` and cells in `[0, N]`, in every frame `backtrack b d` reached
from the root call, every candidate taken from the set of the selected cell passes the check
`isValid b row col num` of line 146.  Rows that share storage are another matter
(`sharedRowsBoard`). -/
theorem recheck_passes (N B : Nat) (useMRV useLCV : Bool) (board : Board)
    (hsq : Square N board) (hN : N = B * B) (hcells : CellsInRange N board) (b : Board)
    (d : Domains) (hreach : Reachable N B useMRV useLCV board b d) (row col : Nat)
    (hsel : selectCell N useMRV b d = some (row, col)) (num : Int)
    (hnum : num ∈ sortDomainByLCV N B useLCV b d row col) :
    isValid N B b row col num = true := by
  obtain ⟨hrow, hcol, h0⟩ := selectCell_some hsel
  have hmem := (mem_sortDomainByLCV N B useLCV b d row col num).1 hnum
  have hrange := reachable_domRange hreach row col num hmem
  exact (reachable_domExact hN hreach row col hrow hcol h0 num hrange.1 hrange.2).1 hmem

/-- Witness of `recheck_passes` at the root frame of `cornerBoard`. -/
theorem recheck_passes_witness :
    selectCell 4 true cornerBoard (initializeDomains 4 2 cornerBoard) = some (0, 3) ∧
    (3 : Int) ∈ sortDomainByLCV 4 2 true cornerBoard (initializeDomains 4 2 cornerBoard) 0 3 ∧
    isValid 4 2 cornerBoard 0 3 3 = true :=
  ⟨by decide, by decide,
    recheck_passes 4 2 true true cornerBoard (by decide) (by decide) (by decide) cornerBoard
      (initializeDomains 4 2 cornerBoard) Reachable.root 0 3 (by decide) 3 (by decide)⟩

/-- Among the boards whose rows are arrays of their own there is no well-formed board,
combination of heuristics and reachable frame in which a candidate of the selected cell is
rejected by the check of line 146: a rejection needs rows that share storage. -/
theorem recheck_never_rejects :
    ¬ ∃ (N B : Nat) (useMRV useLCV : Bool) (board b : Board) (d : Domains) (row col : Nat)
        (num : Int),
      Square N board ∧ N = B * B ∧ CellsInRange N board ∧
      Reachable N B useMRV useLCV board b d ∧
      selectCell N useMRV b d = some (row, col) ∧
      num ∈ sortDomainByLCV N B useLCV b d row col ∧
      isValid N B b row col num = false := by
  rintro ⟨N, B, useMRV, useLCV, board, b, d, row, col, num, _, hN, _, hreach, hsel, hnum, hrej⟩
  obtain ⟨hrow, hcol, h0⟩ := selectCell_some hsel
  have hmem := (mem_sortDomainByLCV N B useLCV b d row col num).1 hnum
  have hrange := reachable_domRange hreach row col num hmem
  have hval := (reachable_domExact hN hreach row col hrow hcol h0 num hrange.1 hrange.2).1 hmem
  rw [hval] at hrej
  cases hrej

/-! ## Accounting of the opened states -/

theorem tryCandidatesU_erase {N B : Nat}
    {childU : Board → Domains → Nat → Nat → Option FrameU}
    {child : Board → Domains → Nat → Option Frame}
    (hchild : ∀ b d o u, (childU b d o u).map eraseUndone = child b d o)
    (domains : Domains) (row col : Nat) (cands : List Int) (board : Board) (opened undone : Nat) :
    (tryCandidatesU N B childU domains row col cands board opened undone).map eraseUndone
      = tryCandidates N B child domains row col cands board opened := by
  induction cands generalizing board opened undone with
  | nil => rfl
  | cons num rest ih =>
    rw [tryCandidatesU, tryCandidates]
    split
    · simp only
      have hc := hchild (setCell board row col num) (updateDomains N B domains row col num)
        (opened + 1) undone
      rcases hU : childU (setCell board row col num) (updateDomains N B domains row col num)
        (opened + 1) undone with _ | ⟨_ | _, b1, o1, u1⟩
      · rw [hU] at hc
        rw [← hc]
        rfl
      · rw [hU] at hc
        rw [← hc]
        exact ih _ _ _
      · rw [hU] at hc
        rw [← hc]
        rfl
    · exact ih _ _ _

/-- Forgetting the ghost counter of `backtrackU` gives `backtrack`. -/
theorem backtrackU_erase (N B : Nat) (useMRV useLCV : Bool) (fuel : Nat) (board : Board)
    (domains : Domains) (opened undone : Nat) :
    (backtrackU N B useMRV useLCV fuel board domains opened undone).map eraseUndone
      = backtrack N B useMRV useLCV fuel board domains opened := by
  induction fuel generalizing board domains opened undone with
  | zero => rfl
  | succ fuel ih =>
    rw [backtrackU, backtrack]
    split
    · rfl
    · exact tryCandidatesU_erase (fun b d o u => ih b d o u) _ _ _ _ _ _ _

theorem backtrackU_some {N B : Nat} {useMRV useLCV : Bool} {fuel : Nat} {board : Board}
    {domains : Domains} {opened undone : Nat} {flag : Bool} {b' : Board} {o' u' : Nat}
    (h : backtrackU N B useMRV useLCV fuel board domains opened undone
      = some (flag, b', o', u')) :
    backtrack N B useMRV useLCV fuel board domains opened = some (flag, b', o') := by
  rw [← backtrackU_erase N B useMRV useLCV fuel board domains opened undone, h]
  rfl

/-- Every placement is either still on the board or undone: the balance of the loop. -/
theorem tryCandidatesU_balance {N B : Nat}
    {childU : Board → Domains → Nat → Nat → Option FrameU} (board : Board) (row col : Nat)
    (hrow : row < N) (hcol : col < N) (h0 : cellAt board row col = some 0)
    (hrestore : ∀ b d o u b' o' u', childU b d o u = some (false, b', o', u') → b' = b)
    (hchild : ∀ b d o u flag b' o' u', childU b d o u = some (flag, b', o', u') →
      o' + countZeros N b' + u = o + countZeros N b + u')
    (domains : Domains) (cands : List Int) (opened undone : Nat) (flag : Bool) (b' : Board)
    (o' u' : Nat)
    (h : tryCandidatesU N B childU domains row col cands board opened undone
      = some (flag, b', o', u')) :
    o' + countZeros N b' + undone = opened + countZeros N board + u' := by
  induction cands generalizing opened undone with
  | nil =>
    simp only [tryCandidatesU, Option.some.injEq, Prod.mk.injEq] at h
    obtain ⟨_, rfl, rfl, rfl⟩ := h
    rfl
  | cons num rest ih =>
    unfold tryCandidatesU at h
    split at h
    · rename_i hv
      have hz := countZeros_setCell hrow hcol h0 (isValid_ne_zero hcol h0 hv)
      simp only at h
      split at h
      · cases h
      · rename_i b1 o1 u1 hc
        cases h
        have := hchild _ _ _ _ _ _ _ _ hc
        omega
      · rename_i b1 o1 u1 hc
        have hbal := hchild _ _ _ _ _ _ _ _ hc
        have hb1 := hrestore _ _ _ _ _ _ _ hc
        rw [hb1] at hbal
        rw [hb1, setCell_undo board row col num h0] at h
        have := ih _ _ h
        omega
    · exact ih _ _ h

/-- The balance of a frame: opened states plus remaining `0` cells, against undone
placements. -/
theorem backtrackU_balance (N B : Nat) (useMRV useLCV : Bool) (fuel : Nat) (board : Board)
    (domains : Domains) (opened undone : Nat) (flag : Bool) (b' : Board) (o' u' : Nat)
    (h : backtrackU N B useMRV useLCV fuel board domains opened undone
      = some (flag, b', o', u')) :
    o' + countZeros N b' + undone = opened + countZeros N board + u' := by
  induction fuel generalizing board domains opened undone flag b' o' u' with
  | zero => simp [backtrackU] at h
  | succ fuel ih =>
    unfold backtrackU at h
    split at h
    · cases h; rfl
    · rename_i row col hsel
      obtain ⟨hrow, hcol, h0⟩ := selectCell_some hsel
      exact tryCandidatesU_balance board row col hrow hcol h0
        (fun b d o u b' o' u' hc =>
          backtrack_false_board N B useMRV useLCV fuel b d o b' o' (backtrackU_some hc))
        (fun b d o u flag b' o' u' hc => ih b d o u flag b' o' u' hc) _ _ _ _ _ _ _ _ h

theorem countZeros_eq_zero {N : Nat} {b : Board}
    (h : ∀ r c, r < N → c < N → cellAt b r c ≠ some 0) : countZeros N b = 0 := by
  unfold countZeros
  rw [List.length_eq_zero, List.filter_eq_nil_iff]
  intro p hp
  have hp' := (mem_cells N p).1 hp
  simpa using h p.1 p.2 hp'.1 hp'.2

theorem filledBySearch_self (N : Nat) (board : Board) : filledBySearch N board board = 0 := by
  unfold filledBySearch
  rw [List.countP_eq_zero]
  intro p _
  cases h : (cellAt board p.1 p.2 == some 0) <;> simp [h]

theorem filledBySearch_full {N : Nat} (board : Board) {final : Board}
    (h : ∀ r c, r < N → c < N → cellAt final r c ≠ some 0) :
    filledBySearch N board final = countZeros N board := by
  unfold filledBySearch countZeros
  rw [← List.countP_eq_length_filter]
  apply List.countP_congr
  intro p hp
  have hp' := (mem_cells N p).1 hp
  have := h p.1 p.2 hp'.1 hp'.2
  have hne : (cellAt final p.1 p.2 == some 0) = false := by simpa using this
  simp [hne]

/-- The accounting for a search that has returned. -/
theorem accounting_of_result {N B : Nat} {useMRV useLCV : Bool} {board : Board}
    (hsq : Square N board) (hN : N = B * B) (hcells : CellsInRange N board) {fuel : Nat}
    {flag : Bool} {b' : Board} {o' u' : Nat}
    (h : backtrackU N B useMRV useLCV fuel board (initializeDomains N B board) 0 0
      = some (flag, b', o', u')) :
    backtrack N B useMRV useLCV fuel board (initializeDomains N B board) 0
      = some (flag, b', o') ∧
    o' = filledBySearch N board b' + u' ∧
    (flag = true →
      solveSudokuCSP fuel board useMRV useLCV = some (Outcome.Solved b' o') ∧
      countZeros N board ≤ o') ∧
    (flag = false →
      solveSudokuCSP fuel board useMRV useLCV = some (Outcome.NoSolution b' o') ∧ o' = u') := by
  have hbt := backtrackU_some h
  have hbal := backtrackU_balance N B useMRV useLCV fuel board _ 0 0 flag b' o' u' h
  cases flag with
  | true =>
    have hf := backtrack_sound hN useMRV useLCV fuel board _
      (domRange_initializeDomains N B board) 0 b' o' hbt
    have hnz : ∀ r c, r < N → c < N → cellAt b' r c ≠ some 0 :=
      fun r c hr hc => fills_no_zero hf hr hc
    have hz := countZeros_eq_zero hnz
    have hfill := filledBySearch_full board hnz
    refine ⟨hbt, by omega, fun _ => ⟨?_, by omega⟩, fun hcon => (by cases hcon)⟩
    rw [solve_eq hsq hN hcells, hbt]
  | false =>
    have hb := backtrack_false_board N B useMRV useLCV fuel board _ 0 b' o' hbt
    subst hb
    have hfill := filledBySearch_self N b'
    refine ⟨hbt, by omega, fun hcon => (by cases hcon), fun _ => ⟨?_, by omega⟩⟩
    rw [solve_eq hsq hN hcells, hbt]

/-- C19.  On an `N × N` board with `N = B²` and cells in `[0, N]`, for every combination of
`useMRV`/`useLCV`, with any fuel above the number of `0` cells the search ends, and with
`undone` the number of times line 158 has reset a cell, the final `openedStates` is the number of
cells the search left filled (`0` in the input, not `0` at the end) plus `undone`.  If the search
returns true, `solveSudokuCSP` reports `Solved` and `openedStates` is at least the number of `0`
cells of the input (81 for the all-zero 9 × 9 board); if it returns false, `solveSudokuCSP`
reports `NoSolution` and `openedStates = undone`. -/
theorem openedStates_accounting (N B : Nat) (useMRV useLCV : Bool) (board : Board)
    (hsq : Square N board) (hN : N = B * B) (hcells : CellsInRange N board) (fuel : Nat)
    (hfuel : countZeros N board < fuel) :
    ∃ (flag : Bool) (b' : Board) (o' u' : Nat),
      backtrackU N B useMRV useLCV fuel board (initializeDomains N B board) 0 0
        = some (flag, b', o', u') ∧
      backtrack N B useMRV useLCV fuel board (initializeDomains N B board) 0
        = some (flag, b', o') ∧
      o' = filledBySearch N board b' + u' ∧
      (flag = true →
        solveSudokuCSP fuel board useMRV useLCV = some (Outcome.Solved b' o') ∧
        countZeros N board ≤ o') ∧
      (flag = false →
        solveSudokuCSP fuel board useMRV useLCV = some (Outcome.NoSolution b' o') ∧
        o' = u') := by
  have hs := backtrack_isSome N B useMRV useLCV fuel board (initializeDomains N B board) 0 hfuel
  rw [← backtrackU_erase N B useMRV useLCV fuel board (initializeDomains N B board) 0 0] at hs
  rcases hU : backtrackU N B useMRV useLCV fuel board (initializeDomains N B board) 0 0
    with _ | ⟨flag, b', o', u'⟩
  · rw [hU] at hs; cases hs
  · exact ⟨flag, b', o', u', rfl, accounting_of_result hsq hN hcells hU⟩

/-- Witness of `openedStates_accounting`: without heuristics the search on `cornerBoard` opens 15
states, 14 for the cells it leaves filled and 1 for a placement it undoes. -/
theorem openedStates_accounting_witness :
    countZeros 4 cornerBoard < 15 ∧
    backtrackU 4 2 false false 15 cornerBoard (initializeDomains 4 2 cornerBoard) 0 0
      = some (true, cornerSolvedPlain, 15, 1) ∧
    filledBySearch 4 cornerBoard cornerSolvedPlain = 14 ∧
    ∃ (flag : Bool) (b' : Board) (o' u' : Nat),
      backtrackU 4 2 false false 15 cornerBoard (initializeDomains 4 2 cornerBoard) 0 0
        = some (flag, b', o', u') ∧
      backtrack 4 2 false false 15 cornerBoard (initializeDomains 4 2 cornerBoard) 0
        = some (flag, b', o') ∧
      o' = filledBySearch 4 cornerBoard b' + u' ∧
      (flag = true →
        solveSudokuCSP 15 cornerBoard false false = some (Outcome.Solved b' o') ∧
        countZeros 4 cornerBoard ≤ o') ∧
      (flag = false →
        solveSudokuCSP 15 cornerBoard false false = some (Outcome.NoSolution b' o') ∧
        o' = u') :=
  ⟨by decide, by decide, by decide,
    openedStates_accounting 4 2 false false cornerBoard (by decide) (by decide) (by decide) 15
      (by decide)⟩

/-! ## The search without heuristics finds the least solution -/

theorem domSorted_initializeDomains (N B : Nat) (board : Board) :
    DomSorted (initializeDomains N B board) := by
  intro r c
  cases hl : domAt (initializeDomains N B board) r c with
  | nil => exact List.Pairwise.nil
  | cons v t =>
    have hmem : v ∈ domAt (initializeDomains N B board) r c := by rw [hl]; simp
    obtain ⟨hr, hc, _⟩ := domAt_initializeDomains_mem hmem
    rw [← hl, domAt_initializeDomains N B board hr hc]
    split
    · unfold validValues
      apply List.Pairwise.map _ _ ((List.pairwise_lt_range' 1 N).filter _)
      intro a b hab
      exact Int.ofNat_lt.2 hab
    · exact List.Pairwise.nil

theorem domSorted_updateDomains (N B : Nat) {d : Domains} (h : DomSorted d) (row col : Nat)
    (num : Int) : DomSorted (updateDomains N B d row col num) := by
  intro r c
  rw [domAt_updateDomains]
  split
  · exact List.Pairwise.nil
  · split
    · exact (h r c).filter _
    · exact h r c

theorem reachable_domSorted {N B : Nat} {useMRV useLCV : Bool} {board b : Board}
    {d : Domains} (h : Reachable N B useMRV useLCV board b d) : DomSorted d := by
  induction h with
  | root => exact domSorted_initializeDomains N B board
  | child _ _ _ _ ih => exact domSorted_updateDomains N B ih _ _ _

theorem selectCell_false_before {N : Nat} {board : Board} {domains : Domains} {row col : Nat}
    (h : selectCell N false board domains = some (row, col)) :
    ∀ q : Nat × Nat, q.1 < N → q.2 < N → RowMajorLt q (row, col) →
      cellAt board q.1 q.2 ≠ some 0 := by
  unfold selectCell at h
  simp only [Bool.false_eq_true, if_false] at h
  rcases selectCellFirst_cases N board with ⟨h1, _⟩ | ⟨p, h1, _, _, _, h5⟩
  · rw [h1] at h; cases h
  · rw [h1] at h; cases h; exact h5

/-- The candidate loop over an ascending list returns a board that is lexicographically at most
any filling `T` of the frame's board whose value at the chosen cell is among the candidates. -/
theorem tryCandidates_lexLe {N B : Nat} (hN : N = B * B)
    {child : Board → Domains → Nat → Option Frame} (board T : Board) (hf : Fills N B board T)
    (row col : Nat) (hrow : row < N) (hcol : col < N) (h0 : cellAt board row col = some 0)
    (hbefore : ∀ q : Nat × Nat, q.1 < N → q.2 < N → RowMajorLt q (row, col) →
      cellAt board q.1 q.2 ≠ some 0)
    (v : Int) (hv : cellAt T row col = some v) (hv1 : 1 ≤ v)
    (hval : isValid N B board row col v = true)
    (hrestore : ∀ b d o b' o', child b d o = some (false, b', o') → b' = b)
    (hsound : ∀ b d o b' o', DomRange N d → child b d o = some (true, b', o') → Fills N B b b')
    (hcomplete : ∀ b d o b' o', Fills N B b T → DomSuper N B b d →
      child b d o ≠ some (false, b', o'))
    (hlex : ∀ b d o b' o', Fills N B b T → DomSuper N B b d → DomSorted d → DomRange N d →
      child b d o = some (true, b', o') → BoardLexLe N b' T)
    (domains : Domains) (hsup : DomSuper N B board domains) (hsorted : DomSorted domains)
    (hrange : DomRange N domains) (cands : List Int)
    (hcs : cands.Pairwise (fun a b => a < b)) (hcr : ∀ x ∈ cands, 1 ≤ x ∧ x ≤ (N : Int))
    (hmem : v ∈ cands) (opened : Nat) (b' : Board) (o' : Nat)
    (h : tryCandidates N B child domains row col cands board opened = some (true, b', o')) :
    BoardLexLe N b' T := by
  induction cands generalizing opened with
  | nil => cases hmem
  | cons num rest ih =>
    obtain ⟨hlt, hcs'⟩ := List.pairwise_cons.1 hcs
    have hcr' : ∀ x ∈ rest, 1 ≤ x ∧ x ≤ (N : Int) :=
      fun x hx => hcr x (List.mem_cons_of_mem _ hx)
    have hnumr := hcr num (List.mem_cons_self _ _)
    have hrest_of_ne : num ≠ v → v ∈ rest := by
      intro hne
      rcases List.mem_cons.1 hmem with h' | h'
      · exact absurd h'.symm hne
      · exact h'
    unfold tryCandidates at h
    split at h
    · rename_i hnv
      simp only at h
      split at h
      · cases h
      · rename_i b1 o1 hch
        cases h
        by_cases hnum : num = v
        · subst hnum
          exact hlex _ _ _ _ _ (fills_setCell hf h0 hv)
            (domSuper_updateDomains hN hsup hrow hcol h0 (by omega))
            (domSorted_updateDomains N B hsorted row col num)
            (domRange_updateDomains B hrange row col num) hch
        · have hf1 := hsound _ _ _ _ _ (domRange_updateDomains B hrange row col num) hch
          have hfb := fills_step hN hrow hcol h0 hnv hnumr.1 hnumr.2 hf1
          right
          refine ⟨row, col, hrow, hcol, ?_, num, v, ?_, hv, hlt v (hrest_of_ne hnum)⟩
          · intro q hq1 hq2 hqlt
            have hq0 := hbefore q hq1 hq2 hqlt
            rw [hfb.1 _ _ hq0, hf.1 _ _ hq0]
          · have hplaced : cellAt (setCell board row col num) row col = some num :=
              cellAt_setCell_same num h0
            rw [hf1.1 row col (by rw [hplaced]; intro hc; cases hc; omega), hplaced]
      · rename_i b1 o1 hch
        by_cases hnum : num = v
        · subst hnum
          exact absurd hch (hcomplete _ _ _ _ _ (fills_setCell hf h0 hv)
            (domSuper_updateDomains hN hsup hrow hcol h0 (by omega)))
        · rw [hrestore _ _ _ _ _ hch, setCell_undo board row col num h0] at h
          exact ih hcs' hcr' (hrest_of_ne hnum) _ h
    · rename_i hnot
      have hnum : num ≠ v := by
        rintro rfl
        exact hnot hval
      exact ih hcs' hcr' (hrest_of_ne hnum) _ h

/-- Without heuristics a successful frame returns a board that is lexicographically at most any
filling of its board, when the sets are ascending and hold every accepted value. -/
theorem backtrack_lexLe {N B : Nat} (hN : N = B * B) (fuel : Nat) (board T : Board)
    (hf : Fills N B board T) (domains : Domains) (hsup : DomSuper N B board domains)
    (hsorted : DomSorted domains) (hrange : DomRange N domains) (opened : Nat) (b' : Board)
    (o' : Nat)
    (h : backtrack N B false false fuel board domains opened = some (true, b', o')) :
    BoardLexLe N b' T := by
  induction fuel generalizing board domains opened b' o' with
  | zero => simp [backtrack] at h
  | succ fuel ih =>
    unfold backtrack at h
    split at h
    · rename_i hsel
      cases h
      left
      intro r c hr hc
      exact (hf.1 r c (selectCell_none hsel r c hr hc)).symm
    · rename_i row col hsel
      obtain ⟨hrow, hcol, h0⟩ := selectCell_some hsel
      obtain ⟨v, hv, hv1, hv2, hpf⟩ := hf.2 row col hrow hcol h0
      have hval := fills_isValid hN hf hrow hcol h0 hv hv1 hpf
      have hmem := hsup row col hrow hcol h0 v hv1 hv2 hval
      have hcands : sortDomainByLCV N B false board domains row col = domAt domains row col := by
        simp [sortDomainByLCV]
      rw [hcands] at h
      exact tryCandidates_lexLe hN board T hf row col hrow hcol h0
        (selectCell_false_before hsel) v hv hv1 hval
        (fun b d o b' o' hc => backtrack_false_board N B false false fuel b d o b' o' hc)
        (fun b d o b' o' hd hc => backtrack_sound hN false false fuel b d hd o b' o' hc)
        (fun b d o b' o' hfb hdb => backtrack_complete hN false false fuel b T hfb d hdb o b' o')
        (fun b d o b' o' hfb hdb hds hdr hc => ih b hfb d hdb hds hdr o b' o' hc)
        domains hsup hsorted hrange _ (hsorted row col) (hrange row col) hmem opened b' o' h

/-- C20.  With `useMRV = false` and `useLCV = false`, on an `N × N` board with `N = B²`, cells
in `[0, N]` and no non-zero value repeated in a row, column or box: if the search returns true,
`solveSudokuCSP` reports `Solved`, the final board is a completion of the input (same non-zero
cells, empty cells filled from `[1, N]`, no repeated value), and read in row-major order it is
lexicographically at most every completion of the input.  Every set iterates in ascending order
at every reachable frame. -/
theorem plain_search_least (N B : Nat) (board : Board) (hsq : Square N board) (hN : N = B * B)
    (hcells : CellsInRange N board) (hcons : NoRepeat N B board) (fuel : Nat) (b' : Board)
    (o' : Nat)
    (h : backtrack N B false false fuel board (initializeDomains N B board) 0
      = some (true, b', o')) :
    solveSudokuCSP fuel board false false = some (Outcome.Solved b' o') ∧
    IsCompletion N B board b' ∧
    (∀ S, IsCompletion N B board S → BoardLexLe N b' S) ∧
    (∀ b d, Reachable N B false false board b d → DomSorted d) := by
  have hf := backtrack_sound hN false false fuel board _
    (domRange_initializeDomains N B board) 0 b' o' h
  refine ⟨?_, ⟨backtrack_square N B false false fuel board _ 0 _ hsq h, ?_, ?_,
    noRepeat_of_fills hN hcons hf⟩, ?_, fun b d hreach => reachable_domSorted hreach⟩
  · rw [solve_eq hsq hN hcells, h]
  · intro r c v hv hv0
    rw [hf.1 r c (by rw [hv]; intro hcon; cases hcon; exact hv0 rfl)]
    exact hv
  · intro r c hr hc h0
    obtain ⟨v, hv, h1, h2, _⟩ := hf.2 r c hr hc h0
    exact ⟨v, hv, h1, h2⟩
  · intro S hS
    exact backtrack_lexLe hN fuel board S (fills_of_completion hsq hS) _
      (domSuper_initializeDomains N B board) (domSorted_initializeDomains N B board)
      (domRange_initializeDomains N B board) 0 b' o' h

/-- Witness of `plain_search_least`: without heuristics the search on `cornerBoard` returns
`cornerSolvedPlain`, which is at most every completion of `cornerBoard`. -/
theorem plain_search_least_witness :
    NoRepeat 4 2 cornerBoard ∧
    backtrack 4 2 false false 15 cornerBoard (initializeDomains 4 2 cornerBoard) 0
      = some (true, cornerSolvedPlain, 15) ∧
    (∀ S, IsCompletion 4 2 cornerBoard S → BoardLexLe 4 cornerSolvedPlain S) :=
  ⟨by decide, by decide,
    (plain_search_least 4 2 cornerBoard (by decide) (by decide) (by decide) (by decide) 15
      cornerSolvedPlain 15 (by decide)).2.2.1⟩

/-! ## Boards with a repeated value in a row -/

/-- Pigeonhole: `N` pairwise different values of `[1, N]` include every value of `[1, N]`. -/
theorem exists_of_injective_values (N : Nat) (f : Nat → Int)
    (hrange : ∀ c, c < N → 1 ≤ f c ∧ f c ≤ (N : Int))
    (hinj : ∀ c, c < N → ∀ c', c' < N → f c = f c' → c = c') (v : Int) (hv1 : 1 ≤ v)
    (hv2 : v ≤ (N : Int)) : ∃ c, c < N ∧ f c = v := by
  have hnodup : ((List.range N).map f).Nodup := by
    apply List.Nodup.map_on _ (List.nodup_range N)
    intro a ha b hb hab
    exact hinj a (List.mem_range.1 ha) b (List.mem_range.1 hb) hab
  have htarget : ((List.range' 1 N).map fun (n : Nat) => (n : Int)).Nodup := by
    apply List.Nodup.map _ (List.nodup_range' 1 N)
    intro a b hab
    exact Int.ofNat.inj hab
  have hsub : (List.range N).map f ⊆ (List.range' 1 N).map fun (n : Nat) => (n : Int) := by
    intro x hx
    obtain ⟨c, hc, rfl⟩ := List.mem_map.1 hx
    have := hrange c (List.mem_range.1 hc)
    rw [List.mem_map]
    refine ⟨(f c).toNat, ?_, by omega⟩
    rw [List.mem_range']
    exact ⟨(f c).toNat - 1, by omega, by omega⟩
  have hperm := (hnodup.subperm hsub).perm_of_length_le (by simp)
  have hvmem : v ∈ (List.range' 1 N).map fun (n : Nat) => (n : Int) := by
    rw [List.mem_map]
    refine ⟨v.toNat, ?_, by omega⟩
    rw [List.mem_range']
    exact ⟨v.toNat - 1, by omega, by omega⟩
  obtain ⟨c, hc, hfc⟩ := List.mem_map.1 (hperm.mem_iff.2 hvmem)
  exact ⟨c, List.mem_range.1 hc, hfc⟩

/-- A board with a value twice in a row and nothing in the other rows has no filling: each other
row would hold the value in a column of its own, away from the two columns that have it. -/
theorem no_fills_of_row_repeat {N B : Nat} (hN : N = B * B) {board : Board} {r c1 c2 : Nat}
    (hr : r < N) (hc1 : c1 < N) (hc2 : c2 < N) (hne : c1 ≠ c2) {v : Int} (hv1 : 1 ≤ v)
    (hv2 : v ≤ (N : Int)) (h1 : cellAt board r c1 = some v) (h2 : cellAt board r c2 = some v)
    (hempty : ∀ i, i < N → i ≠ r → ∀ c, c < N → cellAt board i c = some 0) (T : Board) :
    ¬ Fills N B board T := by
  intro hf
  have hnz : (some v : Option Int) ≠ some 0 := by
    intro h; cases h; omega
  have hT1 : cellAt T r c1 = some v := by
    rw [hf.1 r c1 (by rw [h1]; exact hnz)]; exact h1
  have hT2 : cellAt T r c2 = some v := by
    rw [hf.1 r c2 (by rw [h2]; exact hnz)]; exact h2
  have hrowv : ∀ i, i < N → i ≠ r → ∃ c, c < N ∧ cellAt T i c = some v := by
    intro i hi hir
    have hcell : ∀ c, c < N → ∃ w : Int, cellAt T i c = some w ∧ 1 ≤ w ∧ w ≤ (N : Int)
        ∧ PeerFree N B T i c w := fun c hc => hf.2 i c hi hc (hempty i hi hir c hc)
    obtain ⟨c, hc, hfc⟩ := exists_of_injective_values N (fun c => (cellAt T i c).getD 0)
      (by
        intro c hc
        obtain ⟨w, hw, hw1, hw2, _⟩ := hcell c hc
        simp only [hw, Option.getD_some]
        exact ⟨hw1, hw2⟩)
      (by
        intro c hc c' hc' heq
        obtain ⟨w, hw, _, _, hpf⟩ := hcell c hc
        obtain ⟨w', hw', _, _, _⟩ := hcell c' hc'
        simp only [hw, hw', Option.getD_some] at heq
        by_contra hcc
        refine hpf i c' ⟨hi, hc', Or.inl rfl⟩ (fun h => hcc h.2.symm) ?_
        rw [hw', heq])
      v hv1 hv2
    obtain ⟨w, hw, _⟩ := hcell c hc
    simp only [hw, Option.getD_some] at hfc
    exact ⟨c, hc, by rw [hw, hfc]⟩
  choose! f hfN hfv using hrowv
  have hpeer : ∀ i, i < N → i ≠ r → PeerFree N B T i (f i) v := by
    intro i hi hir
    obtain ⟨w, hw, _, _, hpf⟩ := hf.2 i (f i) hi (hfN i hi hir)
      (hempty i hi hir (f i) (hfN i hi hir))
    rw [hfv i hi hir] at hw
    cases hw
    exact hpf
  have hcols : ∀ i ∈ (Finset.range N).erase r,
      f i ∈ ((Finset.range N).erase c1).erase c2 := by
    intro i hi
    rw [Finset.mem_erase, Finset.mem_range] at hi
    obtain ⟨hir, hiN⟩ := hi
    simp only [Finset.mem_erase, Finset.mem_range]
    refine ⟨?_, ?_, hfN i hiN hir⟩
    · intro hfc
      exact hpeer i hiN hir r c2 ⟨hr, hc2, Or.inr (Or.inl hfc.symm)⟩
        (fun h => hir h.1.symm) hT2
    · intro hfc
      exact hpeer i hiN hir r c1 ⟨hr, hc1, Or.inr (Or.inl hfc.symm)⟩
        (fun h => hir h.1.symm) hT1
  have hcard : (((Finset.range N).erase c1).erase c2).card < ((Finset.range N).erase r).card := by
    rw [Finset.card_erase_of_mem, Finset.card_erase_of_mem, Finset.card_erase_of_mem,
      Finset.card_range]
    · omega
    · exact Finset.mem_range.2 hr
    · exact Finset.mem_range.2 hc1
    · rw [Finset.mem_erase, Finset.mem_range]; exact ⟨fun h => hne h.symm, hc2⟩
  obtain ⟨i, hi, j, hj, hij, hfij⟩ := Finset.exists_ne_map_eq_of_card_lt_of_maps_to hcard hcols
  rw [Finset.mem_erase, Finset.mem_range] at hi hj
  refine hpeer i hi.2 hi.1 j (f i) ⟨hj.2, hfN i hi.2 hi.1, Or.inr (Or.inl rfl)⟩
    (fun h => hij h.1.symm) ?_
  rw [hfij]
  exact hfv j hj.2 hj.1

/-- C14, as the code has it.  On an `N × N` board with `N = B²` and cells in `[0, N]` whose row
`r` holds the non-zero value `v` in two different cells, `isBoardValid` returns true, and a search
that returns true leaves a board that still holds `v` in both cells, so it has a repeated value.
When in addition every cell of the other rows is `0`, for every combination of
`useMRV`/`useLCV` and any fuel above the number of `0` cells, `solveSudokuCSP` reports
`NoSolution` with the board as it was given. -/
theorem row_repeat_outcome (N B : Nat) (board : Board) (hsq : Square N board) (hN : N = B * B)
    (hcells : CellsInRange N board) (r c1 c2 : Nat) (hr : r < N) (hc1 : c1 < N) (hc2 : c2 < N)
    (hne : c1 ≠ c2) (v : Int) (hv : v ≠ 0) (h1 : cellAt board r c1 = some v)
    (h2 : cellAt board r c2 = some v) :
    isBoardValid N board = true ∧
    (∀ (useMRV useLCV : Bool) (fuel : Nat) (b' : Board) (o' : Nat),
      backtrack N B useMRV useLCV fuel board (initializeDomains N B board) 0
          = some (true, b', o') →
        cellAt b' r c1 = some v ∧ cellAt b' r c2 = some v ∧ ¬ NoRepeat N B b') ∧
    ((∀ i, i < N → i ≠ r → ∀ c, c < N → cellAt board i c = some 0) →
      ∀ (useMRV useLCV : Bool) (fuel : Nat), countZeros N board < fuel →
        ∃ o', solveSudokuCSP fuel board useMRV useLCV = some (Outcome.NoSolution board o')) := by
  have hnz : (some v : Option Int) ≠ some 0 := by
    intro h; cases h; exact hv rfl
  refine ⟨isBoardValid_of_inRange hsq hcells, ?_, ?_⟩
  · intro useMRV useLCV fuel b' o' h
    have hf := backtrack_sound hN useMRV useLCV fuel board _
      (domRange_initializeDomains N B board) 0 b' o' h
    have hb1 : cellAt b' r c1 = some v := by
      rw [hf.1 r c1 (by rw [h1]; exact hnz)]; exact h1
    have hb2 : cellAt b' r c2 = some v := by
      rw [hf.1 r c2 (by rw [h2]; exact hnz)]; exact h2
    refine ⟨hb1, hb2, ?_⟩
    intro hnr
    refine hnr r hr c1 hc1 r hr c2 hc2 ⟨Or.inl rfl, fun h => hne h.2.symm, by rw [hb1, hb2], ?_, ?_⟩
    · rw [hb1]; exact hnz
    · rw [hb1]; intro h; cases h
  · intro hempty useMRV useLCV fuel hfuel
    have hv12 : 1 ≤ v ∧ v ≤ (N : Int) := by
      obtain ⟨row, hrow, hmem⟩ := cellAt_mem h1
      have := hcells row hrow v hmem
      omega
    have hs := backtrack_isSome N B useMRV useLCV fuel board (initializeDomains N B board) 0
      hfuel
    rcases hbt : backtrack N B useMRV useLCV fuel board (initializeDomains N B board) 0
      with _ | ⟨_ | _, b, o⟩
    · rw [hbt] at hs; cases hs
    · have hb := backtrack_false_board N B useMRV useLCV fuel board _ 0 b o hbt
      subst hb
      exact ⟨o, by rw [solve_eq hsq hN hcells, hbt]⟩
    · exact absurd (backtrack_sound hN useMRV useLCV fuel board _
        (domRange_initializeDomains N B board) 0 b o hbt)
        (no_fills_of_row_repeat hN hr hc1 hc2 hne hv12.1 hv12.2 h1 h2 hempty b)

/-- Witness of `row_repeat_outcome`: the 9 × 9 board whose row 0 starts `5, 5` and whose other
cells are `0` passes `isBoardValid`, and every run on it reports `NoSolution`. -/
theorem row_repeat_outcome_witness :
    isBoardValid 9 twoFivesBoard = true ∧
    ∀ (useMRV useLCV : Bool), ∃ o',
      solveSudokuCSP 80 twoFivesBoard useMRV useLCV
        = some (Outcome.NoSolution twoFivesBoard o') :=
  ⟨(row_repeat_outcome 9 3 twoFivesBoard (by decide) (by decide) (by decide) 0 0 1 (by decide)
      (by decide) (by decide) (by decide) 5 (by decide) (by decide) (by decide)).1,
    fun useMRV useLCV =>
      (row_repeat_outcome 9 3 twoFivesBoard (by decide) (by decide) (by decide) 0 0 1
        (by decide) (by decide) (by decide) (by decide) 5 (by decide) (by decide)
        (by decide)).2.2 (by decide) useMRV useLCV 80 (by decide)⟩

/-- C14 as stated fails: `repeatBoard` is a 4 × 4 board with cells in `[0, 4]` and `1` twice in
row 0; it passes `isBoardValid`, and the search fills its one empty cell and returns true, for
every combination of `useMRV`/`useLCV`. -/
theorem row_repeat_counterexample :
    Square 4 repeatBoard ∧ CellsInRange 4 repeatBoard ∧
    cellAt repeatBoard 0 0 = some 1 ∧ cellAt repeatBoard 0 1 = some 1 ∧
    isBoardValid 4 repeatBoard = true ∧
    ∀ useMRV useLCV : Bool,
      backtrack 4 2 useMRV useLCV 2 repeatBoard (initializeDomains 4 2 repeatBoard) 0
        = some (true, repeatBoardFilled, 1) := by
  decide

/-! ## The scenarios of the specification -/

/-- A board passes as a completion when it has the shape, keeps the non-zero cells, has its
cells in `[1, N]` and repeats nothing: all four are checks that can be evaluated. -/
theorem isCompletion_of_checks {N B : Nat} {board S : Board} (hS : Square N S)
    (hagree : ∀ r, r < N → ∀ c, c < N →
      cellAt board r c = some 0 ∨ cellAt S r c = cellAt board r c)
    (hvals : ∀ row ∈ S, ∀ v ∈ row, 1 ≤ v ∧ v ≤ (N : Int)) (hnr : NoRepeat N B S)
    (hboard : Square N board) : IsCompletion N B board S := by
  refine ⟨hS, ?_, ?_, hnr⟩
  · intro r c v hv hv0
    obtain ⟨hr, hc⟩ := cellAt_lt_of_some hboard hv
    rcases hagree r hr c hc with h | h
    · rw [hv] at h; cases h; exact absurd rfl hv0
    · rw [h]; exact hv
  · intro r c hr hc _
    obtain ⟨v, hv⟩ := cellAt_isSome_of_square hS hr hc
    obtain ⟨row, hrow, hmem⟩ := cellAt_mem hv
    exact ⟨v, hv, hvals row hrow v hmem⟩

/-- What a successful search from the initial domains leaves, on a well-formed board without
repetition: a complete `N × N` board without `0`. -/
theorem result_complete {N B : Nat} {useMRV useLCV : Bool} {board : Board}
    (hsq : Square N board) (hN : N = B * B) (hcells : CellsInRange N board)
    (hcons : NoRepeat N B board) {fuel : Nat} {b' : Board} {o' : Nat}
    (h : backtrack N B useMRV useLCV fuel board (initializeDomains N B board) 0
      = some (true, b', o')) :
    Square N b' ∧ (∀ r c, r < N → c < N → cellAt b' r c ≠ some 0) ∧ Complete N B b' := by
  have hf := backtrack_sound hN useMRV useLCV fuel board _
    (domRange_initializeDomains N B board) 0 b' o' h
  refine ⟨backtrack_square N B useMRV useLCV fuel board _ 0 _ hsq h,
    fun r c hr hc => fills_no_zero hf hr hc, ?_⟩
  apply complete_of_noRepeat hN (noRepeat_of_fills hN hcons hf)
  intro r c hr hc
  by_cases h0 : cellAt board r c = some 0
  · obtain ⟨v, hv, h1, h2, _⟩ := hf.2 r c hr hc h0
    exact ⟨v, hv, h1, h2⟩
  · obtain ⟨u, hu⟩ := cellAt_isSome_of_square hsq hr hc
    obtain ⟨row, hrow, hmem⟩ := cellAt_mem hu
    have hrange := hcells row hrow u hmem
    have hu0 : u ≠ 0 := by
      rintro rfl; exact h0 hu
    refine ⟨u, by rw [hf.1 r c h0]; exact hu, by omega, hrange.2⟩

/-- A successful search has opened at least as many states as the input has `0` cells. -/
theorem opened_ge_zeros {N B : Nat} {useMRV useLCV : Bool} {board : Board}
    (hsq : Square N board) (hN : N = B * B) (hcells : CellsInRange N board) {fuel : Nat}
    {b' : Board} {o' : Nat}
    (h : backtrack N B useMRV useLCV fuel board (initializeDomains N B board) 0
      = some (true, b', o')) : countZeros N board ≤ o' := by
  have he := backtrackU_erase N B useMRV useLCV fuel board (initializeDomains N B board) 0 0
  rcases hU : backtrackU N B useMRV useLCV fuel board (initializeDomains N B board) 0 0
    with _ | ⟨flag, b1, o1, u1⟩
  · rw [hU, h] at he; cases he
  · rw [hU, h] at he
    simp only [Option.map_some', eraseUndone, Option.some.injEq, Prod.mk.injEq] at he
    obtain ⟨rfl, rfl, rfl⟩ := he
    exact ((accounting_of_result hsq hN hcells hU).2.2.1 rfl).2

/-- With enough fuel, the search from the initial domains returns true on a well-formed board
that has a completion. -/
theorem backtrack_true_of_completion {N B : Nat} {board S : Board} (hsq : Square N board)
    (hN : N = B * B) (hS : IsCompletion N B board S) (useMRV useLCV : Bool) {fuel : Nat}
    (hfuel : countZeros N board < fuel) :
    ∃ b' o', backtrack N B useMRV useLCV fuel board (initializeDomains N B board) 0
      = some (true, b', o') := by
  have hs := backtrack_isSome N B useMRV useLCV fuel board (initializeDomains N B board) 0 hfuel
  rcases hbt : backtrack N B useMRV useLCV fuel board (initializeDomains N B board) 0
    with _ | ⟨_ | _, b, o⟩
  · rw [hbt] at hs; cases hs
  · exact absurd hbt (backtrack_complete hN useMRV useLCV fuel board S
      (fills_of_completion hsq hS) _ (domSuper_initializeDomains N B board) 0 b o)
  · exact ⟨b, o, rfl⟩

theorem noRepeat_of_all_zero {N B : Nat} {board : Board}
    (h : ∀ row ∈ board, ∀ v ∈ row, v = (0 : Int)) : NoRepeat N B board := by
  intro r _ c _ r' _ c' _
  rintro ⟨_, _, _, hnz, hnn⟩
  cases hv : cellAt board r c with
  | none => exact hnn hv
  | some v =>
    obtain ⟨row, hrow, hmem⟩ := cellAt_mem hv
    rw [hv, h row hrow v hmem] at hnz
    exact hnz rfl

theorem fullBoard9_completion : IsCompletion 9 3 zeroBoard9 fullBoard9 :=
  isCompletion_of_checks (by decide) (by decide) (by decide) (by decide!) (by decide)

/-- C15.  Scenario A: on the 9 × 9 board whose 81 cells are all `0`, with `useMRV = false` and
`useLCV = false` and any fuel above 81, `solveSudokuCSP` reports `Solved`; the final board is
9 × 9, has no `0` cell, and every row, column and 3 × 3 box holds each value of `[1, 9]` exactly
once.  At least 81 states were opened. -/
theorem scenario_all_zero (fuel : Nat) (hfuel : 81 < fuel) :
    ∃ b' o', solveSudokuCSP fuel zeroBoard9 false false = some (Outcome.Solved b' o') ∧
      Square 9 b' ∧ (∀ r c, r < 9 → c < 9 → cellAt b' r c ≠ some 0) ∧ Complete 9 3 b' ∧
      81 ≤ o' := by
  have hsq : Square 9 zeroBoard9 := by decide
  have hcells : CellsInRange 9 zeroBoard9 := by decide
  have hcons : NoRepeat 9 3 zeroBoard9 := noRepeat_of_all_zero (by decide)
  have hz : countZeros 9 zeroBoard9 = 81 := by decide
  have hN : 9 = 3 * 3 := rfl
  have hlt : countZeros 9 zeroBoard9 < fuel := by omega
  obtain ⟨b', o', h⟩ := backtrack_true_of_completion hsq hN fullBoard9_completion false false
    hlt
  have hres := result_complete hsq hN hcells hcons h
  have hge := opened_ge_zeros hsq hN hcells h
  refine ⟨b', o', ?_, hres.1, hres.2.1, hres.2.2, by omega⟩
  rw [solve_eq hsq hN hcells, h]

/-- Witness of `scenario_all_zero` with fuel 82. -/
theorem scenario_all_zero_witness :
    ∃ b' o', solveSudokuCSP 82 zeroBoard9 false false = some (Outcome.Solved b' o') ∧
      Square 9 b' ∧ (∀ r c, r < 9 → c < 9 → cellAt b' r c ≠ some 0) ∧ Complete 9 3 b' ∧
      81 ≤ o' :=
  scenario_all_zero 82 (by decide)

theorem foldr_collect_mem {α : Type} (g : Int → Option (List α)) (cands : List Int)
    (L : List α)
    (h : cands.foldr (fun v acc => appendResults (g v) acc) (some []) = some L)
    (v : Int) (hv : v ∈ cands) : ∃ l1, g v = some l1 ∧ ∀ x ∈ l1, x ∈ L := by
  induction cands generalizing L with
  | nil => cases hv
  | cons a t ih =>
    rw [List.foldr_cons] at h
    cases hga : g a with
    | none => rw [hga] at h; cases h
    | some la =>
      cases hacc : t.foldr (fun v acc => appendResults (g v) acc) (some []) with
      | none => rw [hga, hacc] at h; cases h
      | some lt =>
        rw [hga, hacc] at h
        simp only [appendResults, Option.some.injEq] at h
        subst h
        rcases List.mem_cons.1 hv with rfl | hvt
        · exact ⟨la, hga, fun x hx => List.mem_append_left _ hx⟩
        · obtain ⟨l1, h1, h2⟩ := ih lt hacc hvt
          exact ⟨l1, h1, fun x hx => List.mem_append_right _ (h2 x hx)⟩

/-- Every filling of the board agrees, on the grid, with one of the boards of `allFillings`. -/
theorem allFillings_complete {N B : Nat} (hN : N = B * B) (fuel : Nat) (board : Board)
    (domains : Domains) (hsup : DomSuper N B board domains) (L : List Board)
    (h : allFillings N B fuel board domains = some L) (T : Board) (hf : Fills N B board T) :
    ∃ S ∈ L, ∀ r c, r < N → c < N → cellAt T r c = cellAt S r c := by
  induction fuel generalizing board domains L with
  | zero => simp [allFillings] at h
  | succ fuel ih =>
    unfold allFillings at h
    split at h
    · rename_i hsel
      cases h
      exact ⟨board, List.mem_singleton.2 rfl,
        fun r c hr hc => hf.1 r c (selectCell_none hsel r c hr hc)⟩
    · rename_i row col hsel
      obtain ⟨hrow, hcol, h0⟩ := selectCell_some hsel
      obtain ⟨v, hv, hv1, hv2, hpf⟩ := hf.2 row col hrow hcol h0
      have hval := fills_isValid hN hf hrow hcol h0 hv hv1 hpf
      have hmem := hsup row col hrow hcol h0 v hv1 hv2 hval
      obtain ⟨l1, hl1, hsub⟩ := foldr_collect_mem
        (fun v => allFillings N B fuel (setCell board row col v)
          (updateDomains N B domains row col v)) _ L h v hmem
      obtain ⟨S, hS, hagree⟩ := ih _ _
        (domSuper_updateDomains hN hsup hrow hcol h0 (by omega)) l1 hl1
        (fills_setCell hf h0 hv)
      exact ⟨S, hsub S hS, hagree⟩

set_option maxRecDepth 1000000 in
/-- The example board has a single filling: the enumeration of all of them returns one
board. -/
theorem exampleBoard_fillings :
    allFillings 9 3 54 exampleBoard (initializeDomains 9 3 exampleBoard)
      = some [exampleSolved] := by
  decide!

theorem exampleSolved_completion : IsCompletion 9 3 exampleBoard exampleSolved :=
  isCompletion_of_checks (by decide) (by decide) (by decide) (by decide!) (by decide)

/-- Whatever the heuristics, a successful search on the example board leaves
`exampleSolved`. -/
theorem example_result {useMRV useLCV : Bool} {fuel : Nat} {b' : Board} {o' : Nat}
    (h : backtrack 9 3 useMRV useLCV fuel exampleBoard (initializeDomains 9 3 exampleBoard) 0
      = some (true, b', o')) : b' = exampleSolved := by
  have hN : 9 = 3 * 3 := rfl
  have hsq : Square 9 exampleBoard := by decide
  have hf := backtrack_sound hN useMRV useLCV fuel exampleBoard _
    (domRange_initializeDomains 9 3 exampleBoard) 0 b' o' h
  obtain ⟨S, hS, hagree⟩ := allFillings_complete hN 54 exampleBoard _
    (domSuper_initializeDomains 9 3 exampleBoard) _ exampleBoard_fillings b' hf
  rw [List.mem_singleton] at hS
  subst hS
  exact board_ext (backtrack_square 9 3 useMRV useLCV fuel exampleBoard _ 0 _ hsq h)
    (by decide) hagree

/-- C13, as the code has it.  Scenario B: on the example board of `src/app.js`, with
`useMRV = false` and `useLCV = true` and any fuel above its 53 empty cells, `solveSudokuCSP`
reports `Solved` with the board `exampleSolved`, the only completion of the example board; its
row 0 is `[5, 3, 4, 6, 7, 8, 1, 9, 2]`. -/
theorem scenario_example (fuel : Nat) (hfuel : 53 < fuel) :
    ∃ o', solveSudokuCSP fuel exampleBoard false true
        = some (Outcome.Solved exampleSolved o') ∧
      exampleSolved[0]? = some [5, 3, 4, 6, 7, 8, 1, 9, 2] ∧
      ∀ S, IsCompletion 9 3 exampleBoard S → S = exampleSolved := by
  have hN : 9 = 3 * 3 := rfl
  have hsq : Square 9 exampleBoard := by decide
  have hcells : CellsInRange 9 exampleBoard := by decide
  have hz : countZeros 9 exampleBoard = 53 := by decide
  have hlt : countZeros 9 exampleBoard < fuel := by omega
  obtain ⟨b', o', h⟩ := backtrack_true_of_completion hsq hN exampleSolved_completion false true
    hlt
  have hb := example_result h
  subst hb
  refine ⟨o', by rw [solve_eq hsq hN hcells, h], rfl, ?_⟩
  intro S hS
  obtain ⟨S', hS', hagree⟩ := allFillings_complete hN 54 exampleBoard _
    (domSuper_initializeDomains 9 3 exampleBoard) _ exampleBoard_fillings S
    (fills_of_completion hsq hS)
  rw [List.mem_singleton] at hS'
  subst hS'
  exact board_ext hS.1 (by decide) hagree

/-- Witness of `scenario_example` with fuel 54. -/
theorem scenario_example_witness :
    ∃ o', solveSudokuCSP 54 exampleBoard false true
        = some (Outcome.Solved exampleSolved o') ∧
      exampleSolved[0]? = some [5, 3, 4, 6, 7, 8, 1, 9, 2] ∧
      ∀ S, IsCompletion 9 3 exampleBoard S → S = exampleSolved :=
  scenario_example 54 (by decide)

/-- C13 as stated fails: no run of `solveSudokuCSP` on the example board with `useMRV = false`
and `useLCV = true` reports `Solved` with row 0 equal to `[5, 3, 4, 6, 7, 8, 9, 1, 2]`; the
example board has a `1` at `(8, 7)`, in the column where that row has its `1`. -/
theorem scenario_example_counterexample :
    ¬ ∃ (fuel : Nat) (b' : Board) (o' : Nat),
      solveSudokuCSP fuel exampleBoard false true = some (Outcome.Solved b' o') ∧
      b'[0]? = some [5, 3, 4, 6, 7, 8, 9, 1, 2] := by
  rintro ⟨fuel, b', o', hsolve, hrow⟩
  have hN : 9 = 3 * 3 := rfl
  have hsq : Square 9 exampleBoard := by decide
  have hcells : CellsInRange 9 exampleBoard := by decide
  rw [solve_eq hsq hN hcells] at hsolve
  split at hsolve
  · cases hsolve
  · rename_i b o hbt
    cases hsolve
    have hb := example_result hbt
    subst hb
    revert hrow
    decide
  · cases hsolve

/-! ## Rows that share storage -/

theorem view_ofBoard (board : Board) : (SharedBoard.ofBoard board).view = board := by
  unfold SharedBoard.view SharedBoard.ofBoard
  apply List.ext_getElem
  · simp
  · intro i h1 h2
    simp [List.getD_eq_getElem?_getD, List.getElem?_eq_getElem h2]

theorem write_ofBoard (board : Board) (row col : Nat) (v : Int) :
    (SharedBoard.ofBoard board).write row col v
      = SharedBoard.ofBoard (setCell board row col v) := by
  unfold SharedBoard.write SharedBoard.ofBoard setCell
  by_cases h : row < board.length
  · simp [List.getElem?_range h, List.length_modify]
  · have hnone : (List.range board.length)[row]? = none := by
      rw [List.getElem?_eq_none_iff, List.length_range]
      omega
    simp [hnone, List.modify_eq_self (Nat.le_of_not_lt h)]

theorem tryCandidatesShared_ofBoard {N B : Nat}
    {childS : SharedBoard → Domains → Nat → List Rejected → Option FrameShared}
    {child : Board → Domains → Nat → Option Frame}
    (hchild : ∀ b d o rej, (childS (SharedBoard.ofBoard b) d o rej).map eraseRejected
      = (child b d o).map shareFrame)
    (domains : Domains) (row col : Nat) (cands : List Int) (board : Board) (opened : Nat)
    (rejected : List Rejected) :
    (tryCandidatesShared N B childS domains row col cands (SharedBoard.ofBoard board) opened
        rejected).map eraseRejected
      = (tryCandidates N B child domains row col cands board opened).map shareFrame := by
  induction cands generalizing board opened rejected with
  | nil => rfl
  | cons num rest ih =>
    rw [tryCandidatesShared, tryCandidates, view_ofBoard]
    split
    · simp only [write_ofBoard]
      have hc := hchild (setCell board row col num) (updateDomains N B domains row col num)
        (opened + 1) rejected
      rcases hS : childS (SharedBoard.ofBoard (setCell board row col num))
          (updateDomains N B domains row col num) (opened + 1) rejected
        with _ | ⟨_ | _, b1, o1, r1⟩ <;>
      rcases hC : child (setCell board row col num) (updateDomains N B domains row col num)
          (opened + 1) with _ | ⟨_ | _, b2, o2⟩ <;>
      rw [hS, hC] at hc <;>
      simp only [Option.map_some', Option.map_none', eraseRejected, shareFrame, Option.some.injEq,
        Prod.mk.injEq, reduceCtorEq, false_and, and_false, Bool.false_eq_true, Bool.true_eq_false,
        true_and] at hc
      · rfl
      · obtain ⟨hb, ho⟩ := hc
        subst hb ho
        simp only [write_ofBoard]
        exact ih _ _ _
      · obtain ⟨hb, ho⟩ := hc
        subst hb ho
        rfl
    · exact ih _ _ _

/-- When every row is an array of its own, the search over a `SharedBoard` is `backtrack`. -/
theorem backtrackShared_ofBoard (N B : Nat) (useMRV useLCV : Bool) (fuel : Nat) (board : Board)
    (domains : Domains) (opened : Nat) (rejected : List Rejected) :
    (backtrackShared N B useMRV useLCV fuel (SharedBoard.ofBoard board) domains opened
        rejected).map eraseRejected
      = (backtrack N B useMRV useLCV fuel board domains opened).map shareFrame := by
  induction fuel generalizing board domains opened rejected with
  | zero => rfl
  | succ fuel ih =>
    rw [backtrackShared, backtrack, view_ofBoard]
    split
    · rfl
    · exact tryCandidatesShared_ofBoard (fun b d o rej => ih b d o rej) _ _ _ _ _ _ _

theorem tryCandidatesShared_mono {N B : Nat}
    {child1 child2 : SharedBoard → Domains → Nat → List Rejected → Option FrameShared}
    (hchild : ∀ b d o rej r, child1 b d o rej = some r → child2 b d o rej = some r)
    (domains : Domains) (row col : Nat) (cands : List Int) (board : SharedBoard) (opened : Nat)
    (rejected : List Rejected) (r : FrameShared)
    (h : tryCandidatesShared N B child1 domains row col cands board opened rejected = some r) :
    tryCandidatesShared N B child2 domains row col cands board opened rejected = some r := by
  induction cands generalizing board opened rejected with
  | nil => exact h
  | cons num rest ih =>
    rw [tryCandidatesShared] at h ⊢
    split
    · rename_i hv
      rw [if_pos hv] at h
      simp only at h ⊢
      rcases hS : child1 (board.write row col num) (updateDomains N B domains row col num)
          (opened + 1) rejected with _ | ⟨_ | _, b1, o1, r1⟩
      · rw [hS] at h
        cases h
      · rw [hS] at h
        rw [hchild _ _ _ _ _ hS]
        exact ih _ _ _ h
      · rw [hS] at h
        rw [hchild _ _ _ _ _ hS]
        exact h
    · rename_i hv
      rw [if_neg hv] at h
      exact ih _ _ _ h

/-- A result of `backtrackShared` does not change when fuel is added. -/
theorem backtrackShared_fuel (N B : Nat) (useMRV useLCV : Bool) (fuel k : Nat)
    (board : SharedBoard) (domains : Domains) (opened : Nat) (rejected : List Rejected)
    (r : FrameShared)
    (h : backtrackShared N B useMRV useLCV fuel board domains opened rejected = some r) :
    backtrackShared N B useMRV useLCV (fuel + k) board domains opened rejected = some r := by
  induction fuel generalizing board domains opened rejected r with
  | zero => cases h
  | succ fuel ih =>
    rw [show fuel + 1 + k = (fuel + k) + 1 from by omega]
    rw [backtrackShared] at h ⊢
    split
    · rename_i hsel
      rw [hsel] at h
      exact h
    · rename_i row col hsel
      rw [hsel] at h
      exact tryCandidatesShared_mono (fun b d o rej r hr => ih b d o rej r hr) _ _ _ _ _ _ _ _ h

/-- C17.  The re-check of line 146 is not redundant.  Take the 4 × 4 board of zeros whose rows 0
and 2 are one array (`sharedRowsBoard`): it is 4 × 4 with 4 = 2², every cell is in `[0, 4]`, and
`isBoardValid` accepts it.  With every combination of `useMRV` and `useLCV`, the search from the
root call `backtrack(board, initializeDomains(board))` returns (with any fuel from 13 on), and
the first candidate that line 146 turns down in it is `2` at the cell `(3, 0)`, in the frame
whose board is `rejectingBoard` and whose domains are `rejectingDomains`: that frame selects
`(3, 0)`, `2` is in the set of the cell and in the list the loop runs over, and
`isValid(board, 3, 0, 2)` is false, as the box of the cell holds at `(2, 1)` the `2` that the write
to `(0, 1)` put into row 2.  The search then places `4` there and ends with `true` after 12
opened states. -/
theorem recheck_rejects (useMRV useLCV : Bool) :
    Square 4 sharedRowsBoard.view ∧ 4 = 2 * 2 ∧ CellsInRange 4 sharedRowsBoard.view ∧
    isBoardValid 4 sharedRowsBoard.view = true ∧
    (∃ later : List Rejected, ∀ k : Nat,
      backtrackShared 4 2 useMRV useLCV (13 + k) sharedRowsBoard
          (initializeDomains 4 2 sharedRowsBoard.view) 0 []
        = some (true, ⟨[0, 1, 0, 2], [[1, 2, 3, 4], [3, 4, 1, 2], [4, 3, 2, 1]]⟩, 12,
            ⟨rejectingBoard, rejectingDomains, 3, 0, 2⟩ :: later)) ∧
    selectCell 4 useMRV rejectingBoard rejectingDomains = some (3, 0) ∧
    (2 : Int) ∈ domAt rejectingDomains 3 0 ∧
    (2 : Int) ∈ sortDomainByLCV 4 2 useLCV rejectingBoard rejectingDomains 3 0 ∧
    isValid 4 2 rejectingBoard 3 0 2 = false := by
  refine ⟨by decide, rfl, by decide, by decide, ?_, ?_, by decide, ?_, by decide⟩
  · cases useMRV
    · exact ⟨[⟨[[1, 2, 3, 4], [3, 4, 1, 2], [1, 2, 3, 4], [4, 0, 0, 0]],
          [[[], [], [], []], [[], [], [], []], [[2], [1, 3], [2, 4], [1, 3]],
            [[], [1, 3], [2], [1, 3]]], 3, 1, 1⟩],
        fun k => backtrackShared_fuel 4 2 false useLCV 13 k _ _ _ _ _
          (by cases useLCV <;> decide)⟩
    · exact ⟨[⟨[[1, 2, 3, 4], [3, 4, 1, 2], [1, 2, 3, 4], [4, 0, 2, 0]],
          [[[], [], [], []], [[], [], [], []], [[2], [1, 3], [4], [1, 3]],
            [[], [1, 3], [], [1, 3]]], 3, 1, 1⟩],
        fun k => backtrackShared_fuel 4 2 true useLCV 13 k _ _ _ _ _
          (by cases useLCV <;> decide)⟩
  · cases useMRV <;> decide
  · cases useLCV <;> decide

end SudokuCSP
